import Mathlib

/-!
Adjacency lists and reachability closures of `fast_BFS_v2.cpp`.

A shallow embedding of `class AdjacencyList` of `src/fast_BFS_v2.cpp`
(`clear`, `build`, `BFS`) and of the containers it relies on.

Representation choices.

* `std::string` is the list of its characters; `<` on `List Char` is the
  lexicographic order, as `std::string::operator<`.
* `float weight` is never inspected by the program, only copied: it is carried
  as the natural number of its 32 bit pattern.
* `int` positions are natural numbers (the program stores container sizes).
* `std::unordered_map<string, β>` is an association list with at most one pair
  per key.  The program uses `find`, `operator[]` and `clear` on its maps and
  never iterates over one.
* `std::set<string>` is the ascending list of its elements.
* `std::unordered_set<string>` is the list of its elements in insertion order;
  the order in which a range-for visits it is a parameter (`StdLibrary.iterate`).
  The set built from the range of `visited` is the same for every order of the
  range (`setOfRange_iterate`), so the parameter is left out there.
* `std::queue<string>` is a list, front first.
* `std::sort` does not fix the order of equivalent elements: the two calls are
  parameters (`StdLibrary.sortAdjacency`, `StdLibrary.sortConnections`) that are
  only known to return a sorted permutation.  `std::stable_sort` has one possible
  result and is modelled by a stable insertion sort.
* The record stream is the list of its bytes; a `Connection` object is 28 bytes,
  `putID` at offset 0, `getID` at offset 12, `weight` at offset 24, and a
  `char[12]` without NUL cannot be made a `std::string` (the model returns `none`).
* Dereferencing `end()` and indexing a vector out of range are undefined
  behaviour: the model returns `none`.  The `while` loop of `BFS` is run with a
  fuel computed from the adjacency list; `none` is also returned when the fuel
  is used up, and the fuel is shown to be enough.
-/

namespace FastBFS

/-- A node identifier: the characters of a `std::string`. -/
abbrev NodeId := List Char

/-- One input record, `struct Connection`, with both C strings already read
up to their terminating NUL (this is how every use in the program reads them). -/
structure Connection where
  putID : NodeId
  getID : NodeId
  weight : Nat
deriving DecidableEq

/-- An outgoing connection, `struct Node`. -/
structure Node where
  getID : NodeId
  weight : Nat
deriving DecidableEq

/-- One adjacency entry, `struct AdjacencyListNode`. -/
structure AdjacencyListNode where
  putID : NodeId
  connections : List Node
deriving DecidableEq

/-- One closure record, `struct BFSNode`; `connections` is a `set<string>`. -/
structure BFSNode where
  putID : NodeId
  connections : List NodeId
deriving DecidableEq

/-- An `unordered_map<string, β>`. -/
abbrev UMap (β : Type) := List (NodeId × β)

/-- The value stored under key `k`: `m.find(k)`, `none` for `end()`. -/
def lookup {β : Type} : UMap β → NodeId → Option β
  | [], _ => none
  | (k', v) :: t, k => if k' = k then some v else lookup t k

/-- The map after `m[k] = v`. -/
def assign {β : Type} : UMap β → NodeId → β → UMap β
  | [], k, v => [(k, v)]
  | (k', v') :: t, k, v => if k' = k then (k', v) :: t else (k', v') :: assign t k v

/-- The value read by `m[k]`: the stored value, or the value-initialised `d`. -/
def subscript {β : Type} (m : UMap β) (k : NodeId) (d : β) : β :=
  (lookup m k).getD d

/-- The map after `m[k]` was evaluated: a missing key is inserted with `d`. -/
def touch {β : Type} (m : UMap β) (k : NodeId) (d : β) : UMap β :=
  match lookup m k with
  | some _ => m
  | none => assign m k d

/-- Insertion into a `set<string>`. -/
def setInsert (x : NodeId) : List NodeId → List NodeId
  | [] => [x]
  | y :: ys =>
    if x < y then x :: y :: ys
    else if y < x then y :: setInsert x ys
    else y :: ys

/-- Removal of a key from a `set<string>`. -/
def setErase (x : NodeId) (s : List NodeId) : List NodeId :=
  s.filter (fun y => decide (y ≠ x))

/-- Insertion into an `unordered_set<string>`. -/
def hashInsert (x : NodeId) (s : List NodeId) : List NodeId :=
  if x ∈ s then s else s ++ [x]

/-- Removal of a key from an `unordered_set<string>`. -/
def hashErase (x : NodeId) (s : List NodeId) : List NodeId :=
  s.filter (fun y => decide (y ≠ x))

/-- The range constructor `set<string>(first, last)`: every element of the range
is inserted in turn. -/
def setOfRange (l : List NodeId) : List NodeId :=
  l.foldl (fun s x => setInsert x s) []

/-- The second cursor of `std::set_intersection`, for a fixed head `a` of the
first range; `rest` continues with the tail of the first range. -/
def intersectWith (a : NodeId) (rest : List NodeId → List NodeId) :
    List NodeId → List NodeId
  | [] => []
  | b :: bs =>
    if a < b then rest (b :: bs)
    else if b < a then intersectWith a rest bs
    else a :: rest bs

/-- The output sequence of `std::set_intersection` on two ranges. -/
def set_intersection : List NodeId → List NodeId → List NodeId
  | [], _ => []
  | a :: as, l => intersectWith a (set_intersection as) l

/-- The comparator of the `sort` call on the adjacency list. -/
def adjacencyLess (a b : AdjacencyListNode) : Bool :=
  if a.putID ≠ b.putID then decide (a.putID < b.putID)
  else decide (a.connections.length < b.connections.length)

/-- The comparator of `sort_connections`. -/
def connectionLess (a b : Node) : Bool :=
  decide (a.getID < b.getID)

/-- The comparator of the `stable_sort` call on the closure records. -/
def closureGreater (a b : BFSNode) : Bool :=
  decide (a.connections.length > b.connections.length)

/-- What the program uses of the standard library without the standard fixing
the outcome: the two unstable sorts and the iteration order of an
`unordered_set` (a function of the insertions made into it). -/
structure StdLibrary where
  sortAdjacency : List AdjacencyListNode → List AdjacencyListNode
  sortAdjacency_perm : ∀ l, (sortAdjacency l).Perm l
  sortAdjacency_sorted : ∀ l,
    (sortAdjacency l).Pairwise (fun a b => adjacencyLess b a = false)
  sortConnections : List Node → List Node
  sortConnections_perm : ∀ l, (sortConnections l).Perm l
  sortConnections_sorted : ∀ l,
    (sortConnections l).Pairwise (fun a b => connectionLess b a = false)
  iterate : List NodeId → List NodeId
  iterate_perm : ∀ l, (iterate l).Perm l

/-- The state of `class AdjacencyList`. -/
structure AdjacencyList where
  adjacencyList : List AdjacencyListNode
  nodeIndex : UMap Nat
  BFS_result : List BFSNode
  BFS_index : UMap Nat
  index : UMap (List NodeId)
  inverted_index : UMap (List NodeId)
  dual_side_index : UMap (List NodeId)
deriving DecidableEq

/-- The state left by `clear()`. -/
def clear (_e : AdjacencyList) : AdjacencyList :=
  { adjacencyList := [], nodeIndex := [], BFS_result := [], BFS_index := [],
    index := [], inverted_index := [], dual_side_index := [] }

/-- The constructor `AdjacencyListNode(const Connection&)`. -/
def AdjacencyListNode.ofConnection (c : Connection) : AdjacencyListNode :=
  { putID := c.putID, connections := [{ getID := c.getID, weight := c.weight }] }

/-- The element write `adjacencyList[i].connections.push_back(n)`. -/
def pushConnection (n : Node) (adj : List AdjacencyListNode) (i : Nat) :
    Option (List AdjacencyListNode) :=
  adj[i]?.map (fun a => adj.set i { a with connections := a.connections ++ [n] })

/-- The body of the read loop of `build` for one record. -/
def buildRecord (e : AdjacencyList) (c : Connection) : Option AdjacencyList :=
  let merged : Option AdjacencyList :=
    match lookup e.nodeIndex c.putID with
    | none =>
      some { e with
        nodeIndex := assign e.nodeIndex c.putID e.adjacencyList.length
        adjacencyList := e.adjacencyList ++ [AdjacencyListNode.ofConnection c]
        index := assign e.index c.putID [c.getID] }
    | some i =>
      (pushConnection { getID := c.getID, weight := c.weight } e.adjacencyList i).map
        (fun adj => { e with
          adjacencyList := adj
          index := assign e.index c.putID
            (setInsert c.getID (subscript e.index c.putID [])) })
  merged.map (fun e1 =>
    match lookup e1.inverted_index c.getID with
    | none => { e1 with inverted_index := assign e1.inverted_index c.getID [c.putID] }
    | some s =>
      { e1 with inverted_index := assign e1.inverted_index c.getID (setInsert c.putID s) })

/-- The read loop of `build` over the records of the stream. -/
def readRecords (e : AdjacencyList) : List Connection → Option AdjacencyList
  | [] => some e
  | c :: cs => (buildRecord e c).bind (fun e1 => readRecords e1 cs)

/-- The method `sort_connections`. -/
def AdjacencyListNode.sort_connections (L : StdLibrary) (n : AdjacencyListNode) :
    AdjacencyListNode :=
  { n with connections := L.sortConnections n.connections }

/-- The `inserter` of `set_intersection`: the elements are inserted in turn. -/
def insertAll (xs : List NodeId) (s : List NodeId) : List NodeId :=
  xs.foldl (fun acc x => hashInsert x acc) s

/-- The body of the last loop of `build` for the node at position `i`, on the
three indices and the position map. -/
def indexNode (e : AdjacencyList) (i : Nat) (putID : NodeId) : AdjacencyList :=
  let fwd := subscript e.index putID []
  let index1 := touch e.index putID []
  let inv := subscript e.inverted_index putID []
  let inverted1 := touch e.inverted_index putID []
  let dual := subscript e.dual_side_index putID []
  { e with
    nodeIndex := assign e.nodeIndex putID i
    index := index1
    inverted_index := inverted1
    dual_side_index := assign e.dual_side_index putID
      (insertAll (set_intersection fwd inv) dual) }

/-- The last loop of `build` over the nodes from position `i` on. -/
def indexNodes : AdjacencyList → Nat → List AdjacencyListNode → AdjacencyList
  | e, _, [] => e
  | e, i, n :: ns => indexNodes (indexNode e i n.putID) (i + 1) ns

/-- What `build` does after the stream is exhausted. -/
def finishBuild (L : StdLibrary) (e : AdjacencyList) : AdjacencyList :=
  let sorted := L.sortAdjacency e.adjacencyList
  let e1 := { e with
    adjacencyList := sorted.map (AdjacencyListNode.sort_connections L)
    nodeIndex := [] }
  indexNodes e1 0 sorted

/-- The method `build`, on the records of the stream. -/
def build (L : StdLibrary) (e : AdjacencyList) (records : List Connection) :
    Option AdjacencyList :=
  (readRecords e records).map (finishBuild L)

/-- The shortcut scan of `BFS`: the first member, in the given
order, that has a position in `BFS_index`. -/
def firstFinalized (BFS_index : UMap Nat) : List NodeId → Option NodeId
  | [] => none
  | c :: cs =>
    match lookup BFS_index c with
    | some _ => some c
    | none => firstFinalized BFS_index cs

/-- The local state of one worklist traversal, with the position map that
`nodeIndex[current]` may extend. -/
structure Traversal where
  q : List NodeId
  visited : List NodeId
  nodeIndex : UMap Nat
deriving DecidableEq

/-- The state in which the `while` loop is entered for the node `start`. -/
def Traversal.start (e : AdjacencyList) (start : NodeId) : Traversal :=
  { q := [start], visited := [start], nodeIndex := e.nodeIndex }

/-- The fold branch: every member of a finalized closure is inserted in `visited`. -/
def foldClosure (closure : List NodeId) (visited : List NodeId) : List NodeId :=
  closure.foldl (fun v c => hashInsert c v) visited

/-- The expand branch: every connection whose target is not visited is enqueued
and marked. -/
def expand : List Node → List NodeId × List NodeId → List NodeId × List NodeId
  | [], s => s
  | c :: cs, (q, visited) =>
    if c.getID ∈ visited then expand cs (q, visited)
    else expand cs (q ++ [c.getID], visited ++ [c.getID])

/-- One iteration of the `while` loop of `BFS`, for the popped `current` and the
rest `q` of the queue. -/
def visit (e : AdjacencyList) (t : Traversal) (current : NodeId) (q : List NodeId) :
    Option Traversal :=
  if current ∈ t.visited then
    match lookup e.BFS_index current with
    | some i =>
      e.BFS_result[i]?.map (fun r =>
        { t with q := q, visited := foldClosure r.connections t.visited })
    | none =>
      e.adjacencyList[subscript t.nodeIndex current 0]?.map (fun node =>
        let s := expand node.connections (q, t.visited)
        { q := s.1, visited := s.2, nodeIndex := touch t.nodeIndex current 0 })
  else some { t with q := q }

/-- The `while` loop of `BFS`, for at most `fuel` tests of its condition. -/
def whileLoop (e : AdjacencyList) : Nat → Traversal → Option Traversal
  | 0, _ => none
  | fuel + 1, t =>
    match t.q with
    | [] => some t
    | current :: q => (visit e t current q).bind (whileLoop e fuel)

/-- The number of connections stored in an adjacency list. -/
def connectionCount (adj : List AdjacencyListNode) : Nat :=
  (adj.map (fun n => n.connections.length)).sum

/-- Fuel for one traversal: every pop but the first follows a push of a target
that was not visited, so there are at most `connectionCount + 1` pops. -/
def traversalFuel (e : AdjacencyList) : Nat :=
  connectionCount e.adjacencyList + 2

/-- The body of the `for` loop of `BFS` for one adjacency entry.  In the shortcut
branch the position of `m` is read after the position of the entry itself was
stored, as in the source; the iterator `bfs_iter` is modelled by the key it
points to. -/
def visitNode (L : StdLibrary) (e : AdjacencyList) (node : AdjacencyListNode) :
    Option AdjacencyList :=
  match lookup e.dual_side_index node.putID with
  | none => none
  | some dual_side =>
    match firstFinalized e.BFS_index (L.iterate dual_side) with
    | some m =>
      let index1 := assign e.BFS_index node.putID e.BFS_result.length
      match lookup index1 m with
      | none => none
      | some i =>
        e.BFS_result[i]?.map (fun r =>
          { e with
            BFS_index := index1
            BFS_result := e.BFS_result ++
              [{ putID := node.putID
                 connections := setErase node.putID (setInsert m r.connections) }] })
    | none =>
      (whileLoop e (traversalFuel e) (Traversal.start e node.putID)).map
        (fun t =>
          { e with
            nodeIndex := t.nodeIndex
            BFS_index := assign e.BFS_index node.putID e.BFS_result.length
            BFS_result := e.BFS_result ++
              [{ putID := node.putID
                 connections := setOfRange (hashErase node.putID t.visited) }] })

/-- The `for` loop of `BFS` over the given adjacency entries. -/
def visitNodes (L : StdLibrary) : AdjacencyList → List AdjacencyListNode → Option AdjacencyList
  | e, [] => some e
  | e, n :: ns => (visitNode L e n).bind (fun e1 => visitNodes L e1 ns)

/-- The call `stable_sort` on the closure records: insertion sort, which keeps
equivalent records in their order. -/
def stableSortClosures (l : List BFSNode) : List BFSNode :=
  l.insertionSort (fun a b => closureGreater b a = false)

/-- The method `BFS`. -/
def BFS (L : StdLibrary) (e : AdjacencyList) : Option AdjacencyList :=
  let e0 := { e with BFS_result := [], BFS_index := [] }
  (visitNodes L e0 e0.adjacencyList).map
    (fun e1 => { e1 with BFS_result := stableSortClosures e1.BFS_result })

/-- Insertion sort for a comparator `less`: a sorted permutation. -/
def referenceSort {β : Type} (less : β → β → Bool) (l : List β) : List β :=
  l.insertionSort (fun a b => less b a = false)

/-- A reference standard library: insertion sort for both `sort` calls, and an
`unordered_set` that is visited in insertion order. -/
def StdLibrary.reference : StdLibrary where
  sortAdjacency := referenceSort adjacencyLess
  sortAdjacency_perm := fun l => List.perm_insertionSort _ l
  sortAdjacency_sorted := fun l =>
    @List.sorted_insertionSort _ (fun a b => adjacencyLess b a = false) _
      ⟨fun a b => by
        simp only [adjacencyLess]
        by_cases h : a.putID = b.putID
        · simp [h]; omega
        · have h' : ¬ b.putID = a.putID := fun h2 => h h2.symm
          simp only [ne_eq, h, h', not_false_eq_true, if_true, decide_eq_false_iff_not, not_lt]
          exact le_total _ _⟩
      ⟨fun a b c => by
        simp only [adjacencyLess]
        intro h1 h2
        by_cases hab : a.putID = b.putID <;> by_cases hbc : b.putID = c.putID
        · have hac : c.putID = a.putID := by rw [hab, hbc]
          simp [hab, hbc] at h1 h2 ⊢; omega
        · have hca : ¬ c.putID = a.putID := fun h => hbc (by rw [← hab, h])
          have hcb : ¬ c.putID = b.putID := fun h => hbc h.symm
          simp [hab, hbc, hca, hcb] at h1 h2 ⊢
          simpa [hab] using h2
        · have hca : ¬ c.putID = a.putID := fun h => hab (by rw [← h, hbc])
          have hba : ¬ b.putID = a.putID := fun h => hab h.symm
          simp [hab, hbc, hca, hba] at h1 h2 ⊢
          simpa [hbc] using h1
        · have hba : ¬ b.putID = a.putID := fun h => hab h.symm
          have hcb : ¬ c.putID = b.putID := fun h => hbc h.symm
          simp [hab, hbc, hba, hcb] at h1 h2
          have hac : a.putID ≤ c.putID := le_trans h1 h2
          have hne : ¬ c.putID = a.putID := fun h =>
            hab (le_antisymm h1 (by rw [← h]; exact h2))
          simp [hne]; exact hac⟩ l
  sortConnections := referenceSort connectionLess
  sortConnections_perm := fun l => List.perm_insertionSort _ l
  sortConnections_sorted := fun l =>
    @List.sorted_insertionSort _ (fun a b => connectionLess b a = false) _
      ⟨fun a b => by
        simp only [connectionLess, decide_eq_false_iff_not, not_lt]; exact le_total _ _⟩
      ⟨fun a b c => by
        simp only [connectionLess, decide_eq_false_iff_not, not_lt]; exact le_trans⟩ l
  iterate := fun l => l
  iterate_perm := fun l => List.Perm.refl l

/-- The sequence `clear(); build(records); BFS()` of the menu loop of `main`,
from the engine state `e`. -/
def solve (L : StdLibrary) (e : AdjacencyList) (records : List Connection) :
    Option AdjacencyList :=
  (build L (clear e) records).bind (BFS L)

/-- The closure recorded for node `n` in a list of closure records. -/
def closureOf (result : List BFSNode) (n : NodeId) : Option (List NodeId) :=
  (result.find? (fun r => decide (r.putID = n))).map (fun r => r.connections)

/-- The input graph has an edge from `a` to `b`. -/
def Edge (records : List Connection) (a b : NodeId) : Prop :=
  ∃ c ∈ records, c.putID = a ∧ c.getID = b

/-- Reference reachability on the records: `b` is reached from `a` by following
one or more edges. -/
def Reachable (records : List Connection) : NodeId → NodeId → Prop :=
  Relation.TransGen (Edge records)

/-- The records of the end-to-end example: a 3-cycle `A → B → C → A` and a
tail `D → A`, with the weights 1.0, 2.0, 3.0 and 4.0. -/
def exampleRecords : List Connection :=
  [ { putID := "A".toList, getID := "B".toList, weight := 0x3F800000 },
    { putID := "B".toList, getID := "C".toList, weight := 0x40000000 },
    { putID := "C".toList, getID := "A".toList, weight := 0x40400000 },
    { putID := "D".toList, getID := "A".toList, weight := 0x40800000 } ]

/-- Two disjoint edges `A → B` and `C → D`: `B` and `D` have no outgoing edge. -/
def sinkRecords : List Connection :=
  [ { putID := "A".toList, getID := "B".toList, weight := 0x3F800000 },
    { putID := "C".toList, getID := "D".toList, weight := 0x3F800000 } ]

/-- The single edge `A → B`. -/
def singleEdge : List Connection :=
  [{ putID := "A".toList, getID := "B".toList, weight := 0x3F800000 }]

/-- An engine that was never used. -/
def freshEngine : AdjacencyList :=
  { adjacencyList := [], nodeIndex := [], BFS_result := [], BFS_index := [],
    index := [], inverted_index := [], dual_side_index := [] }

/-- The records leave nothing to the standard library: with the reference
library, no adjacency entry has two connections with the same target (so
`sort_connections` has one possible result) and no dual-side set has two members
(so its iteration order is fixed). -/
def unambiguous (records : List Connection) : Bool :=
  match build StdLibrary.reference freshEngine records with
  | none => false
  | some eb =>
    eb.adjacencyList.all (fun n =>
      decide ((n.connections.map (fun c => c.getID)).Nodup) &&
      decide ((subscript eb.dual_side_index n.putID []).length ≤ 1))

/-- The connections that the records give to source `s`, in input order. -/
def connectionsOf (records : List Connection) (s : NodeId) : List Node :=
  (records.filter (fun c => decide (c.putID = s))).map
    (fun c => { getID := c.getID, weight := c.weight })

/-- What the read loop of `build` has established once it has consumed
`records`, starting from a cleared engine. -/
structure ReadInv (records : List Connection) (e : AdjacencyList) : Prop where
  position : ∀ k i, lookup e.nodeIndex k = some i ↔
    e.adjacencyList[i]?.map (fun n => n.putID) = some k
  connections : ∀ (i : Nat) (n : AdjacencyListNode), e.adjacencyList[i]? = some n →
    n.connections = connectionsOf records n.putID
  sources : ∀ s, s ∈ e.adjacencyList.map (fun n => n.putID) ↔
    ∃ c ∈ records, c.putID = s
  forward_mem : ∀ s x, x ∈ subscript e.index s [] ↔ Edge records s x
  forward_sorted : ∀ s, (subscript e.index s []).Sorted (· < ·)
  inverse_mem : ∀ s x, x ∈ subscript e.inverted_index s [] ↔ Edge records x s
  inverse_sorted : ∀ s, (subscript e.inverted_index s []).Sorted (· < ·)
  dual_empty : e.dual_side_index = []
  result_empty : e.BFS_result = [] ∧ e.BFS_index = []

/-- What the last loop of `build` has done to the engine `e` when it has run
over the nodes `ns`, numbered from `i`, and left the engine `f`. -/
structure IndexPost (e f : AdjacencyList) (i : Nat) (ns : List AdjacencyListNode) : Prop where
  adjacency_eq : f.adjacencyList = e.adjacencyList
  result_eq : f.BFS_result = e.BFS_result ∧ f.BFS_index = e.BFS_index
  forward_eq : ∀ k, subscript f.index k [] = subscript e.index k []
  inverse_eq : ∀ k, subscript f.inverted_index k [] = subscript e.inverted_index k []
  position_in : ∀ (j : Nat) (n : AdjacencyListNode), ns[j]? = some n →
    lookup f.nodeIndex n.putID = some (i + j)
  position_out : ∀ k, k ∉ ns.map (fun n => n.putID) →
    lookup f.nodeIndex k = lookup e.nodeIndex k
  forward_in : ∀ n ∈ ns, lookup f.index n.putID = some (subscript e.index n.putID [])
  inverse_in : ∀ n ∈ ns,
    lookup f.inverted_index n.putID = some (subscript e.inverted_index n.putID [])
  dual_in : ∀ n ∈ ns, lookup f.dual_side_index n.putID =
    some (insertAll
      (set_intersection (subscript e.index n.putID []) (subscript e.inverted_index n.putID []))
      (subscript e.dual_side_index n.putID []))
  forward_out : ∀ k, k ∉ ns.map (fun n => n.putID) → lookup f.index k = lookup e.index k
  inverse_out : ∀ k, k ∉ ns.map (fun n => n.putID) →
    lookup f.inverted_index k = lookup e.inverted_index k
  dual_out : ∀ k, k ∉ ns.map (fun n => n.putID) →
    lookup f.dual_side_index k = lookup e.dual_side_index k

/-- What `clear(); build(records)` has established. -/
structure BuildPost (records : List Connection) (e : AdjacencyList) : Prop where
  ascending : (e.adjacencyList.map (fun n => n.putID)).Sorted (· < ·)
  sources : ∀ s, s ∈ e.adjacencyList.map (fun n => n.putID) ↔ ∃ c ∈ records, c.putID = s
  connections_perm : ∀ n ∈ e.adjacencyList,
    n.connections.Perm (connectionsOf records n.putID)
  connections_sorted : ∀ n ∈ e.adjacencyList,
    n.connections.Sorted (fun a b => a.getID ≤ b.getID)
  position : ∀ k i, lookup e.nodeIndex k = some i ↔
    e.adjacencyList[i]?.map (fun n => n.putID) = some k
  forward : ∀ n ∈ e.adjacencyList, ∃ s, lookup e.index n.putID = some s ∧
    s.Sorted (· < ·) ∧ ∀ x, x ∈ s ↔ Edge records n.putID x
  inverse : ∀ n ∈ e.adjacencyList, ∃ s, lookup e.inverted_index n.putID = some s ∧
    s.Sorted (· < ·) ∧ ∀ x, x ∈ s ↔ Edge records x n.putID
  dual : ∀ n ∈ e.adjacencyList, ∃ d, lookup e.dual_side_index n.putID = some d ∧
    ∀ x, x ∈ d ↔ x ∈ subscript e.index n.putID [] ∧ x ∈ subscript e.inverted_index n.putID []
  dual_absent : ∀ k, k ∉ e.adjacencyList.map (fun n => n.putID) →
    lookup e.dual_side_index k = none

/-- The state of a traversal after `k` more iterations of the `while` loop;
`none` when the loop has stopped before, or an index was out of range. -/
def runSteps (e : AdjacencyList) : Nat → Traversal → Option Traversal
  | 0, t => some t
  | k + 1, t =>
    match t.q with
    | [] => none
    | current :: q => (visit e t current q).bind (runSteps e k)

/-- The target ids stored in an adjacency list. -/
def targets (adj : List AdjacencyListNode) : List NodeId :=
  (adj.map (fun n => n.connections.map (fun c => c.getID))).flatten

/-- The number of distinct target ids that are not in `visited`. -/
def unvisited (e : AdjacencyList) (visited : List NodeId) : Nat :=
  ((targets e.adjacencyList).toFinset \ visited.toFinset).card

/-- Every stored position is in range: a position of `BFS_index` holds the
record of its key, a position of `nodeIndex` is one of the adjacency list; and
the `set<string>` of every closure record is ascending. -/
structure WellIndexed (e : AdjacencyList) : Prop where
  index_valid : ∀ k i, lookup e.BFS_index k = some i →
    ∃ r, e.BFS_result[i]? = some r ∧ r.putID = k
  position_valid : ∀ k i, lookup e.nodeIndex k = some i → i < e.adjacencyList.length
  closures_sorted : ∀ r ∈ e.BFS_result, r.connections.Sorted (· < ·)

/-- In `clear(); build(records); BFS()` the worklist traversal that is run for
the adjacency entry `b` folds through `a`: after some iterations of the `while`
loop, `a` is at the front of the queue and visited, and `BFS_index` holds a
position for `a`, whose record at that time is `ra`. -/
def FoldsThrough (L : StdLibrary) (e0 : AdjacencyList) (records : List Connection)
    (b a : NodeId) (ra : BFSNode) : Prop :=
  ∃ (eb : AdjacencyList) (j : Nat) (node : AdjacencyListNode) (e : AdjacencyList)
    (d : List NodeId) (k : Nat) (t : Traversal) (q : List NodeId) (i : Nat),
    build L (clear e0) records = some eb ∧
    eb.adjacencyList[j]? = some node ∧ node.putID = b ∧
    visitNodes L { eb with BFS_result := [], BFS_index := [] } (eb.adjacencyList.take j)
      = some e ∧
    lookup e.dual_side_index b = some d ∧
    firstFinalized e.BFS_index (L.iterate d) = none ∧
    runSteps e k (Traversal.start e b) = some t ∧
    t.q = a :: q ∧ a ∈ t.visited ∧
    lookup e.BFS_index a = some i ∧ e.BFS_result[i]? = some ra

/-- The traversal of the `while` loop with its pops recorded: the ids popped by
the next `k` iterations, in order, and the state they leave. -/
def runTrace (e : AdjacencyList) : Nat → Traversal → Option (List NodeId × Traversal)
  | 0, t => some ([], t)
  | k + 1, t =>
    match t.q with
    | [] => none
    | current :: q =>
      (visit e t current q).bind (fun t1 =>
        (runTrace e k t1).map (fun p => (current :: p.1, p.2)))

/-- In `clear(); build(records); BFS()`, `e` is the engine state in which the
`for` loop of `BFS` starts the iteration for `node`, the adjacency entry at
position `j`. -/
def ProcessedAt (L : StdLibrary) (e0 : AdjacencyList) (records : List Connection)
    (j : Nat) (node : AdjacencyListNode) (e : AdjacencyList) : Prop :=
  ∃ eb : AdjacencyList,
    build L (clear e0) records = some eb ∧
    eb.adjacencyList[j]? = some node ∧
    visitNodes L { eb with BFS_result := [], BFS_index := [] } (eb.adjacencyList.take j)
      = some e

/-- The engine left by `clear(); build(exampleRecords)` with the reference
library. -/
def exampleEngine : AdjacencyList :=
  (build StdLibrary.reference freshEngine exampleRecords).getD freshEngine

/-- Two traversal states that differ at most in keys that `nodeIndex[...]` has
inserted with position 0: every `nodeIndex[k]` reads the same position. -/
structure SameTraversal (t t' : Traversal) : Prop where
  q_eq : t.q = t'.q
  visited_eq : t.visited = t'.visited
  position_eq : ∀ k, subscript t.nodeIndex k 0 = subscript t'.nodeIndex k 0

/-- Two engine states that differ at most in keys that `nodeIndex[...]` has
inserted with position 0. -/
structure SameEngine (e e' : AdjacencyList) : Prop where
  adjacency_eq : e.adjacencyList = e'.adjacencyList
  result_eq : e.BFS_result = e'.BFS_result
  index_eq : e.BFS_index = e'.BFS_index
  forward_eq : e.index = e'.index
  inverse_eq : e.inverted_index = e'.inverted_index
  dual_eq : e.dual_side_index = e'.dual_side_index
  position_eq : ∀ k, subscript e.nodeIndex k 0 = subscript e'.nodeIndex k 0

/-- The size `sizeof(Connection)` of one record of the stream: two `char[12]` and a
4-byte `float`. -/
def recordSize : Nat := 28

/-- The objects that the reads `file.read(&connection, sizeof(Connection))` of
the loop of `build` deliver before `file.eof()` ends the loop: a read that finds
fewer than `recordSize` bytes left sets `eof`.  The stream is the list of its
bytes; `fuel` bounds the number of reads. -/
def readFrames : Nat → List Nat → List (List Nat)
  | 0, _ => []
  | fuel + 1, bytes =>
    if bytes.length < recordSize then []
    else bytes.take recordSize :: readFrames fuel (bytes.drop recordSize)

/-- The reads of the loop of `build` on a stream; the length of the stream is
fuel enough, since every read consumes `recordSize` bytes. -/
def frames (bytes : List Nat) : List (List Nat) :=
  readFrames bytes.length bytes

/-- The `std::string` made from a `char` array: the characters before the first
NUL; `none` when the array holds no NUL (the conversion would read past it). -/
def cString : List Nat → Option NodeId
  | [] => none
  | b :: bs => if b = 0 then some [] else (cString bs).map (fun s => Char.ofNat b :: s)

/-- The fields of a `Connection` object, as the loop body reads them: `putID` from
bytes 0 to 11, `getID` from bytes 12 to 23, `weight` from bytes 24 to 27 (carried
as the number with these four base-256 digits, lowest first). -/
def decodeConnection (frame : List Nat) : Option Connection :=
  (cString (frame.take 12)).bind (fun putID =>
    (cString ((frame.drop 12).take 12)).map (fun getID =>
      { putID := putID, getID := getID,
        weight := ((frame.drop 24).take 4).foldr (fun b acc => b + 256 * acc) 0 }))

/-- The records of a list of objects. -/
def decodeAll : List (List Nat) → Option (List Connection)
  | [] => some []
  | f :: fs => (decodeConnection f).bind (fun c => (decodeAll fs).map (fun cs => c :: cs))

/-- The method `build` on the bytes of the stream. -/
def buildStream (L : StdLibrary) (e : AdjacencyList) (bytes : List Nat) :
    Option AdjacencyList :=
  (decodeAll (frames bytes)).bind (build L e)

/-- The first `n` complete records of a stream, in order. -/
def blocks (n : Nat) (bytes : List Nat) : List (List Nat) :=
  (List.range n).map (fun i => (bytes.drop (recordSize * i)).take recordSize)

/-- A stream of 31 bytes: the record `A → B` with weight 1.0 and three more
bytes. -/
def truncatedStream : List Nat :=
  [65, 0, 0, 0, 0, 0, 0, 0, 0, 0, 0, 0,
   66, 0, 0, 0, 0, 0, 0, 0, 0, 0, 0, 0,
   0, 0, 128, 63,
   67, 0, 0]

/-- A 2-cycle: the records `A → B` and `B → A`. -/
def twoCycle : List Connection :=
  [ { putID := "A".toList, getID := "B".toList, weight := 0x3F800000 },
    { putID := "B".toList, getID := "A".toList, weight := 0x40000000 } ]

/-- The engine state in which `BFS` starts the iteration for the adjacency entry
at position `j`, after `clear(); build(records)` with the reference library
(a fresh engine when there is no such state). -/
def stateAt (records : List Connection) (j : Nat) : AdjacencyList :=
  match build StdLibrary.reference freshEngine records with
  | none => freshEngine
  | some eb =>
    (visitNodes StdLibrary.reference { eb with BFS_result := [], BFS_index := [] }
      (eb.adjacencyList.take j)).getD freshEngine

/-- The node ids that occur in the records, as a source or as a target. -/
def nodeIds (records : List Connection) : List NodeId :=
  records.map (fun c => c.putID) ++ records.map (fun c => c.getID)

/-- The edges that the expand branch of the `while` loop follows in the engine
state `e`: `b` is a target of the adjacency entry at position `nodeIndex[a]`,
which is position 0 for an id that has no position. -/
def Follows (e : AdjacencyList) (a b : NodeId) : Prop :=
  ∃ node c, e.adjacencyList[subscript e.nodeIndex a 0]? = some node ∧
    c ∈ node.connections ∧ c.getID = b

/-- The same edges, read off the records: the edges of the input graph, and for
an id that is the source of no record, the edges of the least source (the first
adjacency entry). -/
def SlipEdge (records : List Connection) (a b : NodeId) : Prop :=
  Edge records a b ∨
    ((∀ c ∈ records, c.putID ≠ a) ∧
      ∃ s, (∃ c ∈ records, c.putID = s) ∧ (∀ c ∈ records, s ≤ c.putID) ∧ Edge records s b)

/-- The closure of the record `r` is the set of the ids other than `r.putID` that
are reached from `r.putID` by one or more edges of `F`. -/
def ExactFor (F : NodeId → NodeId → Prop) (r : BFSNode) : Prop :=
  ∀ x, x ∈ r.connections ↔ Relation.TransGen F r.putID x ∧ x ≠ r.putID

/-- The invariant of the `while` loop for the start node `n` and the edges `F`:
the start node is visited, every visited id is the start node or reached from
it, and every visited id is in the queue or has all its successors visited. -/
structure TravInv (F : NodeId → NodeId → Prop) (n : NodeId) (t : Traversal) : Prop where
  start_mem : n ∈ t.visited
  sound : ∀ x ∈ t.visited, x = n ∨ Relation.TransGen F n x
  done : ∀ x ∈ t.visited, x ∈ t.q ∨ ∀ y, F x y → y ∈ t.visited

/-- The invariant of the `for` loop of `BFS` for the edges `F`: positions are in
range, the expand branch follows the edges `F`, and every closure recorded so
far is exact for `F`. -/
structure ExactInv (F : NodeId → NodeId → Prop) (e : AdjacencyList) : Prop where
  wf : WellIndexed e
  follows : ∀ a b, Follows e a b ↔ F a b
  exact : ∀ r ∈ e.BFS_result, ExactFor F r

/-- A plain breadth-first search on the input graph: the worklist loop that, for
the popped id, marks and enqueues every target of its records that is not
visited; `none` when the fuel is used up. -/
def plainLoop (records : List Connection) :
    Nat → List NodeId × List NodeId → Option (List NodeId)
  | 0, _ => none
  | _ + 1, ([], visited) => some visited
  | fuel + 1, (x :: q, visited) =>
    plainLoop records fuel (expand (connectionsOf records x) (q, visited))

/-- The result of the plain breadth-first search from `n`, with `n` removed, as
a `set<string>`. -/
def plainClosure (records : List Connection) (n : NodeId) : Option (List NodeId) :=
  (plainLoop records (records.length + 2) ([n], [n])).map
    (fun visited => setOfRange (hashErase n visited))

/-- Every target of the records is also the source of a record. -/
def SinkFree (records : List Connection) : Prop :=
  ∀ c ∈ records, ∃ c' ∈ records, c'.putID = c.getID

/-- The number of distinct targets of the records that are not in `visited`. -/
def remaining (records : List Connection) (visited : List NodeId) : Nat :=
  ((records.map (fun c => c.getID)).toFinset \ visited.toFinset).card

/-- Two 2-cycles through `C`: the records `A → C`, `C → A`, `B → C`, `C → B`. -/
def twoNeighbours : List Connection :=
  [ { putID := "A".toList, getID := "C".toList, weight := 0x3F800000 },
    { putID := "C".toList, getID := "A".toList, weight := 0x40000000 },
    { putID := "B".toList, getID := "C".toList, weight := 0x40400000 },
    { putID := "C".toList, getID := "B".toList, weight := 0x40800000 } ]

/-! ## Containers -/

theorem lookup_assign {β : Type} (m : UMap β) (k k' : NodeId) (v : β) :
    lookup (assign m k v) k' = if k = k' then some v else lookup m k' := by
  induction m with
  | nil => simp [assign, lookup]
  | cons p t ih =>
    obtain ⟨k0, v0⟩ := p
    by_cases h : k0 = k
    · subst h
      by_cases h' : k0 = k' <;> simp [assign, lookup, h']
    · by_cases h' : k0 = k'
      · subst h'
        have : ¬ k = k0 := fun h2 => h h2.symm
        simp [assign, lookup, h, this]
      · simp [assign, lookup, h, h', ih]

theorem lookup_assign_self {β : Type} (m : UMap β) (k : NodeId) (v : β) :
    lookup (assign m k v) k = some v := by
  simp [lookup_assign]

theorem lookup_assign_ne {β : Type} (m : UMap β) {k k' : NodeId} (v : β) (h : k ≠ k') :
    lookup (assign m k v) k' = lookup m k' := by
  simp [lookup_assign, h]

theorem lookup_touch {β : Type} (m : UMap β) (k k' : NodeId) (d : β) :
    lookup (touch m k d) k' =
      if k = k' then some (subscript m k d) else lookup m k' := by
  unfold touch subscript
  cases h : lookup m k with
  | some v =>
    by_cases hk : k = k'
    · subst hk; simp [h]
    · simp [hk]
  | none => simp [lookup_assign]

theorem subscript_touch {β : Type} (m : UMap β) (k k' : NodeId) (d : β) :
    subscript (touch m k d) k' d = subscript m k' d := by
  unfold subscript
  rw [lookup_touch]
  by_cases hk : k = k'
  · subst hk; simp [subscript]
  · simp [hk]

theorem subscript_assign {β : Type} (m : UMap β) (k k' : NodeId) (v d : β) :
    subscript (assign m k v) k' d = if k = k' then v else subscript m k' d := by
  unfold subscript
  rw [lookup_assign]
  by_cases hk : k = k' <;> simp [hk]

theorem mem_setInsert {x a : NodeId} {s : List NodeId} :
    a ∈ setInsert x s ↔ a = x ∨ a ∈ s := by
  induction s with
  | nil => simp [setInsert]
  | cons y ys ih =>
    unfold setInsert
    by_cases h1 : x < y
    · simp [h1]
    · by_cases h2 : y < x
      · simp [h1, h2, ih]; tauto
      · have hxy : x = y := le_antisymm (not_lt.mp h2) (not_lt.mp h1)
        subst hxy
        simp

theorem sorted_setInsert (x : NodeId) {s : List NodeId} (hs : s.Sorted (· < ·)) :
    (setInsert x s).Sorted (· < ·) := by
  induction s with
  | nil => simp [setInsert]
  | cons y ys ih =>
    have hys : ys.Sorted (· < ·) := hs.of_cons
    have hy : ∀ b ∈ ys, y < b := List.rel_of_sorted_cons hs
    unfold setInsert
    by_cases h1 : x < y
    · simp only [h1, if_true]
      refine List.sorted_cons.mpr ⟨?_, hs⟩
      intro b hb
      rcases List.mem_cons.mp hb with rfl | hb
      · exact h1
      · exact lt_trans h1 (hy b hb)
    · by_cases h2 : y < x
      · simp only [h1, h2, if_true, if_false]
        refine List.sorted_cons.mpr ⟨?_, ih hys⟩
        intro b hb
        rcases mem_setInsert.mp hb with rfl | hb
        · exact h2
        · exact hy b hb
      · simp only [h1, h2, if_false]
        exact hs

theorem mem_setErase {x a : NodeId} {s : List NodeId} :
    a ∈ setErase x s ↔ a ∈ s ∧ a ≠ x := by
  simp [setErase]

theorem mem_hashErase {x a : NodeId} {s : List NodeId} :
    a ∈ hashErase x s ↔ a ∈ s ∧ a ≠ x := by
  simp [hashErase]

theorem mem_hashInsert {x a : NodeId} {s : List NodeId} :
    a ∈ hashInsert x s ↔ a = x ∨ a ∈ s := by
  unfold hashInsert
  by_cases h : x ∈ s
  · simp only [h, if_true]
    constructor
    · exact fun ha => Or.inr ha
    · rintro (rfl | ha)
      · exact h
      · exact ha
  · simp [h]; tauto

theorem mem_insertAll {xs s : List NodeId} {a : NodeId} :
    a ∈ insertAll xs s ↔ a ∈ xs ∨ a ∈ s := by
  unfold insertAll
  induction xs generalizing s with
  | nil => simp
  | cons x xs ih => simp [List.foldl_cons, ih, mem_hashInsert]; tauto

theorem mem_foldClosure {cl v : List NodeId} {a : NodeId} :
    a ∈ foldClosure cl v ↔ a ∈ cl ∨ a ∈ v := by
  unfold foldClosure
  induction cl generalizing v with
  | nil => simp
  | cons x xs ih => simp [List.foldl_cons, ih, mem_hashInsert]; tauto

theorem mem_foldl_setInsert {l s : List NodeId} {a : NodeId} :
    a ∈ l.foldl (fun s x => setInsert x s) s ↔ a ∈ l ∨ a ∈ s := by
  induction l generalizing s with
  | nil => simp
  | cons x xs ih => simp [List.foldl_cons, ih, mem_setInsert]; tauto

theorem mem_setOfRange {l : List NodeId} {a : NodeId} :
    a ∈ setOfRange l ↔ a ∈ l := by
  simp [setOfRange, mem_foldl_setInsert]

theorem mem_intersectWith {a : NodeId} {as : List NodeId} {rest : List NodeId → List NodeId}
    (ha : ∀ b ∈ as, a < b)
    (hrest : ∀ l : List NodeId, l.Sorted (· < ·) → ∀ x, x ∈ rest l ↔ x ∈ as ∧ x ∈ l)
    {l : List NodeId} (hl : l.Sorted (· < ·)) (x : NodeId) :
    x ∈ intersectWith a rest l ↔ x ∈ a :: as ∧ x ∈ l := by
  induction l with
  | nil => simp [intersectWith]
  | cons b bs ih =>
    have hbs : bs.Sorted (· < ·) := hl.of_cons
    have hb : ∀ y ∈ bs, b < y := List.rel_of_sorted_cons hl
    unfold intersectWith
    by_cases h1 : a < b
    · simp only [h1, if_true]
      rw [hrest _ hl]
      constructor
      · rintro ⟨h, h'⟩; exact ⟨List.mem_cons_of_mem _ h, h'⟩
      · rintro ⟨h, h'⟩
        rcases List.mem_cons.mp h with rfl | h
        · rcases List.mem_cons.mp h' with rfl | h'
          · exact absurd h1 (lt_irrefl _)
          · exact absurd (lt_trans h1 (hb _ h')) (lt_irrefl _)
        · exact ⟨h, h'⟩
    · by_cases h2 : b < a
      · simp only [h1, h2, if_true, if_false]
        rw [ih hbs]
        constructor
        · rintro ⟨h, h'⟩; exact ⟨h, List.mem_cons_of_mem _ h'⟩
        · rintro ⟨h, h'⟩
          rcases List.mem_cons.mp h' with rfl | h'
          · rcases List.mem_cons.mp h with rfl | h
            · exact absurd h2 (lt_irrefl _)
            · exact absurd (lt_trans h2 (ha _ h)) (lt_irrefl _)
          · exact ⟨h, h'⟩
      · have hab : a = b := le_antisymm (not_lt.mp h2) (not_lt.mp h1)
        simp only [h1, h2, if_false]
        rw [List.mem_cons, hrest _ hbs]
        constructor
        · rintro (hx | ⟨h, h'⟩)
          · exact ⟨List.mem_cons.mpr (Or.inl hx), List.mem_cons.mpr (Or.inl (hx.trans hab))⟩
          · exact ⟨List.mem_cons_of_mem _ h, List.mem_cons_of_mem _ h'⟩
        · rintro ⟨h, h'⟩
          by_cases hx : x = a
          · exact Or.inl hx
          · have hxa : x ∈ as := (List.mem_cons.mp h).resolve_left hx
            have hxb : x ∈ bs :=
              (List.mem_cons.mp h').resolve_left (fun h3 => hx (h3.trans hab.symm))
            exact Or.inr ⟨hxa, hxb⟩

theorem mem_set_intersection {l₁ l₂ : List NodeId} (h₁ : l₁.Sorted (· < ·))
    (h₂ : l₂.Sorted (· < ·)) (x : NodeId) :
    x ∈ set_intersection l₁ l₂ ↔ x ∈ l₁ ∧ x ∈ l₂ := by
  induction l₁ generalizing l₂ x with
  | nil => simp [set_intersection]
  | cons a as ih =>
    unfold set_intersection
    exact mem_intersectWith (List.rel_of_sorted_cons h₁)
      (fun l hl y => ih h₁.of_cons hl y) h₂ x

/-! ## The read loop of `build` -/

theorem edge_append {recs : List Connection} {c : Connection} {a b : NodeId} :
    Edge (recs ++ [c]) a b ↔ Edge recs a b ∨ (c.putID = a ∧ c.getID = b) := by
  unfold Edge
  constructor
  · rintro ⟨d, hd, h⟩
    rcases List.mem_append.mp hd with hd | hd
    · exact Or.inl ⟨d, hd, h⟩
    · rw [List.mem_singleton] at hd
      subst hd
      exact Or.inr h
  · rintro (⟨d, hd, h⟩ | h)
    · exact ⟨d, List.mem_append_left _ hd, h⟩
    · exact ⟨c, List.mem_append_right _ (List.mem_singleton.mpr rfl), h⟩

theorem connectionsOf_append (recs : List Connection) (c : Connection) (s : NodeId) :
    connectionsOf (recs ++ [c]) s = connectionsOf recs s ++
      (if c.putID = s then [{ getID := c.getID, weight := c.weight }] else []) := by
  unfold connectionsOf
  by_cases h : c.putID = s <;> simp [List.filter_append, List.filter_cons, h]

theorem connectionsOf_eq_nil {recs : List Connection} {s : NodeId}
    (h : ¬ ∃ c ∈ recs, c.putID = s) : connectionsOf recs s = [] := by
  unfold connectionsOf
  rw [List.map_eq_nil_iff, List.filter_eq_nil_iff]
  intro c hc hs
  exact h ⟨c, hc, of_decide_eq_true hs⟩

theorem invertedStep (e1 : AdjacencyList) (g p : NodeId) :
    (match lookup e1.inverted_index g with
      | none => { e1 with inverted_index := assign e1.inverted_index g [p] }
      | some s => { e1 with inverted_index := assign e1.inverted_index g (setInsert p s) }) =
    { e1 with inverted_index :=
        assign e1.inverted_index g (setInsert p (subscript e1.inverted_index g [])) } := by
  cases h : lookup e1.inverted_index g <;> simp [subscript, h, setInsert]

theorem readInv_clear (e : AdjacencyList) : ReadInv [] (clear e) where
  position := by intro k i; simp [clear, lookup]
  connections := by intro i n h; simp [clear] at h
  sources := by intro s; simp [clear]
  forward_mem := by intro s x; simp [clear, subscript, lookup, Edge]
  forward_sorted := by intro s; simp [clear, subscript, lookup]
  inverse_mem := by intro s x; simp [clear, subscript, lookup, Edge]
  inverse_sorted := by intro s; simp [clear, subscript, lookup]
  dual_empty := rfl
  result_empty := ⟨rfl, rfl⟩

theorem buildRecord_inv {recs : List Connection} {e : AdjacencyList} (c : Connection)
    (inv : ReadInv recs e) :
    ∃ e', buildRecord e c = some e' ∧ ReadInv (recs ++ [c]) e' := by
  unfold buildRecord
  cases hfind : lookup e.nodeIndex c.putID with
  | none =>
    have hnew : ¬ ∃ d ∈ recs, d.putID = c.putID := by
      rw [← inv.sources]
      intro hmem
      obtain ⟨i, hi⟩ := List.mem_iff_getElem?.mp hmem
      rw [List.getElem?_map] at hi
      rw [← inv.position, hfind] at hi
      exact Option.noConfusion hi
    simp only [Option.map_some', invertedStep]
    refine ⟨_, rfl, ?_⟩
    constructor
    · intro k i
      simp only [lookup_assign]
      rcases Nat.lt_trichotomy i e.adjacencyList.length with hlt | heq | hgt
      · rw [List.getElem?_append_left hlt, ← inv.position]
        by_cases hk : c.putID = k
        · subst hk
          simp [hfind]; omega
        · simp [hk]
      · subst heq
        have hget : (e.adjacencyList ++ [AdjacencyListNode.ofConnection c])[e.adjacencyList.length]?
            = some (AdjacencyListNode.ofConnection c) := by simp
        rw [hget]
        by_cases hk : c.putID = k
        · simp [hk, AdjacencyListNode.ofConnection]
        · simp only [hk, if_false]
          constructor
          · intro h
            have := (inv.position k _).mp h
            simp at this
          · intro h
            simp [AdjacencyListNode.ofConnection] at h
            exact absurd h hk
      · rw [List.getElem?_eq_none (by simp; omega)]
        by_cases hk : c.putID = k
        · simp [hk]; omega
        · simp only [hk, if_false]
          constructor
          · intro h
            have := (inv.position k _).mp h
            rw [List.getElem?_eq_none (by omega)] at this
            simp at this
          · intro h
            simp at h
    · intro i n hn
      rcases Nat.lt_trichotomy i e.adjacencyList.length with hlt | heq | hgt
      · rw [List.getElem?_append_left hlt] at hn
        rw [inv.connections i n hn, connectionsOf_append]
        have hne : ¬ c.putID = n.putID := by
          intro h
          have := (inv.position n.putID i).mpr (by rw [hn]; rfl)
          rw [← h, hfind] at this
          exact Option.noConfusion this
        simp [hne]
      · subst heq
        simp at hn
        subst hn
        simp [AdjacencyListNode.ofConnection, connectionsOf_append, connectionsOf_eq_nil hnew]
      · rw [List.getElem?_eq_none (by simp; omega)] at hn
        exact Option.noConfusion hn
    · intro s
      simp only [List.map_append, List.mem_append, inv.sources, List.map_cons, List.map_nil,
        List.mem_singleton, AdjacencyListNode.ofConnection]
      constructor
      · rintro (⟨d, hd, h⟩ | h)
        · exact ⟨d, Or.inl hd, h⟩
        · exact ⟨c, Or.inr rfl, h.symm⟩
      · rintro ⟨d, hd | hd, h⟩
        · exact Or.inl ⟨d, hd, h⟩
        · subst hd; exact Or.inr h.symm
    · intro s x
      simp only [subscript_assign, edge_append]
      by_cases hs : c.putID = s
      · subst hs
        have : ¬ Edge recs c.putID x := fun ⟨d, hd, h, _⟩ => hnew ⟨d, hd, h⟩
        simp [this, eq_comm]
      · simp [hs, inv.forward_mem]
    · intro s
      simp only [subscript_assign]
      by_cases hs : c.putID = s
      · simp [hs]
      · simp [hs, inv.forward_sorted]
    · intro s x
      simp only [subscript_assign, edge_append]
      by_cases hs : c.getID = s
      · subst hs
        simp [mem_setInsert, inv.inverse_mem, eq_comm, or_comm]
      · simp [hs, inv.inverse_mem]
    · intro s
      simp only [subscript_assign]
      by_cases hs : c.getID = s
      · simp only [hs, if_true]
        exact sorted_setInsert _ (inv.inverse_sorted _)
      · simp [hs, inv.inverse_sorted]
    · exact inv.dual_empty
    · exact inv.result_empty
  | some i =>
    obtain ⟨a, ha, hap⟩ : ∃ a, e.adjacencyList[i]? = some a ∧ a.putID = c.putID := by
      have := (inv.position _ _).mp hfind
      rcases h : e.adjacencyList[i]? with _ | a
      · rw [h] at this; simp at this
      · rw [h] at this; exact ⟨a, rfl, by simpa using this⟩
    have hi : i < e.adjacencyList.length := (List.getElem?_eq_some.mp ha).1
    have hmap : ∀ j : Nat, ((e.adjacencyList.set i
        { a with connections := a.connections ++ [{ getID := c.getID, weight := c.weight }] })[j]?).map
          (fun n : AdjacencyListNode => n.putID) =
        (e.adjacencyList[j]?).map (fun n : AdjacencyListNode => n.putID) := by
      intro j
      rw [List.getElem?_set]
      by_cases hij : i = j
      · subst hij; simp [hi, ha]
      · simp [hij]
    simp only [pushConnection, ha, Option.map_some', invertedStep]
    refine ⟨_, rfl, ?_⟩
    constructor
    · intro k j
      simp only [hmap]
      exact inv.position k j
    · intro j n hn
      simp only [List.getElem?_set] at hn
      by_cases hij : i = j
      · simp only [hij, if_true] at hn
        subst hij
        simp only [hi, if_true, Option.some.injEq] at hn
        subst hn
        simp only [connectionsOf_append, hap, if_true]
        rw [inv.connections i a ha, hap]
      · simp only [hij, if_false] at hn
        rw [inv.connections j n hn, connectionsOf_append]
        have hne : ¬ c.putID = n.putID := by
          intro h
          have := (inv.position n.putID j).mpr (by rw [hn]; rfl)
          rw [← h, hfind] at this
          exact hij (Option.some.inj this)
        simp [hne]
    · intro s
      have hsrc : s ∈ (e.adjacencyList.set i
          { a with connections := a.connections ++ [{ getID := c.getID, weight := c.weight }] }).map
            (fun n => n.putID) ↔ s ∈ e.adjacencyList.map (fun n => n.putID) := by
        simp only [List.mem_iff_getElem?, List.getElem?_map, hmap]
      simp only [hsrc, inv.sources]
      constructor
      · rintro ⟨d, hd, h⟩
        exact ⟨d, List.mem_append_left _ hd, h⟩
      · rintro ⟨d, hd, h⟩
        rcases List.mem_append.mp hd with hd | hd
        · exact ⟨d, hd, h⟩
        · rw [List.mem_singleton] at hd
          subst hd
          rw [← h, ← inv.sources]
          exact List.mem_iff_getElem?.mpr ⟨i, by rw [List.getElem?_map, ha]; simp [hap]⟩
    · intro s x
      simp only [subscript_assign, edge_append]
      by_cases hs : c.putID = s
      · subst hs
        simp [mem_setInsert, inv.forward_mem, eq_comm, or_comm]
      · simp [hs, inv.forward_mem]
    · intro s
      simp only [subscript_assign]
      by_cases hs : c.putID = s
      · simp only [hs, if_true]
        exact sorted_setInsert _ (inv.forward_sorted _)
      · simp [hs, inv.forward_sorted]
    · intro s x
      simp only [subscript_assign, edge_append]
      by_cases hs : c.getID = s
      · subst hs
        simp [mem_setInsert, inv.inverse_mem, eq_comm, or_comm]
      · simp [hs, inv.inverse_mem]
    · intro s
      simp only [subscript_assign]
      by_cases hs : c.getID = s
      · simp only [hs, if_true]
        exact sorted_setInsert _ (inv.inverse_sorted _)
      · simp [hs, inv.inverse_sorted]
    · exact inv.dual_empty
    · exact inv.result_empty

theorem readRecords_inv {pre : List Connection} {e : AdjacencyList} (cs : List Connection)
    (inv : ReadInv pre e) :
    ∃ e', readRecords e cs = some e' ∧ ReadInv (pre ++ cs) e' := by
  induction cs generalizing pre e with
  | nil => exact ⟨e, rfl, by simpa using inv⟩
  | cons c cs ih =>
    obtain ⟨e1, h1, inv1⟩ := buildRecord_inv c inv
    obtain ⟨e2, h2, inv2⟩ := ih inv1
    refine ⟨e2, ?_, ?_⟩
    · simp [readRecords, h1, h2]
    · simpa using inv2

theorem readRecords_clear (e : AdjacencyList) (records : List Connection) :
    ∃ e', readRecords (clear e) records = some e' ∧ ReadInv records e' := by
  simpa using readRecords_inv records (readInv_clear e)

/-! ## The last loop of `build` -/

theorem indexNodes_post (ns : List AdjacencyListNode)
    (hnd : (ns.map (fun n => n.putID)).Nodup) (e : AdjacencyList) (i : Nat) :
    IndexPost e (indexNodes e i ns) i ns := by
  induction ns generalizing e i with
  | nil =>
    constructor <;> simp [indexNodes]
  | cons n ns ih =>
    rw [List.map_cons, List.nodup_cons] at hnd
    obtain ⟨hn, hnd'⟩ := hnd
    have post := ih hnd' (indexNode e i n.putID) (i + 1)
    have hne : ∀ n' ∈ ns, ¬ n.putID = n'.putID := by
      intro n' hn' h
      exact hn (List.mem_map.mpr ⟨n', hn', h.symm⟩)
    simp only [indexNodes]
    constructor
    · rw [post.adjacency_eq]; rfl
    · rw [post.result_eq.1, post.result_eq.2]; exact ⟨rfl, rfl⟩
    · intro k
      rw [post.forward_eq]
      exact subscript_touch _ _ _ _
    · intro k
      rw [post.inverse_eq]
      exact subscript_touch _ _ _ _
    · intro j n' hj
      cases j with
      | zero =>
        simp only [List.getElem?_cons_zero, Option.some.injEq] at hj
        subst hj
        rw [post.position_out _ hn]
        simp [indexNode, lookup_assign]
      | succ j =>
        simp only [List.getElem?_cons_succ] at hj
        rw [post.position_in j n' hj]
        congr 1
        omega
    · intro k hk
      simp only [List.map_cons, List.mem_cons, not_or] at hk
      rw [post.position_out _ hk.2]
      simp only [indexNode, lookup_assign]
      rw [if_neg (fun h : n.putID = k => hk.1 h.symm)]
    · intro n' hn'
      rcases List.mem_cons.mp hn' with heq | hn'
      · subst heq
        rw [post.forward_out _ hn]
        simp [indexNode, lookup_touch]
      · rw [post.forward_in _ hn']
        simp [indexNode, subscript_touch]
    · intro n' hn'
      rcases List.mem_cons.mp hn' with heq | hn'
      · subst heq
        rw [post.inverse_out _ hn]
        simp [indexNode, lookup_touch]
      · rw [post.inverse_in _ hn']
        simp [indexNode, subscript_touch]
    · intro n' hn'
      rcases List.mem_cons.mp hn' with heq | hn'
      · subst heq
        rw [post.dual_out _ hn]
        simp [indexNode, lookup_assign]
      · rw [post.dual_in _ hn']
        simp [indexNode, subscript_touch, subscript_assign, hne n' hn']
    · intro k hk
      simp only [List.map_cons, List.mem_cons, not_or] at hk
      rw [post.forward_out _ hk.2]
      simp only [indexNode, lookup_touch]
      rw [if_neg (fun h : n.putID = k => hk.1 h.symm)]
    · intro k hk
      simp only [List.map_cons, List.mem_cons, not_or] at hk
      rw [post.inverse_out _ hk.2]
      simp only [indexNode, lookup_touch]
      rw [if_neg (fun h : n.putID = k => hk.1 h.symm)]
    · intro k hk
      simp only [List.map_cons, List.mem_cons, not_or] at hk
      rw [post.dual_out _ hk.2]
      simp only [indexNode, lookup_assign]
      rw [if_neg (fun h : n.putID = k => hk.1 h.symm)]

theorem ReadInv.nodup {records : List Connection} {e : AdjacencyList}
    (inv : ReadInv records e) : (e.adjacencyList.map (fun n => n.putID)).Nodup := by
  rw [List.nodup_iff_getElem?_ne_getElem?]
  intro i j hij hj heq
  rw [List.length_map] at hj
  have hjk : (e.adjacencyList.map (fun n => n.putID))[j]? =
      some (e.adjacencyList[j]).putID := by
    rw [List.getElem?_map, List.getElem?_eq_getElem hj]; rfl
  have h1 := (inv.position _ j).mpr (by rw [← List.getElem?_map]; exact hjk)
  have h2 := (inv.position _ i).mpr (by rw [← List.getElem?_map, heq]; exact hjk)
  rw [h1] at h2
  have := Option.some.inj h2
  omega

theorem ascending_of_sorted {l : List AdjacencyListNode}
    (hs : l.Pairwise (fun a b => adjacencyLess b a = false))
    (hnd : (l.map (fun n => n.putID)).Nodup) :
    (l.map (fun n => n.putID)).Sorted (· < ·) := by
  unfold List.Sorted
  rw [List.pairwise_map]
  rw [List.Nodup, List.pairwise_map] at hnd
  refine (hs.and hnd).imp ?_
  rintro a b ⟨h1, h2⟩
  have h2' : ¬ b.putID = a.putID := fun h => h2 h.symm
  simp only [adjacencyLess, ne_eq, h2', not_false_eq_true, if_true, decide_eq_false_iff_not,
    not_lt] at h1
  exact lt_of_le_of_ne h1 h2

theorem finishBuild_post (L : StdLibrary) {records : List Connection} {e : AdjacencyList}
    (inv : ReadInv records e) : BuildPost records (finishBuild L e) := by
  have hperm := L.sortAdjacency_perm e.adjacencyList
  have hnd : ((L.sortAdjacency e.adjacencyList).map (fun n => n.putID)).Nodup :=
    ((hperm.map _).nodup_iff).mpr inv.nodup
  have hasc := ascending_of_sorted (L.sortAdjacency_sorted e.adjacencyList) hnd
  have post : IndexPost
      { e with
        adjacencyList := (L.sortAdjacency e.adjacencyList).map
          (AdjacencyListNode.sort_connections L)
        nodeIndex := [] }
      (finishBuild L e) 0 (L.sortAdjacency e.adjacencyList) :=
    indexNodes_post (L.sortAdjacency e.adjacencyList) hnd _ 0
  have hadj : (finishBuild L e).adjacencyList =
      (L.sortAdjacency e.adjacencyList).map (AdjacencyListNode.sort_connections L) :=
    post.adjacency_eq
  have hkeys : (finishBuild L e).adjacencyList.map (fun n => n.putID) =
      (L.sortAdjacency e.adjacencyList).map (fun n => n.putID) := by
    rw [hadj, List.map_map]; rfl
  have hmem : ∀ n ∈ (finishBuild L e).adjacencyList, ∃ n0 ∈ e.adjacencyList,
      n0 ∈ L.sortAdjacency e.adjacencyList ∧ n.putID = n0.putID ∧
      n.connections = L.sortConnections n0.connections := by
    intro n hn
    rw [hadj, List.mem_map] at hn
    obtain ⟨n0, hn0, rfl⟩ := hn
    exact ⟨n0, hperm.mem_iff.mp hn0, hn0, rfl, rfl⟩
  constructor
  · rw [hkeys]; exact hasc
  · intro s
    rw [hkeys, (hperm.map _).mem_iff]
    exact inv.sources s
  · intro n hn
    obtain ⟨n0, hn0, _, hp, hc⟩ := hmem n hn
    obtain ⟨i, hi⟩ := List.mem_iff_getElem?.mp hn0
    rw [hc, hp, ← inv.connections i n0 hi]
    exact L.sortConnections_perm _
  · intro n hn
    obtain ⟨n0, _, _, _, hc⟩ := hmem n hn
    rw [hc]
    refine (L.sortConnections_sorted n0.connections).imp ?_
    intro a b h
    simpa [connectionLess] using h
  · intro k i
    rw [← List.getElem?_map, hkeys, List.getElem?_map]
    constructor
    · intro h
      by_cases hk : k ∈ (L.sortAdjacency e.adjacencyList).map (fun n => n.putID)
      · obtain ⟨j, hj⟩ := List.mem_iff_getElem?.mp hk
        rw [List.getElem?_map] at hj
        rcases hn0 : (L.sortAdjacency e.adjacencyList)[j]? with _ | n0
        · rw [hn0] at hj; simp at hj
        · rw [hn0] at hj
          simp only [Option.map_some', Option.some.injEq] at hj
          have := post.position_in j n0 hn0
          rw [hj] at this
          have hij : i = 0 + j := Option.some.inj (h.symm.trans this)
          rw [hij, Nat.zero_add, hn0]
          simp [hj]
      · have := post.position_out k hk
        rw [this] at h
        simp [lookup] at h
    · intro h
      rcases hn0 : (L.sortAdjacency e.adjacencyList)[i]? with _ | n0
      · rw [hn0] at h; simp at h
      · rw [hn0] at h
        simp only [Option.map_some', Option.some.injEq] at h
        have := post.position_in i n0 hn0
        rw [h, Nat.zero_add] at this
        exact this
  · intro n hn
    obtain ⟨n0, _, hn0, hp, _⟩ := hmem n hn
    refine ⟨_, by rw [hp]; exact post.forward_in n0 hn0, inv.forward_sorted _, ?_⟩
    intro x
    rw [hp]
    exact inv.forward_mem _ x
  · intro n hn
    obtain ⟨n0, _, hn0, hp, _⟩ := hmem n hn
    refine ⟨_, by rw [hp]; exact post.inverse_in n0 hn0, inv.inverse_sorted _, ?_⟩
    intro x
    rw [hp]
    exact inv.inverse_mem _ x
  · intro n hn
    obtain ⟨n0, _, hn0, hp, _⟩ := hmem n hn
    refine ⟨_, by rw [hp]; exact post.dual_in n0 hn0, ?_⟩
    intro x
    have hd : subscript e.dual_side_index n0.putID [] = [] := by
      simp [inv.dual_empty, subscript, lookup]
    rw [hp]
    simp only [hd, mem_insertAll, List.not_mem_nil, or_false]
    rw [mem_set_intersection (inv.forward_sorted _) (inv.inverse_sorted _),
      post.forward_eq, post.inverse_eq]
  · intro k hk
    rw [hkeys] at hk
    rw [post.dual_out k hk, inv.dual_empty]
    rfl

theorem build_clear_post (L : StdLibrary) (e : AdjacencyList) (records : List Connection) :
    ∃ e', build L (clear e) records = some e' ∧ BuildPost records e' := by
  obtain ⟨e1, h1, inv⟩ := readRecords_clear e records
  exact ⟨finishBuild L e1, by simp [build, h1], finishBuild_post L inv⟩

/-! ## `build`: the adjacency list and the indices -/

/-- C7 (deduplication boundary). After `clear(); build(records)` every source of
the records has an adjacency entry, and the connections of every entry are a
permutation of the (target, weight) pairs of all records with that source,
counted with multiplicity: no connection is merged, invented or dropped. -/
theorem build_connections_perm (L : StdLibrary) (e : AdjacencyList)
    (records : List Connection) :
    ∃ e', build L (clear e) records = some e' ∧
      (∀ c ∈ records, ∃ n ∈ e'.adjacencyList, n.putID = c.putID) ∧
      ∀ n ∈ e'.adjacencyList, n.connections.Perm (connectionsOf records n.putID) := by
  obtain ⟨e', h, post⟩ := build_clear_post L e records
  refine ⟨e', h, ?_, post.connections_perm⟩
  intro c hc
  have := (post.sources c.putID).mpr ⟨c, hc, rfl⟩
  obtain ⟨n, hn, hp⟩ := List.mem_map.mp this
  exact ⟨n, hn, hp⟩

/-- C8. After `clear(); build(records)` the source ids of the adjacency entries
are strictly ascending (so no source has two entries), and an id has an
entry exactly when it is the source of some record. -/
theorem build_entries_ascending (L : StdLibrary) (e : AdjacencyList)
    (records : List Connection) :
    ∃ e', build L (clear e) records = some e' ∧
      (e'.adjacencyList.map (fun n => n.putID)).Sorted (· < ·) ∧
      (e'.adjacencyList.map (fun n => n.putID)).Nodup ∧
      ∀ s, s ∈ e'.adjacencyList.map (fun n => n.putID) ↔ ∃ c ∈ records, c.putID = s := by
  obtain ⟨e', h, post⟩ := build_clear_post L e records
  exact ⟨e', h, post.ascending, post.ascending.nodup, post.sources⟩

/-- C9 (adjacency ordering). After `clear(); build(records)` the connections of
every adjacency entry are non-decreasing by target id: of any two connections
of an entry, the earlier one has the smaller or equal target. -/
theorem build_connections_sorted (L : StdLibrary) (e : AdjacencyList)
    (records : List Connection) :
    ∃ e', build L (clear e) records = some e' ∧
      ∀ n ∈ e'.adjacencyList, n.connections.Sorted (fun a b => a.getID ≤ b.getID) := by
  obtain ⟨e', h, post⟩ := build_clear_post L e records
  exact ⟨e', h, post.connections_sorted⟩

/-- C10. After `clear(); build(records)` every node `n` of the adjacency list
has a forward set, an inverse set and a dual-side set; the dual-side set is the
intersection of the other two, that is, `m` is a member exactly when the
records have an edge `n → m` and an edge `m → n`; it is empty for a node that is
never a target. -/
theorem build_dual_side (L : StdLibrary) (e : AdjacencyList) (records : List Connection) :
    ∃ e', build L (clear e) records = some e' ∧
      ∀ n ∈ e'.adjacencyList, ∃ fwd inv dual,
        lookup e'.index n.putID = some fwd ∧
        lookup e'.inverted_index n.putID = some inv ∧
        lookup e'.dual_side_index n.putID = some dual ∧
        (∀ m, m ∈ fwd ↔ Edge records n.putID m) ∧
        (∀ m, m ∈ inv ↔ Edge records m n.putID) ∧
        (∀ m, m ∈ dual ↔ m ∈ fwd ∧ m ∈ inv) ∧
        (∀ m, m ∈ dual ↔ Edge records n.putID m ∧ Edge records m n.putID) ∧
        ((∀ c ∈ records, c.getID ≠ n.putID) → dual = []) := by
  obtain ⟨e', h, post⟩ := build_clear_post L e records
  refine ⟨e', h, ?_⟩
  intro n hn
  obtain ⟨fwd, hf, _, hfm⟩ := post.forward n hn
  obtain ⟨inv, hi, _, him⟩ := post.inverse n hn
  obtain ⟨dual, hd, hdm⟩ := post.dual n hn
  have hdm' : ∀ m, m ∈ dual ↔ m ∈ fwd ∧ m ∈ inv := by
    intro m
    rw [hdm]
    simp [subscript, hf, hi]
  refine ⟨fwd, inv, dual, hf, hi, hd, hfm, him, hdm', ?_, ?_⟩
  · intro m
    rw [hdm', hfm, him]
  · intro hno
    apply List.eq_nil_iff_forall_not_mem.mpr
    intro m hm
    obtain ⟨c, hc, _, hg⟩ := (him m).mp ((hdm' m).mp hm).2
    exact hno c hc hg

/-! ## The worklist traversal -/

theorem subset_expand (conns : List Node) (q v : List NodeId) :
    v ⊆ (expand conns (q, v)).2 := by
  induction conns generalizing q v with
  | nil => simp [expand]
  | cons c cs ih =>
    unfold expand
    by_cases h : c.getID ∈ v
    · simp only [h, if_true]; exact ih q v
    · simp only [h, if_false]
      exact fun x hx => ih _ _ (List.mem_append_left _ hx)

theorem visit_visited_subset {e : AdjacencyList} {t t' : Traversal} {current : NodeId}
    {q : List NodeId} (h : visit e t current q = some t') : t.visited ⊆ t'.visited := by
  unfold visit at h
  by_cases hv : current ∈ t.visited
  · simp only [hv, if_true] at h
    cases hl : lookup e.BFS_index current with
    | some i =>
      simp only [hl, Option.map_eq_some'] at h
      obtain ⟨r, _, rfl⟩ := h
      exact fun x hx => mem_foldClosure.mpr (Or.inr hx)
    | none =>
      simp only [hl, Option.map_eq_some'] at h
      obtain ⟨node, _, rfl⟩ := h
      exact subset_expand _ _ _
  · simp only [hv, if_false, Option.some.injEq] at h
    subst h
    exact fun x hx => hx

theorem whileLoop_visited_subset {e : AdjacencyList} {fuel : Nat} {t t' : Traversal}
    (h : whileLoop e fuel t = some t') : t.visited ⊆ t'.visited := by
  induction fuel generalizing t with
  | zero => simp [whileLoop] at h
  | succ fuel ih =>
    unfold whileLoop at h
    rcases hq : t.q with _ | ⟨current, q⟩
    · simp only [hq, Option.some.injEq] at h
      subst h
      exact fun x hx => hx
    · simp only [hq, Option.bind_eq_some] at h
      obtain ⟨t1, h1, h2⟩ := h
      exact fun x hx => ih h2 (visit_visited_subset h1 hx)

theorem whileLoop_of_runSteps {e : AdjacencyList} {k fuel : Nat} {t t1 t' : Traversal}
    (hk : runSteps e k t = some t1) (h : whileLoop e fuel t = some t') :
    whileLoop e (fuel - k) t1 = some t' := by
  induction k generalizing t fuel with
  | zero =>
    simp only [runSteps, Option.some.injEq] at hk
    subst hk
    simpa using h
  | succ k ih =>
    unfold runSteps at hk
    rcases hq : t.q with _ | ⟨current, q⟩
    · simp [hq] at hk
    · simp only [hq, Option.bind_eq_some] at hk
      obtain ⟨t2, h2, h3⟩ := hk
      cases fuel with
      | zero => simp [whileLoop] at h
      | succ fuel =>
        unfold whileLoop at h
        simp only [hq, h2, Option.some_bind] at h
        have := ih h3 h
        rwa [Nat.add_sub_add_right]

theorem unvisited_mono (e : AdjacencyList) {v v' : List NodeId} (h : v ⊆ v') :
    unvisited e v' ≤ unvisited e v := by
  unfold unvisited
  apply Finset.card_le_card
  intro x hx
  simp only [Finset.mem_sdiff, List.mem_toFinset] at hx ⊢
  exact ⟨hx.1, fun hv => hx.2 (h hv)⟩

theorem unvisited_mark (e : AdjacencyList) {v : List NodeId} {x : NodeId}
    (hx : x ∈ targets e.adjacencyList) (hv : x ∉ v) :
    unvisited e (v ++ [x]) + 1 ≤ unvisited e v := by
  unfold unvisited
  apply Nat.succ_le_of_lt
  apply Finset.card_lt_card
  rw [Finset.ssubset_iff_of_subset]
  · exact ⟨x, by simp [hx, hv], by simp⟩
  · intro y hy
    simp only [Finset.mem_sdiff, List.mem_toFinset, List.mem_append, List.mem_singleton,
      not_or] at hy ⊢
    exact ⟨hy.1, hy.2.1⟩

theorem expand_measure (e : AdjacencyList) (conns : List Node) (q v : List NodeId)
    (hc : ∀ c ∈ conns, c.getID ∈ targets e.adjacencyList) :
    (expand conns (q, v)).1.length + unvisited e (expand conns (q, v)).2 ≤
      q.length + unvisited e v := by
  induction conns generalizing q v with
  | nil => simp [expand]
  | cons c cs ih =>
    have hcs : ∀ c' ∈ cs, c'.getID ∈ targets e.adjacencyList :=
      fun c' h => hc c' (List.mem_cons_of_mem _ h)
    unfold expand
    by_cases h : c.getID ∈ v
    · simp only [h, if_true]; exact ih q v hcs
    · simp only [h, if_false]
      have h1 := ih (q ++ [c.getID]) (v ++ [c.getID]) hcs
      have h2 := unvisited_mark e (hc c (List.mem_cons_self _ _)) h
      simp only [List.length_append, List.length_singleton] at h1
      omega

theorem mem_targets {adj : List AdjacencyListNode} {node : AdjacencyListNode} {c : Node}
    (hn : node ∈ adj) (hc : c ∈ node.connections) : c.getID ∈ targets adj := by
  unfold targets
  simp only [List.mem_flatten, List.mem_map]
  exact ⟨_, ⟨node, hn, rfl⟩, List.mem_map.mpr ⟨c, hc, rfl⟩⟩

theorem length_targets (adj : List AdjacencyListNode) :
    (targets adj).length = connectionCount adj := by
  unfold targets connectionCount
  rw [List.length_flatten, List.map_map]
  congr 1
  apply List.map_congr_left
  intro n _
  simp

theorem visit_total {e : AdjacencyList} (wf : WellIndexed e)
    (hne : 0 < e.adjacencyList.length) {t : Traversal}
    (hpos : ∀ k i, lookup t.nodeIndex k = some i → i < e.adjacencyList.length)
    (current : NodeId) (q : List NodeId) :
    ∃ t', visit e t current q = some t' ∧
      (∀ k i, lookup t'.nodeIndex k = some i → i < e.adjacencyList.length) ∧
      t'.q.length + unvisited e t'.visited ≤ q.length + unvisited e t.visited := by
  unfold visit
  by_cases hv : current ∈ t.visited
  · simp only [hv, if_true]
    cases hl : lookup e.BFS_index current with
    | some i =>
      obtain ⟨r, hr, _⟩ := wf.index_valid _ _ hl
      simp only [hr, Option.map_some']
      refine ⟨_, rfl, hpos, ?_⟩
      have hsub : t.visited ⊆ foldClosure r.connections t.visited :=
        fun x hx => mem_foldClosure.mpr (Or.inr hx)
      have := unvisited_mono e hsub
      simp only
      omega
    | none =>
      have hlt : subscript t.nodeIndex current 0 < e.adjacencyList.length := by
        unfold subscript
        cases hs : lookup t.nodeIndex current with
        | none => simpa using hne
        | some i => simpa using hpos _ _ hs
      have hget : e.adjacencyList[subscript t.nodeIndex current 0]? =
          some (e.adjacencyList[subscript t.nodeIndex current 0]) :=
        List.getElem?_eq_getElem hlt
      simp only [hget, Option.map_some']
      refine ⟨_, rfl, ?_, ?_⟩
      · intro k i hk
        simp only [lookup_touch] at hk
        by_cases hck : current = k
        · simp only [hck, if_true, Option.some.injEq] at hk
          rw [← hk, ← hck]
          exact hlt
        · simp only [hck, if_false] at hk
          exact hpos _ _ hk
      · exact expand_measure e _ q t.visited
          (fun c hc => mem_targets (List.getElem_mem hlt) hc)
  · simp only [hv, if_false]
    exact ⟨_, rfl, hpos, le_refl _⟩

theorem whileLoop_total {e : AdjacencyList} (wf : WellIndexed e)
    (hne : 0 < e.adjacencyList.length) (fuel : Nat) (t : Traversal)
    (hpos : ∀ k i, lookup t.nodeIndex k = some i → i < e.adjacencyList.length)
    (hfuel : t.q.length + unvisited e t.visited < fuel) :
    ∃ t', whileLoop e fuel t = some t' ∧ t'.q = [] ∧
      ∀ k i, lookup t'.nodeIndex k = some i → i < e.adjacencyList.length := by
  induction fuel generalizing t with
  | zero => omega
  | succ fuel ih =>
    unfold whileLoop
    rcases hq : t.q with _ | ⟨current, q⟩
    · exact ⟨t, rfl, hq, hpos⟩
    · obtain ⟨t1, h1, hpos1, hm⟩ := visit_total wf hne hpos current q
      simp only [h1, Option.some_bind]
      apply ih t1 hpos1
      rw [hq, List.length_cons] at hfuel
      omega

theorem traversal_total {e : AdjacencyList} (wf : WellIndexed e)
    (hne : 0 < e.adjacencyList.length) (start : NodeId) :
    ∃ t', whileLoop e (traversalFuel e) (Traversal.start e start) = some t' ∧ t'.q = [] ∧
      ∀ k i, lookup t'.nodeIndex k = some i → i < e.adjacencyList.length := by
  apply whileLoop_total wf hne _ _ wf.position_valid
  have h1 : unvisited e [start] ≤ (targets e.adjacencyList).toFinset.card :=
    Finset.card_le_card Finset.sdiff_subset
  have h2 := List.toFinset_card_le (targets e.adjacencyList)
  rw [length_targets] at h2
  simp only [Traversal.start, traversalFuel, List.length_singleton]
  omega

/-! ## One node of the `for` loop of `BFS` -/

theorem sorted_setErase (x : NodeId) {s : List NodeId} (hs : s.Sorted (· < ·)) :
    (setErase x s).Sorted (· < ·) :=
  List.Pairwise.sublist (List.filter_sublist s) hs

theorem sorted_foldl_setInsert (l : List NodeId) {s : List NodeId} (hs : s.Sorted (· < ·)) :
    (l.foldl (fun s x => setInsert x s) s).Sorted (· < ·) := by
  induction l generalizing s with
  | nil => exact hs
  | cons x xs ih => exact ih (sorted_setInsert x hs)

theorem sorted_setOfRange (l : List NodeId) : (setOfRange l).Sorted (· < ·) :=
  sorted_foldl_setInsert l List.sorted_nil


theorem firstFinalized_some {idx : UMap Nat} {l : List NodeId} {m : NodeId}
    (h : firstFinalized idx l = some m) : m ∈ l ∧ ∃ i, lookup idx m = some i := by
  induction l with
  | nil => simp [firstFinalized] at h
  | cons c cs ih =>
    unfold firstFinalized at h
    cases hc : lookup idx c with
    | some i =>
      simp only [hc, Option.some.injEq] at h
      subst h
      exact ⟨List.mem_cons_self _ _, i, hc⟩
    | none =>
      simp only [hc] at h
      obtain ⟨h1, h2⟩ := ih h
      exact ⟨List.mem_cons_of_mem _ h1, h2⟩

theorem firstFinalized_none {idx : UMap Nat} {l : List NodeId}
    (h : firstFinalized idx l = none) : ∀ m ∈ l, lookup idx m = none := by
  induction l with
  | nil => simp
  | cons c cs ih =>
    unfold firstFinalized at h
    cases hc : lookup idx c with
    | some i => simp [hc] at h
    | none =>
      simp only [hc] at h
      intro m hm
      rcases List.mem_cons.mp hm with rfl | hm
      · exact hc
      · exact ih h m hm

theorem wellIndexed_append {e e' : AdjacencyList} (wf : WellIndexed e) (k : NodeId)
    (cl : List NodeId) (hadj : e'.adjacencyList = e.adjacencyList)
    (hres : e'.BFS_result = e.BFS_result ++ [{ putID := k, connections := cl }])
    (hidx : e'.BFS_index = assign e.BFS_index k e.BFS_result.length)
    (hpos : ∀ k i, lookup e'.nodeIndex k = some i → i < e.adjacencyList.length)
    (hcl : cl.Sorted (· < ·)) :
    WellIndexed e' := by
  constructor
  · intro k' i h
    rw [hidx, lookup_assign] at h
    rw [hres]
    by_cases hk : k = k'
    · simp only [hk, if_true, Option.some.injEq] at h
      subst h
      exact ⟨{ putID := k, connections := cl }, by simp, hk⟩
    · simp only [hk, if_false] at h
      obtain ⟨r, hr, hp⟩ := wf.index_valid _ _ h
      refine ⟨r, ?_, hp⟩
      rw [List.getElem?_append_left (List.getElem?_eq_some.mp hr).1]
      exact hr
  · rw [hadj]
    exact hpos
  · intro r hr
    rw [hres] at hr
    rcases List.mem_append.mp hr with hr | hr
    · exact wf.closures_sorted r hr
    · rw [List.mem_singleton] at hr
      subst hr
      exact hcl

theorem visitNode_spec (L : StdLibrary) {e : AdjacencyList} {node : AdjacencyListNode}
    (wf : WellIndexed e) (hnode : node ∈ e.adjacencyList)
    (hdual : ∃ d, lookup e.dual_side_index node.putID = some d)
    (hnew : lookup e.BFS_index node.putID = none) :
    ∃ e' cl, visitNode L e node = some e' ∧
      e'.adjacencyList = e.adjacencyList ∧
      e'.dual_side_index = e.dual_side_index ∧
      e'.BFS_result = e.BFS_result ++ [{ putID := node.putID, connections := cl }] ∧
      e'.BFS_index = assign e.BFS_index node.putID e.BFS_result.length ∧
      node.putID ∉ cl ∧ cl.Sorted (· < ·) ∧ WellIndexed e' := by
  obtain ⟨d, hd⟩ := hdual
  unfold visitNode
  simp only [hd]
  cases hff : firstFinalized e.BFS_index (L.iterate d) with
  | some m =>
    obtain ⟨_, i, hi⟩ := firstFinalized_some hff
    have hne : ¬ node.putID = m := by
      intro h
      rw [← h, hnew] at hi
      exact Option.noConfusion hi
    obtain ⟨r, hr, _⟩ := wf.index_valid _ _ hi
    have hs : (setErase node.putID (setInsert m r.connections)).Sorted (· < ·) :=
      sorted_setErase _
        (sorted_setInsert m (wf.closures_sorted r (List.mem_iff_getElem?.mpr ⟨_, hr⟩)))
    simp only [lookup_assign, hne, if_false, hi, hr, Option.map_some']
    refine ⟨_, _, rfl, rfl, rfl, rfl, rfl, ?_, hs, ?_⟩
    · intro h
      exact (mem_setErase.mp h).2 rfl
    · exact wellIndexed_append wf node.putID _ rfl rfl rfl wf.position_valid hs
  | none =>
    have hne : 0 < e.adjacencyList.length := List.length_pos_of_mem hnode
    obtain ⟨t', ht', _, hpos⟩ := traversal_total wf hne node.putID
    simp only [ht', Option.map_some']
    refine ⟨_, _, rfl, rfl, rfl, rfl, rfl, ?_, sorted_setOfRange _, ?_⟩
    · intro h
      exact (mem_hashErase.mp (mem_setOfRange.mp h)).2 rfl
    · exact wellIndexed_append wf node.putID _ rfl rfl rfl hpos (sorted_setOfRange _)

/-! ## The `for` loop of `BFS` and the final sort -/

theorem visitNodes_append (L : StdLibrary) (e : AdjacencyList)
    (l₁ l₂ : List AdjacencyListNode) :
    visitNodes L e (l₁ ++ l₂) = (visitNodes L e l₁).bind (fun e1 => visitNodes L e1 l₂) := by
  induction l₁ generalizing e with
  | nil => simp [visitNodes]
  | cons n ns ih =>
    simp only [List.cons_append, visitNodes]
    cases visitNode L e n with
    | none => rfl
    | some e1 => simp [ih]

theorem visitNodes_spec (L : StdLibrary) (ns : List AdjacencyListNode) {e : AdjacencyList}
    (wf : WellIndexed e) (hnd : (ns.map (fun n => n.putID)).Nodup)
    (hin : ∀ n ∈ ns, n ∈ e.adjacencyList)
    (hdual : ∀ n ∈ ns, ∃ d, lookup e.dual_side_index n.putID = some d)
    (hnew : ∀ n ∈ ns, lookup e.BFS_index n.putID = none) :
    ∃ e' new, visitNodes L e ns = some e' ∧
      e'.adjacencyList = e.adjacencyList ∧
      e'.dual_side_index = e.dual_side_index ∧
      e'.BFS_result = e.BFS_result ++ new ∧
      new.map (fun r => r.putID) = ns.map (fun n => n.putID) ∧
      (∀ r ∈ new, r.putID ∉ r.connections) ∧
      (∀ k, k ∉ ns.map (fun n => n.putID) → lookup e'.BFS_index k = lookup e.BFS_index k) ∧
      WellIndexed e' := by
  induction ns generalizing e with
  | nil =>
    exact ⟨e, [], rfl, rfl, rfl, by simp, rfl, by simp, fun _ _ => rfl, wf⟩
  | cons n ns ih =>
    rw [List.map_cons, List.nodup_cons] at hnd
    obtain ⟨hn, hnd'⟩ := hnd
    obtain ⟨e1, cl, h1, hadj1, hdual1, hres1, hidx1, hself, _, wf1⟩ :=
      visitNode_spec L wf (hin n (List.mem_cons_self _ _)) (hdual n (List.mem_cons_self _ _))
        (hnew n (List.mem_cons_self _ _))
    have hne : ∀ n' ∈ ns, ¬ n.putID = n'.putID := by
      intro n' hn' h
      exact hn (List.mem_map.mpr ⟨n', hn', h.symm⟩)
    obtain ⟨e2, new, h2, hadj2, hdual2, hres2, hkeys, hself2, hout, wf2⟩ :=
      ih wf1 hnd'
        (fun n' hn' => by rw [hadj1]; exact hin n' (List.mem_cons_of_mem _ hn'))
        (fun n' hn' => by rw [hdual1]; exact hdual n' (List.mem_cons_of_mem _ hn'))
        (fun n' hn' => by
          rw [hidx1, lookup_assign, if_neg (hne n' hn')]
          exact hnew n' (List.mem_cons_of_mem _ hn'))
    refine ⟨e2, { putID := n.putID, connections := cl } :: new, ?_, ?_, ?_, ?_, ?_, ?_, ?_, wf2⟩
    · simp [visitNodes, h1, h2]
    · rw [hadj2, hadj1]
    · rw [hdual2, hdual1]
    · rw [hres2, hres1, List.append_assoc, List.singleton_append]
    · simp [hkeys]
    · intro r hr
      rcases List.mem_cons.mp hr with rfl | hr
      · exact hself
      · exact hself2 r hr
    · intro k hk
      simp only [List.map_cons, List.mem_cons, not_or] at hk
      rw [hout k hk.2, hidx1, lookup_assign, if_neg (fun h : n.putID = k => hk.1 h.symm)]

theorem BuildPost.wellIndexed {records : List Connection} {e : AdjacencyList}
    (post : BuildPost records e) :
    WellIndexed { e with BFS_result := [], BFS_index := [] } := by
  constructor
  · intro k i h
    simp [lookup] at h
  · intro k i h
    have := (post.position k i).mp h
    rcases hi : e.adjacencyList[i]? with _ | n
    · rw [hi] at this; simp at this
    · exact (List.getElem?_eq_some.mp hi).1
  · intro r hr
    simp at hr

theorem BFS_spec (L : StdLibrary) {records : List Connection} {e : AdjacencyList}
    (post : BuildPost records e) :
    ∃ e' pre, BFS L e = some e' ∧
      visitNodes L { e with BFS_result := [], BFS_index := [] } e.adjacencyList =
        some { e' with BFS_result := pre } ∧
      e'.adjacencyList = e.adjacencyList ∧
      e'.BFS_result = stableSortClosures pre ∧
      pre.map (fun r => r.putID) = e.adjacencyList.map (fun n => n.putID) ∧
      (∀ r ∈ pre, r.putID ∉ r.connections) ∧
      (∀ r ∈ pre, r.connections.Sorted (· < ·)) := by
  obtain ⟨e1, new, h1, hadj, _, hres, hkeys, hself, _, wf1⟩ :=
    visitNodes_spec L e.adjacencyList post.wellIndexed post.ascending.nodup
      (fun n hn => hn)
      (fun n hn => by
        obtain ⟨d, hd, _⟩ := post.dual n hn
        exact ⟨d, hd⟩)
      (fun n _ => rfl)
  simp only [List.nil_append] at hres
  refine ⟨{ e1 with BFS_result := stableSortClosures e1.BFS_result }, new, ?_, ?_, hadj, ?_,
    hkeys, hself, ?_⟩
  · simp [BFS, h1]
  · rw [h1, ← hres]
  · rw [hres]
  · intro r hr
    exact wf1.closures_sorted r (by rw [hres]; exact hr)

theorem pairwise_orderedInsert_stable {α : Type} (r : α → α → Prop) [DecidableRel r]
    (S : α → α → Prop) (htot : ∀ a b, r a b ∨ r b a) (htrans : ∀ a b c, r a b → r b c → r a c)
    (a : α) (l : List α) (hl : l.Pairwise (fun x y => r x y ∧ (r y x → S x y)))
    (ha : ∀ x ∈ l, S a x) :
    (l.orderedInsert r a).Pairwise (fun x y => r x y ∧ (r y x → S x y)) := by
  induction l with
  | nil => simp
  | cons b u ih =>
    rw [List.pairwise_cons] at hl
    obtain ⟨hb, hu⟩ := hl
    by_cases hab : r a b
    · rw [List.orderedInsert, if_pos hab, List.pairwise_cons]
      refine ⟨?_, List.pairwise_cons.mpr ⟨hb, hu⟩⟩
      intro x hx
      refine ⟨?_, fun _ => ha x hx⟩
      rcases List.mem_cons.mp hx with rfl | hx
      · exact hab
      · exact htrans _ _ _ hab (hb x hx).1
    · rw [List.orderedInsert, if_neg hab, List.pairwise_cons]
      refine ⟨?_, ih hu (fun x hx => ha x (List.mem_cons_of_mem _ hx))⟩
      intro y hy
      rcases (List.mem_orderedInsert r).mp hy with rfl | hy
      · exact ⟨(htot y b).resolve_left hab, fun h => absurd h hab⟩
      · exact hb y hy

theorem pairwise_insertionSort_stable {α : Type} (r : α → α → Prop) [DecidableRel r]
    (S : α → α → Prop) (htot : ∀ a b, r a b ∨ r b a) (htrans : ∀ a b c, r a b → r b c → r a c)
    (l : List α) (hl : l.Pairwise S) :
    (l.insertionSort r).Pairwise (fun x y => r x y ∧ (r y x → S x y)) := by
  induction l with
  | nil => simp
  | cons a t ih =>
    rw [List.pairwise_cons] at hl
    rw [List.insertionSort]
    exact pairwise_orderedInsert_stable r S htot htrans a _ (ih hl.2)
      (fun x hx => hl.1 x ((List.mem_insertionSort r).mp hx))

theorem stableSortClosures_perm (l : List BFSNode) : (stableSortClosures l).Perm l :=
  List.perm_insertionSort _ l

theorem stableSortClosures_stable (l : List BFSNode)
    (hl : l.Pairwise (fun a b => a.putID < b.putID)) :
    (stableSortClosures l).Pairwise (fun a b =>
      b.connections.length ≤ a.connections.length ∧
        (a.connections.length = b.connections.length → a.putID < b.putID)) := by
  have h := pairwise_insertionSort_stable (fun a b : BFSNode => closureGreater b a = false)
    (fun a b => a.putID < b.putID)
    (fun a b => by simp only [closureGreater, decide_eq_false_iff_not, not_lt, gt_iff_lt]; omega)
    (fun a b c => by simp only [closureGreater, decide_eq_false_iff_not, not_lt, gt_iff_lt]; omega)
    l hl
  refine h.imp ?_
  intro a b ⟨h1, h2⟩
  simp only [closureGreater, decide_eq_false_iff_not, not_lt, gt_iff_lt] at h1 h2
  exact ⟨h1, fun heq => h2 (by omega)⟩

theorem solve_spec (L : StdLibrary) (e : AdjacencyList) (records : List Connection) :
    ∃ eb e' pre, build L (clear e) records = some eb ∧ BuildPost records eb ∧
      solve L e records = some e' ∧
      visitNodes L { eb with BFS_result := [], BFS_index := [] } eb.adjacencyList =
        some { e' with BFS_result := pre } ∧
      e'.adjacencyList = eb.adjacencyList ∧
      e'.BFS_result = stableSortClosures pre ∧
      pre.map (fun r => r.putID) = eb.adjacencyList.map (fun n => n.putID) ∧
      (∀ r ∈ pre, r.putID ∉ r.connections) ∧
      (∀ r ∈ pre, r.connections.Sorted (· < ·)) := by
  obtain ⟨eb, hb, post⟩ := build_clear_post L e records
  obtain ⟨e', pre, h, hv, hadj, hres, hkeys, hself, hsorted⟩ := BFS_spec L post
  exact ⟨eb, e', pre, hb, post, by simp [solve, hb, h], hv, hadj, hres, hkeys, hself, hsorted⟩

/-! ## `BFS`: the closure records -/

/-- C3 (self-exclusion). `clear(); build(records); BFS()` returns, and no record
of its result holds its own node in its closure, whether the record was made
by the copy shortcut or by the worklist traversal. -/
theorem solve_self_excluded (L : StdLibrary) (e : AdjacencyList)
    (records : List Connection) :
    ∃ e', solve L e records = some e' ∧ ∀ r ∈ e'.BFS_result, r.putID ∉ r.connections := by
  obtain ⟨_, e', pre, _, _, h, _, _, hres, _, hself, _⟩ := solve_spec L e records
  refine ⟨e', h, ?_⟩
  intro r hr
  rw [hres] at hr
  exact hself r ((stableSortClosures_perm pre).mem_iff.mp hr)

/-- C5. `clear(); build(records); BFS()` returns the stable sort, by descending
closure size, of the list `pre` that the loop leaves: `pre` holds one record per
adjacency entry, in the order of the adjacency list, which is ascending by
source id.  Along the result the sizes never increase, and of two records of
equal size the one with the smaller node id comes first. -/
theorem solve_result_order (L : StdLibrary) (e : AdjacencyList) (records : List Connection) :
    ∃ eb e' pre, build L (clear e) records = some eb ∧ solve L e records = some e' ∧
      visitNodes L { eb with BFS_result := [], BFS_index := [] } eb.adjacencyList =
        some { e' with BFS_result := pre } ∧
      pre.map (fun r => r.putID) = eb.adjacencyList.map (fun n => n.putID) ∧
      (pre.map (fun r => r.putID)).Sorted (· < ·) ∧
      e'.BFS_result = stableSortClosures pre ∧
      e'.BFS_result.Perm pre ∧
      e'.BFS_result.Pairwise (fun a b =>
        b.connections.length ≤ a.connections.length ∧
          (a.connections.length = b.connections.length → a.putID < b.putID)) := by
  obtain ⟨eb, e', pre, hb, post, h, hv, _, hres, hkeys, _, _⟩ := solve_spec L e records
  have hasc : (pre.map (fun r => r.putID)).Sorted (· < ·) := by
    rw [hkeys]; exact post.ascending
  refine ⟨eb, e', pre, hb, h, hv, hkeys, hasc, hres, ?_, ?_⟩
  · rw [hres]; exact stableSortClosures_perm pre
  · rw [hres]
    exact stableSortClosures_stable pre (List.pairwise_map.mp hasc)

/-- C6, amended. `clear(); build(records); BFS()` returns a result that holds
exactly one closure record for every node that is the source of some record,
and no record for any other id: a node that occurs only as a target has none. -/
theorem solve_records_sources (L : StdLibrary) (e : AdjacencyList)
    (records : List Connection) :
    ∃ e', solve L e records = some e' ∧
      (e'.BFS_result.map (fun r => r.putID)).Nodup ∧
      ∀ n, (∃ r ∈ e'.BFS_result, r.putID = n) ↔ ∃ c ∈ records, c.putID = n := by
  obtain ⟨eb, e', pre, _, post, h, _, _, hres, hkeys, _, _⟩ := solve_spec L e records
  have hperm : (e'.BFS_result.map (fun r => r.putID)).Perm
      (eb.adjacencyList.map (fun n => n.putID)) := by
    rw [hres, ← hkeys]
    exact (stableSortClosures_perm pre).map _
  refine ⟨e', h, hperm.nodup_iff.mpr post.ascending.nodup, ?_⟩
  intro n
  rw [← post.sources, ← hperm.mem_iff, List.mem_map]

/-- C6, counterexample. On the single record `A → B` the node `B` occurs in the
records, as a target, and the result has no closure record for it. -/
theorem sink_has_no_record :
    (∃ c ∈ singleEdge, c.getID = "B".toList) ∧
    ∃ e', solve StdLibrary.reference freshEngine singleEdge = some e' ∧
      ∀ r ∈ e'.BFS_result, r.putID ≠ "B".toList :=
  ⟨by decide, _, rfl, by decide⟩

/-! ## Independence from the standard library on unambiguous inputs -/

theorem sortAdjacency_unique (L L' : StdLibrary) {l : List AdjacencyListNode}
    (hnd : (l.map (fun n => n.putID)).Nodup) : L.sortAdjacency l = L'.sortAdjacency l := by
  have hp : (L.sortAdjacency l).Perm (L'.sortAdjacency l) :=
    (L.sortAdjacency_perm l).trans (L'.sortAdjacency_perm l).symm
  have h1 := ascending_of_sorted (L.sortAdjacency_sorted l)
    (((L.sortAdjacency_perm l).map _).nodup_iff.mpr hnd)
  have h2 := ascending_of_sorted (L'.sortAdjacency_sorted l)
    (((L'.sortAdjacency_perm l).map _).nodup_iff.mpr hnd)
  have anti : IsAntisymm AdjacencyListNode (fun a b => a.putID < b.putID) :=
    ⟨fun a b h h' => absurd h (lt_asymm h')⟩
  exact List.eq_of_perm_of_sorted hp (List.pairwise_map.mp h1) (List.pairwise_map.mp h2)

theorem sortConnections_unique (L L' : StdLibrary) {l : List Node}
    (hnd : (l.map (fun c => c.getID)).Nodup) : L.sortConnections l = L'.sortConnections l := by
  have hp : (L.sortConnections l).Perm (L'.sortConnections l) :=
    (L.sortConnections_perm l).trans (L'.sortConnections_perm l).symm
  have strict : ∀ M : StdLibrary,
      (M.sortConnections l).Pairwise (fun a b => a.getID < b.getID) := by
    intro M
    have hn : ((M.sortConnections l).map (fun c => c.getID)).Nodup :=
      ((M.sortConnections_perm l).map _).nodup_iff.mpr hnd
    rw [List.Nodup, List.pairwise_map] at hn
    refine ((M.sortConnections_sorted l).and hn).imp ?_
    rintro a b ⟨h1, h2⟩
    simp only [connectionLess, decide_eq_false_iff_not, not_lt] at h1
    exact lt_of_le_of_ne h1 h2
  have anti : IsAntisymm Node (fun a b => a.getID < b.getID) :=
    ⟨fun a b h h' => absurd h (lt_asymm h')⟩
  exact List.eq_of_perm_of_sorted hp (strict L) (strict L')

theorem iterate_short (L : StdLibrary) {l : List NodeId} (h : l.length ≤ 1) :
    L.iterate l = l := by
  have hp := L.iterate_perm l
  match l, h with
  | [], _ => exact hp.eq_nil
  | [a], _ => exact List.perm_singleton.mp hp

theorem visitNode_congr (L L' : StdLibrary) (e : AdjacencyList) (node : AdjacencyListNode)
    (h : ∀ d, lookup e.dual_side_index node.putID = some d → L.iterate d = L'.iterate d) :
    visitNode L e node = visitNode L' e node := by
  unfold visitNode
  cases hd : lookup e.dual_side_index node.putID with
  | none => rfl
  | some d => simp only [h d hd]

theorem visitNode_dual {L : StdLibrary} {e e' : AdjacencyList} {node : AdjacencyListNode}
    (h : visitNode L e node = some e') :
    e'.dual_side_index = e.dual_side_index ∧ e'.adjacencyList = e.adjacencyList := by
  unfold visitNode at h
  cases hd : lookup e.dual_side_index node.putID with
  | none => simp [hd] at h
  | some d =>
    simp only [hd] at h
    cases hff : firstFinalized e.BFS_index (L.iterate d) with
    | some m =>
      simp only [hff] at h
      cases hl : lookup (assign e.BFS_index node.putID e.BFS_result.length) m with
      | none => simp [hl] at h
      | some i =>
        simp only [hl, Option.map_eq_some'] at h
        obtain ⟨r, _, rfl⟩ := h
        exact ⟨rfl, rfl⟩
    | none =>
      simp only [hff, Option.map_eq_some'] at h
      obtain ⟨t, _, rfl⟩ := h
      exact ⟨rfl, rfl⟩

theorem visitNodes_congr (L L' : StdLibrary) (ns : List AdjacencyListNode) (e : AdjacencyList)
    (h : ∀ n ∈ ns, ∀ d, lookup e.dual_side_index n.putID = some d →
      L.iterate d = L'.iterate d) :
    visitNodes L e ns = visitNodes L' e ns := by
  induction ns generalizing e with
  | nil => rfl
  | cons n ns ih =>
    simp only [visitNodes]
    rw [visitNode_congr L L' e n (h n (List.mem_cons_self _ _))]
    cases h1 : visitNode L' e n with
    | none => rfl
    | some e1 =>
      simp only [Option.some_bind]
      apply ih
      intro n' hn' d hd
      rw [(visitNode_dual h1).1] at hd
      exact h n' (List.mem_cons_of_mem _ hn') d hd

theorem BFS_congr (L L' : StdLibrary) (e : AdjacencyList)
    (h : ∀ n ∈ e.adjacencyList, ∀ d, lookup e.dual_side_index n.putID = some d →
      L.iterate d = L'.iterate d) :
    BFS L e = BFS L' e := by
  unfold BFS
  simp only
  rw [visitNodes_congr L L' e.adjacencyList
    { e with BFS_result := [], BFS_index := [] } h]

theorem finishBuild_congr (L L' : StdLibrary) (e : AdjacencyList)
    (hnd : (e.adjacencyList.map (fun n => n.putID)).Nodup)
    (h : ∀ n ∈ e.adjacencyList, (n.connections.map (fun c => c.getID)).Nodup) :
    finishBuild L e = finishBuild L' e := by
  unfold finishBuild
  simp only
  rw [sortAdjacency_unique L L' hnd]
  have hmap : (L'.sortAdjacency e.adjacencyList).map (AdjacencyListNode.sort_connections L) =
      (L'.sortAdjacency e.adjacencyList).map (AdjacencyListNode.sort_connections L') := by
    apply List.map_congr_left
    intro n hn
    have hn' := (L'.sortAdjacency_perm e.adjacencyList).mem_iff.mp hn
    simp only [AdjacencyListNode.sort_connections, sortConnections_unique L L' (h n hn')]
  rw [hmap]

theorem indexNodes_adjacency (e : AdjacencyList) (i : Nat) (ns : List AdjacencyListNode) :
    (indexNodes e i ns).adjacencyList = e.adjacencyList := by
  induction ns generalizing e i with
  | nil => rfl
  | cons n ns ih => simp only [indexNodes]; rw [ih]; rfl

theorem finishBuild_adjacency (L : StdLibrary) (e : AdjacencyList) :
    (finishBuild L e).adjacencyList =
      (L.sortAdjacency e.adjacencyList).map (AdjacencyListNode.sort_connections L) := by
  unfold finishBuild
  simp only
  rw [indexNodes_adjacency]

theorem solve_eq_reference (L : StdLibrary) (e : AdjacencyList) (records : List Connection)
    (h : unambiguous records = true) :
    build L (clear e) records = build StdLibrary.reference freshEngine records ∧
    solve L e records = solve StdLibrary.reference freshEngine records := by
  obtain ⟨e1, h1, inv⟩ := readRecords_clear e records
  have h1' : readRecords freshEngine records = some e1 := h1
  have hb : build StdLibrary.reference freshEngine records =
      some (finishBuild StdLibrary.reference e1) := by simp [build, h1']
  unfold unambiguous at h
  simp only [hb, List.all_eq_true, Bool.and_eq_true, decide_eq_true_eq] at h
  have hconn : ∀ n ∈ e1.adjacencyList, (n.connections.map (fun c => c.getID)).Nodup := by
    intro n hn
    have hmem : AdjacencyListNode.sort_connections StdLibrary.reference n ∈
        (finishBuild StdLibrary.reference e1).adjacencyList := by
      rw [finishBuild_adjacency]
      exact List.mem_map_of_mem _
        ((StdLibrary.reference.sortAdjacency_perm e1.adjacencyList).mem_iff.mpr hn)
    have := (h _ hmem).1
    exact ((StdLibrary.reference.sortConnections_perm n.connections).map _).nodup_iff.mp this
  have hfin : finishBuild L e1 = finishBuild StdLibrary.reference e1 :=
    finishBuild_congr L StdLibrary.reference e1 inv.nodup hconn
  have hbL : build L (clear e) records = some (finishBuild StdLibrary.reference e1) := by
    simp [build, h1, hfin]
  refine ⟨hbL.trans hb.symm, ?_⟩
  have hb' : build StdLibrary.reference (clear freshEngine) records =
      some (finishBuild StdLibrary.reference e1) := hb
  unfold solve
  rw [hbL, hb']
  simp only [Option.some_bind]
  apply BFS_congr
  intro n hn d hd
  have hlen := (h n hn).2
  simp only [subscript, hd, Option.getD_some] at hlen
  rw [iterate_short L hlen, iterate_short StdLibrary.reference hlen]

/-- C2 (end-to-end example). On the records `A→B(1.0), B→C(2.0), C→A(3.0), D→A(4.0)`
`build` yields the adjacency list `A:[B]`, `B:[C]`, `C:[A]`, `D:[A]`, and `BFS`
yields, in this order, `D` with `{A,B,C}`, `A` with `{B,C}`, `B` with `{A,C}` and
`C` with `{A,B}`. -/
theorem example_adjacency_and_closures (L : StdLibrary) (e : AdjacencyList) :
    (build L (clear e) exampleRecords).map (fun eb => eb.adjacencyList) =
      some [ { putID := "A".toList, connections := [{ getID := "B".toList, weight := 0x3F800000 }] },
             { putID := "B".toList, connections := [{ getID := "C".toList, weight := 0x40000000 }] },
             { putID := "C".toList, connections := [{ getID := "A".toList, weight := 0x40400000 }] },
             { putID := "D".toList, connections := [{ getID := "A".toList, weight := 0x40800000 }] } ] ∧
    (solve L e exampleRecords).map (fun e' => e'.BFS_result) =
      some [ { putID := "D".toList, connections := ["A".toList, "B".toList, "C".toList] },
             { putID := "A".toList, connections := ["B".toList, "C".toList] },
             { putID := "B".toList, connections := ["A".toList, "C".toList] },
             { putID := "C".toList, connections := ["A".toList, "B".toList] } ] := by
  obtain ⟨hb, hs⟩ := solve_eq_reference L e exampleRecords (by decide)
  rw [hb, hs]
  exact ⟨by decide, by decide⟩

theorem reachable_sinkRecords {a b : NodeId} (h : Reachable sinkRecords a b) :
    a = "C".toList → b = "D".toList := by
  have step : ∀ c ∈ sinkRecords, c.putID = "C".toList → c.getID = "D".toList := by decide
  have stop : ∀ c ∈ sinkRecords, c.putID ≠ "D".toList := by decide
  induction h with
  | single hab =>
    intro ha
    obtain ⟨c, hc, hp, hg⟩ := hab
    rw [← hg]
    exact step c hc (hp.trans ha)
  | tail _ hbc ih =>
    intro ha
    obtain ⟨c, hc, hp, _⟩ := hbc
    exact absurd (hp.trans (ih ha)) (stop c hc)

/-- C1, the failing input. On the records `A → B`, `C → D` the node `C` has an
empty dual-side set and only `D` can be reached from it, but the closure that
`BFS` records for `C` is `{B, D}`: popping the sink `D`, the traversal reads
`nodeIndex["D"]`, which inserts position 0, and expands the connections of the
first adjacency entry, `A`. -/
theorem sink_expands_first_entry (L : StdLibrary) (e : AdjacencyList) :
    (build L (clear e) sinkRecords).map
        (fun eb => lookup eb.dual_side_index "C".toList) = some (some []) ∧
    (solve L e sinkRecords).map (fun e' => closureOf e'.BFS_result "C".toList) =
        some (some ["B".toList, "D".toList]) ∧
    (solve L e sinkRecords).map (fun e' => lookup e'.nodeIndex "D".toList) =
        some (some 0) ∧
    ¬ Reachable sinkRecords "C".toList "B".toList := by
  obtain ⟨hb, hs⟩ := solve_eq_reference L e sinkRecords (by decide)
  rw [hb, hs]
  refine ⟨by decide, by decide, by decide, ?_⟩
  intro h
  exact absurd (reachable_sinkRecords h rfl) (by decide)

/-! ## Folding through a finalized closure -/

theorem visitNode_result {L : StdLibrary} {e e' : AdjacencyList} {node : AdjacencyListNode}
    (h : visitNode L e node = some e') :
    ∃ cl, e'.BFS_result = e.BFS_result ++ [{ putID := node.putID, connections := cl }] := by
  unfold visitNode at h
  cases hd : lookup e.dual_side_index node.putID with
  | none => simp [hd] at h
  | some d =>
    simp only [hd] at h
    cases hff : firstFinalized e.BFS_index (L.iterate d) with
    | some m =>
      simp only [hff] at h
      cases hl : lookup (assign e.BFS_index node.putID e.BFS_result.length) m with
      | none => simp [hl] at h
      | some i =>
        simp only [hl, Option.map_eq_some'] at h
        obtain ⟨r, _, rfl⟩ := h
        exact ⟨_, rfl⟩
    | none =>
      simp only [hff, Option.map_eq_some'] at h
      obtain ⟨t, _, rfl⟩ := h
      exact ⟨_, rfl⟩

theorem visitNodes_result {L : StdLibrary} {ns : List AdjacencyListNode}
    {e e' : AdjacencyList} (h : visitNodes L e ns = some e') :
    ∃ new, e'.BFS_result = e.BFS_result ++ new := by
  induction ns generalizing e with
  | nil =>
    simp only [visitNodes, Option.some.injEq] at h
    subst h
    exact ⟨[], by simp⟩
  | cons n ns ih =>
    simp only [visitNodes, Option.bind_eq_some] at h
    obtain ⟨e1, h1, h2⟩ := h
    obtain ⟨cl, hcl⟩ := visitNode_result h1
    obtain ⟨new, hnew⟩ := ih h2
    exact ⟨_ :: new, by rw [hnew, hcl, List.append_assoc, List.singleton_append]⟩

theorem closureOf_of_mem {l : List BFSNode} (hnd : (l.map (fun r => r.putID)).Nodup)
    {r : BFSNode} (hr : r ∈ l) : closureOf l r.putID = some r.connections := by
  unfold closureOf
  cases hf : l.find? (fun r' => decide (r'.putID = r.putID)) with
  | none =>
    have := List.find?_eq_none.mp hf r hr
    simp at this
  | some r' =>
    have hp : r'.putID = r.putID := by simpa using List.find?_some hf
    have := List.inj_on_of_nodup_map hnd (List.mem_of_find?_eq_some hf) hr hp
    rw [this]
    rfl

theorem traversal_fold_subset {e : AdjacencyList} {fuel k : Nat} {t0 t t' : Traversal}
    {a : NodeId} {q : List NodeId} {i : Nat} {ra : BFSNode}
    (hloop : whileLoop e fuel t0 = some t') (hk : runSteps e k t0 = some t)
    (hq : t.q = a :: q) (hv : a ∈ t.visited) (hi : lookup e.BFS_index a = some i)
    (hra : e.BFS_result[i]? = some ra) :
    ra.connections ⊆ t'.visited := by
  have h := whileLoop_of_runSteps hk hloop
  cases hf : fuel - k with
  | zero => rw [hf] at h; simp [whileLoop] at h
  | succ f =>
    rw [hf] at h
    unfold whileLoop at h
    simp only [hq, visit, hv, if_true, hi, hra, Option.map_some', Option.some_bind] at h
    intro x hx
    exact whileLoop_visited_subset h (mem_foldClosure.mpr (Or.inl hx))

/-- C4 (fold correctness), amended. When the traversal that `BFS` runs for `b`
folds through `a`, whose finalized record is `ra`, then `BFS` returns and every
member of `ra`'s closure other than `b` itself is a member of the closure
recorded for `b`. -/
theorem fold_members_recorded (L : StdLibrary) (e0 : AdjacencyList)
    (records : List Connection) (b a : NodeId) (ra : BFSNode)
    (h : FoldsThrough L e0 records b a ra) :
    ∃ ef cl, solve L e0 records = some ef ∧ closureOf ef.BFS_result b = some cl ∧
      ∀ x ∈ ra.connections, x ≠ b → x ∈ cl := by
  obtain ⟨eb, j, node, e, d, k, t, q, i, hb, hj, hnode, hpre, hd, hff, hk, hq, hv, hi, hra⟩ := h
  obtain ⟨eb', ef, pre, hb', post, hs, hvisit, _, hres, hkeys, _, _⟩ := solve_spec L e0 records
  rw [hb] at hb'
  obtain rfl := Option.some.inj hb'
  have hjlt : j < eb.adjacencyList.length := (List.getElem?_eq_some.mp hj).1
  have hsplit : eb.adjacencyList =
      eb.adjacencyList.take j ++ node :: eb.adjacencyList.drop (j + 1) := by
    have h1 := List.drop_eq_getElem_cons hjlt
    have h2 : eb.adjacencyList[j] = node := (List.getElem?_eq_some.mp hj).2
    rw [h2] at h1
    rw [← h1, List.take_append_drop]
  have hvisit' : visitNodes L { eb with BFS_result := [], BFS_index := [] }
      (eb.adjacencyList.take j ++ node :: eb.adjacencyList.drop (j + 1)) =
      some { ef with BFS_result := pre } := by
    rw [← hsplit]; exact hvisit
  rw [visitNodes_append, hpre] at hvisit'
  simp only [Option.some_bind, visitNodes, Option.bind_eq_some] at hvisit'
  have hvisit := hvisit'
  obtain ⟨e2, h2, h3⟩ := hvisit
  have h2' := h2
  unfold visitNode at h2'
  rw [hnode] at h2'
  simp only [hd, hff, Option.map_eq_some'] at h2'
  obtain ⟨t', hloop, he2⟩ := h2'
  have hsub := traversal_fold_subset hloop hk hq hv hi hra
  obtain ⟨new, hnew⟩ := visitNodes_result h3
  have hmem : ({ putID := b, connections := setOfRange (hashErase b t'.visited) } : BFSNode)
      ∈ ef.BFS_result := by
    rw [hres]
    apply (stableSortClosures_perm pre).mem_iff.mpr
    have : pre = e2.BFS_result ++ new := hnew
    rw [this, ← he2]
    simp
  have hnd : (ef.BFS_result.map (fun r => r.putID)).Nodup := by
    rw [hres, ((stableSortClosures_perm pre).map _).nodup_iff, hkeys]
    exact post.ascending.nodup
  refine ⟨ef, _, hs, closureOf_of_mem hnd hmem, ?_⟩
  intro x hx hne
  exact mem_setOfRange.mpr (mem_hashErase.mpr ⟨hsub hx, hne⟩)

theorem example_folds_through :
    FoldsThrough StdLibrary.reference freshEngine exampleRecords "B".toList "A".toList
      { putID := "A".toList, connections := ["B".toList, "C".toList] } :=
  ⟨_, 1, _, _, _, 2, _, _, _, rfl, rfl, rfl, rfl, rfl, rfl, rfl, rfl, by decide, rfl, rfl⟩

theorem example_folds_through_tail :
    FoldsThrough StdLibrary.reference freshEngine exampleRecords "D".toList "A".toList
      { putID := "A".toList, connections := ["B".toList, "C".toList] } :=
  ⟨_, 3, _, _, _, 1, _, _, _, rfl, rfl, rfl, rfl, rfl, rfl, rfl, rfl, by decide, rfl, rfl⟩

/-- Witness of `fold_members_recorded`: in the end-to-end example the traversal
for `D` folds through `A`, whose record is `{B, C}`, and both members are in the
closure recorded for `D`. -/
theorem fold_members_recorded_witness :
    FoldsThrough StdLibrary.reference freshEngine exampleRecords "D".toList "A".toList
      { putID := "A".toList, connections := ["B".toList, "C".toList] } ∧
    ∃ ef cl, solve StdLibrary.reference freshEngine exampleRecords = some ef ∧
      closureOf ef.BFS_result "D".toList = some cl ∧
      ∀ x ∈ ["B".toList, "C".toList], x ≠ "D".toList → x ∈ cl :=
  ⟨example_folds_through_tail,
    fold_members_recorded StdLibrary.reference freshEngine exampleRecords "D".toList
      "A".toList { putID := "A".toList, connections := ["B".toList, "C".toList] }
      example_folds_through_tail⟩

/-- C4, counterexample. In the end-to-end example the traversal for `B` folds
through `A`, whose finalized closure is `{B, C}`; its member `B` is not in the
closure recorded for `B`, which is `{A, C}`. -/
theorem fold_drops_start_node :
    FoldsThrough StdLibrary.reference freshEngine exampleRecords "B".toList "A".toList
      { putID := "A".toList, connections := ["B".toList, "C".toList] } ∧
    ∃ ef, solve StdLibrary.reference freshEngine exampleRecords = some ef ∧
      closureOf ef.BFS_result "B".toList = some ["A".toList, "C".toList] ∧
      "B".toList ∈ ["B".toList, "C".toList] ∧
      "B".toList ∉ ["A".toList, "C".toList] :=
  ⟨example_folds_through, _, rfl, by decide, by decide, by decide⟩

/-! ## The closure set does not depend on the order of `visited` -/

theorem setOfRange_perm {l l' : List NodeId} (h : l.Perm l') :
    setOfRange l = setOfRange l' := by
  have h1 := sorted_setOfRange l
  have h2 := sorted_setOfRange l'
  apply List.eq_of_perm_of_sorted ?_ h1 h2
  rw [List.perm_ext_iff_of_nodup h1.nodup h2.nodup]
  intro a
  rw [mem_setOfRange, mem_setOfRange]
  exact h.mem_iff

theorem setOfRange_iterate (L : StdLibrary) (l : List NodeId) :
    setOfRange (L.iterate l) = setOfRange l :=
  setOfRange_perm (L.iterate_perm l)

/-! ## The queue of a traversal -/

theorem expand_eq (conns : List Node) (q v : List NodeId) :
    ∃ new, expand conns (q, v) = (q ++ new, v ++ new) ∧ new.Nodup ∧
      (∀ x ∈ new, x ∉ v ∧ ∃ c ∈ conns, c.getID = x) ∧
      (∀ c ∈ conns, c.getID ∈ v ++ new) := by
  induction conns generalizing q v with
  | nil => exact ⟨[], by simp [expand]⟩
  | cons c cs ih =>
    unfold expand
    by_cases h : c.getID ∈ v
    · simp only [h, if_true]
      obtain ⟨new, heq, hnd, hnew, hall⟩ := ih q v
      refine ⟨new, heq, hnd, ?_, ?_⟩
      · intro x hx
        obtain ⟨h1, c', hc', h2⟩ := hnew x hx
        exact ⟨h1, c', List.mem_cons_of_mem _ hc', h2⟩
      · intro c' hc'
        rcases List.mem_cons.mp hc' with rfl | hc'
        · exact List.mem_append_left _ h
        · exact hall c' hc'
    · simp only [h, if_false]
      obtain ⟨new, heq, hnd, hnew, hall⟩ := ih (q ++ [c.getID]) (v ++ [c.getID])
      refine ⟨c.getID :: new, ?_, ?_, ?_, ?_⟩
      · rw [heq]; simp
      · rw [List.nodup_cons]
        refine ⟨?_, hnd⟩
        intro hx
        exact (hnew _ hx).1 (List.mem_append_right _ (List.mem_singleton.mpr rfl))
      · intro x hx
        rcases List.mem_cons.mp hx with rfl | hx
        · exact ⟨h, c, List.mem_cons_self _ _, rfl⟩
        · obtain ⟨h1, c', hc', h2⟩ := hnew x hx
          exact ⟨fun hv => h1 (List.mem_append_left _ hv), c', List.mem_cons_of_mem _ hc', h2⟩
      · intro c' hc'
        rcases List.mem_cons.mp hc' with rfl | hc'
        · simp
        · have := hall c' hc'
          simp only [List.mem_append, List.mem_singleton, List.mem_cons] at this ⊢
          tauto

theorem visit_queue_visited {e : AdjacencyList} {t t' : Traversal} {current : NodeId}
    {q : List NodeId} (h : visit e t current q = some t')
    (hq : ∀ x ∈ q, x ∈ t.visited) : ∀ x ∈ t'.q, x ∈ t'.visited := by
  have hsub := visit_visited_subset h
  unfold visit at h
  by_cases hv : current ∈ t.visited
  · simp only [hv, if_true] at h
    cases hl : lookup e.BFS_index current with
    | some i =>
      simp only [hl, Option.map_eq_some'] at h
      obtain ⟨r, _, rfl⟩ := h
      exact fun x hx => hsub (hq x hx)
    | none =>
      simp only [hl, Option.map_eq_some'] at h
      obtain ⟨node, _, rfl⟩ := h
      obtain ⟨new, heq, _, _, _⟩ := expand_eq node.connections q t.visited
      simp only [heq]
      intro x hx
      rcases List.mem_append.mp hx with hx | hx
      · exact List.mem_append_left _ (hq x hx)
      · exact List.mem_append_right _ hx
  · simp only [hv, if_false, Option.some.injEq] at h
    subst h
    exact hq

theorem runSteps_queue_visited {e : AdjacencyList} {k : Nat} {t t' : Traversal}
    (h : runSteps e k t = some t') (hq : ∀ x ∈ t.q, x ∈ t.visited) :
    ∀ x ∈ t'.q, x ∈ t'.visited := by
  induction k generalizing t with
  | zero =>
    simp only [runSteps, Option.some.injEq] at h
    subst h
    exact hq
  | succ k ih =>
    unfold runSteps at h
    rcases hq' : t.q with _ | ⟨current, q⟩
    · simp [hq'] at h
    · simp only [hq', Option.bind_eq_some] at h
      obtain ⟨t1, h1, h2⟩ := h
      exact ih h2 (visit_queue_visited h1
        (fun x hx => hq x (by rw [hq']; exact List.mem_cons_of_mem _ hx)))

/-- C20. In every worklist traversal, from any engine state and start node,
every id in the queue is in `visited` after any number of iterations; so the
candidate that the next iteration pops is visited, the re-check succeeds, and
the iteration does what it would do without the re-check. -/
theorem recheck_never_skips (e : AdjacencyList) (start : NodeId) (k : Nat) (t : Traversal)
    (h : runSteps e k (Traversal.start e start) = some t) :
    (∀ x ∈ t.q, x ∈ t.visited) ∧
    ∀ current q, t.q = current :: q → current ∈ t.visited ∧
      visit e t current q =
        match lookup e.BFS_index current with
        | some i =>
          e.BFS_result[i]?.map (fun r =>
            { t with q := q, visited := foldClosure r.connections t.visited })
        | none =>
          e.adjacencyList[subscript t.nodeIndex current 0]?.map (fun node =>
            let s := expand node.connections (q, t.visited)
            { q := s.1, visited := s.2, nodeIndex := touch t.nodeIndex current 0 }) := by
  have hall := runSteps_queue_visited h (by simp [Traversal.start])
  refine ⟨hall, ?_⟩
  intro current q hq
  have hc : current ∈ t.visited := hall current (by rw [hq]; exact List.mem_cons_self _ _)
  refine ⟨hc, ?_⟩
  unfold visit
  simp only [hc, if_true]

/-- Witness of `recheck_never_skips`: two iterations of the traversal for `B` in
the engine built from the end-to-end example leave `A` in the queue. -/
theorem recheck_never_skips_witness :
    ∃ t, runSteps exampleEngine 2 (Traversal.start exampleEngine "B".toList) = some t ∧
      (∀ x ∈ t.q, x ∈ t.visited) ∧ t.q = ["A".toList] :=
  ⟨_, rfl, (recheck_never_skips exampleEngine "B".toList 2 _ rfl).1, rfl⟩

/-! ## Empty input, and repeated runs -/

/-- C13 (empty stream). `clear(); build` on zero records returns an engine whose
adjacency list and indices are all empty, and `BFS` on it returns, with an empty
result list. -/
theorem build_solve_empty (L : StdLibrary) (e : AdjacencyList) :
    build L (clear e) [] = some freshEngine ∧
    BFS L freshEngine = some freshEngine ∧
    solve L e [] = some freshEngine ∧
    freshEngine.adjacencyList = [] ∧ freshEngine.nodeIndex = [] ∧
    freshEngine.index = [] ∧ freshEngine.inverted_index = [] ∧
    freshEngine.dual_side_index = [] ∧
    freshEngine.BFS_result = [] ∧ freshEngine.BFS_index = [] := by
  have hsort : L.sortAdjacency [] = [] := (L.sortAdjacency_perm []).eq_nil
  have hb : build L (clear e) [] = some freshEngine := by
    simp [build, readRecords, finishBuild, clear, hsort, indexNodes, freshEngine]
  have hs : BFS L freshEngine = some freshEngine := by
    simp [BFS, freshEngine, visitNodes, stableSortClosures]
  refine ⟨hb, hs, ?_, rfl, rfl, rfl, rfl, rfl, rfl, rfl⟩
  simp [solve, hb, hs]

theorem visit_position {e : AdjacencyList} {t t' : Traversal} {current : NodeId}
    {q : List NodeId} (h : visit e t current q = some t') :
    ∀ k, subscript t'.nodeIndex k 0 = subscript t.nodeIndex k 0 := by
  unfold visit at h
  by_cases hv : current ∈ t.visited
  · simp only [hv, if_true] at h
    cases hl : lookup e.BFS_index current with
    | some i =>
      simp only [hl, Option.map_eq_some'] at h
      obtain ⟨r, _, rfl⟩ := h
      exact fun _ => rfl
    | none =>
      simp only [hl, Option.map_eq_some'] at h
      obtain ⟨node, _, rfl⟩ := h
      exact fun k => subscript_touch _ _ _ _
  · simp only [hv, if_false, Option.some.injEq] at h
    subst h
    exact fun _ => rfl

theorem whileLoop_position {e : AdjacencyList} {fuel : Nat} {t t' : Traversal}
    (h : whileLoop e fuel t = some t') :
    ∀ k, subscript t'.nodeIndex k 0 = subscript t.nodeIndex k 0 := by
  induction fuel generalizing t with
  | zero => simp [whileLoop] at h
  | succ fuel ih =>
    unfold whileLoop at h
    rcases hq : t.q with _ | ⟨current, q⟩
    · simp only [hq, Option.some.injEq] at h
      subst h
      exact fun _ => rfl
    · simp only [hq, Option.bind_eq_some] at h
      obtain ⟨t1, h1, h2⟩ := h
      exact fun k => (ih h2 k).trans (visit_position h1 k)

theorem visit_same {e e' : AdjacencyList} (he : SameEngine e e') {t t' : Traversal}
    (ht : SameTraversal t t') (current : NodeId) (q : List NodeId) {r : Traversal}
    (h : visit e t current q = some r) :
    ∃ r', visit e' t' current q = some r' ∧ SameTraversal r r' := by
  unfold visit at h ⊢
  rw [← ht.visited_eq, ← he.index_eq, ← he.result_eq, ← he.adjacency_eq, ← ht.position_eq]
  by_cases hv : current ∈ t.visited
  · simp only [hv, if_true] at h ⊢
    cases hl : lookup e.BFS_index current with
    | some i =>
      simp only [hl, Option.map_eq_some'] at h ⊢
      obtain ⟨rec, hrec, rfl⟩ := h
      exact ⟨_, ⟨rec, hrec, rfl⟩, ⟨rfl, rfl, ht.position_eq⟩⟩
    | none =>
      simp only [hl, Option.map_eq_some'] at h ⊢
      obtain ⟨node, hnode, rfl⟩ := h
      refine ⟨_, ⟨node, hnode, rfl⟩, ⟨rfl, rfl, ?_⟩⟩
      intro k
      simp only [subscript_touch]
      exact ht.position_eq k
  · simp only [hv, if_false, Option.some.injEq] at h ⊢
    subst h
    exact ⟨_, rfl, ⟨rfl, rfl, ht.position_eq⟩⟩

theorem whileLoop_same {e e' : AdjacencyList} (he : SameEngine e e') (fuel : Nat)
    {t t' : Traversal} (ht : SameTraversal t t') {r : Traversal}
    (h : whileLoop e fuel t = some r) :
    ∃ r', whileLoop e' fuel t' = some r' ∧ SameTraversal r r' := by
  induction fuel generalizing t t' with
  | zero => simp [whileLoop] at h
  | succ fuel ih =>
    unfold whileLoop at h ⊢
    rw [← ht.q_eq]
    rcases hq : t.q with _ | ⟨current, q⟩
    · simp only [hq, Option.some.injEq] at h
      subst h
      exact ⟨t', rfl, ht⟩
    · simp only [hq, Option.bind_eq_some] at h
      obtain ⟨t1, h1, h2⟩ := h
      obtain ⟨t1', h1', hs1⟩ := visit_same he ht current q h1
      obtain ⟨r', h2', hs2⟩ := ih hs1 h2
      exact ⟨r', by simp only [h1', Option.some_bind, h2'], hs2⟩

theorem visitNode_frame {L : StdLibrary} {e e' : AdjacencyList} {node : AdjacencyListNode}
    (h : visitNode L e node = some e') :
    e'.adjacencyList = e.adjacencyList ∧ e'.index = e.index ∧
    e'.inverted_index = e.inverted_index ∧ e'.dual_side_index = e.dual_side_index ∧
    ∀ k, subscript e'.nodeIndex k 0 = subscript e.nodeIndex k 0 := by
  unfold visitNode at h
  cases hd : lookup e.dual_side_index node.putID with
  | none => simp [hd] at h
  | some d =>
    simp only [hd] at h
    cases hff : firstFinalized e.BFS_index (L.iterate d) with
    | some m =>
      simp only [hff] at h
      cases hl : lookup (assign e.BFS_index node.putID e.BFS_result.length) m with
      | none => simp [hl] at h
      | some i =>
        simp only [hl, Option.map_eq_some'] at h
        obtain ⟨r, _, rfl⟩ := h
        exact ⟨rfl, rfl, rfl, rfl, fun _ => rfl⟩
    | none =>
      simp only [hff, Option.map_eq_some'] at h
      obtain ⟨t, ht, rfl⟩ := h
      exact ⟨rfl, rfl, rfl, rfl, fun k => whileLoop_position ht k⟩

theorem visitNodes_frame {L : StdLibrary} {ns : List AdjacencyListNode}
    {e e' : AdjacencyList} (h : visitNodes L e ns = some e') :
    e'.adjacencyList = e.adjacencyList ∧ e'.index = e.index ∧
    e'.inverted_index = e.inverted_index ∧ e'.dual_side_index = e.dual_side_index ∧
    ∀ k, subscript e'.nodeIndex k 0 = subscript e.nodeIndex k 0 := by
  induction ns generalizing e with
  | nil =>
    simp only [visitNodes, Option.some.injEq] at h
    subst h
    exact ⟨rfl, rfl, rfl, rfl, fun _ => rfl⟩
  | cons n ns ih =>
    simp only [visitNodes, Option.bind_eq_some] at h
    obtain ⟨e1, h1, h2⟩ := h
    obtain ⟨a1, b1, c1, d1, p1⟩ := visitNode_frame h1
    obtain ⟨a2, b2, c2, d2, p2⟩ := ih h2
    exact ⟨a2.trans a1, b2.trans b1, c2.trans c1, d2.trans d1, fun k => (p2 k).trans (p1 k)⟩

theorem visitNode_same (L : StdLibrary) {e e' : AdjacencyList} (he : SameEngine e e')
    (node : AdjacencyListNode) {r : AdjacencyList} (h : visitNode L e node = some r) :
    ∃ r', visitNode L e' node = some r' ∧ SameEngine r r' := by
  unfold visitNode at h ⊢
  rw [← he.dual_eq, ← he.index_eq, ← he.result_eq]
  cases hd : lookup e.dual_side_index node.putID with
  | none => simp [hd] at h
  | some d =>
    simp only [hd] at h ⊢
    cases hff : firstFinalized e.BFS_index (L.iterate d) with
    | some m =>
      simp only [hff] at h ⊢
      cases hl : lookup (assign e.BFS_index node.putID e.BFS_result.length) m with
      | none => simp [hl] at h
      | some i =>
        simp only [hl, Option.map_eq_some'] at h ⊢
        obtain ⟨rec, hrec, rfl⟩ := h
        exact ⟨_, ⟨rec, hrec, rfl⟩,
          ⟨he.adjacency_eq, rfl, rfl, he.forward_eq, he.inverse_eq, rfl, he.position_eq⟩⟩
    | none =>
      simp only [hff, Option.map_eq_some'] at h ⊢
      obtain ⟨t, ht, rfl⟩ := h
      have hfuel : traversalFuel e' = traversalFuel e := by
        simp only [traversalFuel, he.adjacency_eq]
      have hstart : SameTraversal (Traversal.start e node.putID)
          (Traversal.start e' node.putID) := ⟨rfl, rfl, he.position_eq⟩
      obtain ⟨t', ht', hs⟩ := whileLoop_same he (traversalFuel e) hstart ht
      rw [hfuel]
      refine ⟨_, ⟨t', ht', rfl⟩, ?_⟩
      exact ⟨he.adjacency_eq, by simp only [hs.visited_eq], rfl, he.forward_eq, he.inverse_eq,
        rfl, hs.position_eq⟩

theorem visitNodes_same (L : StdLibrary) (ns : List AdjacencyListNode)
    {e e' : AdjacencyList} (he : SameEngine e e') {r : AdjacencyList}
    (h : visitNodes L e ns = some r) :
    ∃ r', visitNodes L e' ns = some r' ∧ SameEngine r r' := by
  induction ns generalizing e e' with
  | nil =>
    simp only [visitNodes, Option.some.injEq] at h
    subst h
    exact ⟨e', rfl, he⟩
  | cons n ns ih =>
    simp only [visitNodes, Option.bind_eq_some] at h
    obtain ⟨e1, h1, h2⟩ := h
    obtain ⟨e1', h1', hs1⟩ := visitNode_same L he n h1
    obtain ⟨r', h2', hs2⟩ := ih hs1 h2
    exact ⟨r', by simp only [visitNodes, h1', Option.some_bind, h2'], hs2⟩

theorem BFS_again (L : StdLibrary) {e e1 : AdjacencyList} (h : BFS L e = some e1) :
    ∃ e2, BFS L e1 = some e2 ∧ e2.adjacencyList = e1.adjacencyList ∧
      e2.BFS_result = e1.BFS_result ∧ e2.BFS_index = e1.BFS_index := by
  unfold BFS at h
  simp only [Option.map_eq_some'] at h
  obtain ⟨p, hp, rfl⟩ := h
  obtain ⟨ha, hf, hi, hd, hpos⟩ := visitNodes_frame hp
  have hsame : SameEngine { e with BFS_result := [], BFS_index := [] }
      { p with BFS_result := [], BFS_index := [] } :=
    ⟨ha.symm, rfl, rfl, hf.symm, hi.symm, hd.symm, fun k => (hpos k).symm⟩
  obtain ⟨p', hp', hs⟩ := visitNodes_same L e.adjacencyList hsame hp
  have ha' : p.adjacencyList = e.adjacencyList := ha
  have hp'' : visitNodes L { p with BFS_result := [], BFS_index := [] } p.adjacencyList =
      some p' := by
    have h := hp'
    rw [← ha'] at h
    exact h
  refine ⟨{ p' with BFS_result := stableSortClosures p'.BFS_result }, ?_, ?_, ?_, ?_⟩
  · unfold BFS
    simp only [hp'', Option.map_some']
  · exact hs.adjacency_eq.symm
  · simp only [hs.result_eq]
  · exact hs.index_eq.symm

/-- C11 (determinism across runs). From any prior engine state,
`clear(); build(records); BFS()` behaves as on an engine that was never used;
it returns, and a second `BFS()` right after the first returns too, with the
same adjacency list, the same result list in the same order and the same
closure index, whatever the first call has inserted into `nodeIndex`. -/
theorem solve_deterministic (L : StdLibrary) (e : AdjacencyList)
    (records : List Connection) :
    build L (clear e) records = build L (clear freshEngine) records ∧
    solve L e records = solve L freshEngine records ∧
    ∃ e1 e2, solve L e records = some e1 ∧ BFS L e1 = some e2 ∧
      e2.adjacencyList = e1.adjacencyList ∧ e2.BFS_result = e1.BFS_result ∧
      e2.BFS_index = e1.BFS_index := by
  refine ⟨rfl, rfl, ?_⟩
  obtain ⟨eb, e1, _, hb, _, hs, _⟩ := solve_spec L e records
  have h1 : BFS L eb = some e1 := by
    simpa [solve, hb] using hs
  obtain ⟨e2, h2, ha, hr, hi⟩ := BFS_again L h1
  exact ⟨e1, e2, hs, h2, ha, hr, hi⟩

/-! ## The record stream -/

theorem blocks_succ (n : Nat) (bytes : List Nat) :
    blocks (n + 1) bytes = bytes.take recordSize :: blocks n (bytes.drop recordSize) := by
  unfold blocks
  rw [List.range_succ_eq_map, List.map_cons, List.map_map]
  simp only [Nat.mul_zero, List.drop_zero, List.cons.injEq, true_and]
  apply List.map_congr_left
  intro i _
  simp only [Function.comp, List.drop_drop]
  congr 2
  rw [Nat.mul_succ]
  omega

theorem readFrames_eq_blocks (fuel : Nat) (bytes : List Nat) (n k : Nat)
    (hlen : bytes.length = recordSize * n + k) (hk : k < recordSize) (hfuel : n ≤ fuel) :
    readFrames fuel bytes = blocks n bytes := by
  induction fuel generalizing bytes n with
  | zero =>
    obtain rfl : n = 0 := by omega
    simp [readFrames, blocks]
  | succ fuel ih =>
    unfold readFrames
    cases n with
    | zero =>
      have : bytes.length < recordSize := by omega
      simp [this, blocks]
    | succ m =>
      have hge : ¬ bytes.length < recordSize := by
        rw [hlen, Nat.mul_succ]; omega
      rw [if_neg hge, blocks_succ]
      congr 1
      apply ih _ m
      · rw [List.length_drop, hlen, Nat.mul_succ]; omega
      · omega

theorem frames_eq_blocks (bytes : List Nat) (n k : Nat)
    (hlen : bytes.length = recordSize * n + k) (hk : k < recordSize) :
    frames bytes = blocks n bytes := by
  apply readFrames_eq_blocks _ _ n k hlen hk
  rw [hlen]
  simp only [recordSize]
  omega

theorem blocks_take (n : Nat) (bytes : List Nat) :
    blocks n (bytes.take (recordSize * n)) = blocks n bytes := by
  unfold blocks
  apply List.map_congr_left
  intro i hi
  rw [List.mem_range] at hi
  rw [List.drop_take, List.take_take]
  congr 1
  have : recordSize * (i + 1) ≤ recordSize * n := Nat.mul_le_mul_left _ hi
  rw [Nat.mul_succ] at this
  omega

/-- C12. For a stream of `28·n + k` bytes with `k < 28`, the read loop of `build`
delivers exactly the first `n` complete records, in order; the `k` trailing
bytes give no record, and `build` returns what it returns on the stream cut after
`28·n` bytes. -/
theorem build_ignores_partial_record (L : StdLibrary) (e : AdjacencyList)
    (bytes : List Nat) (n k : Nat)
    (hlen : bytes.length = recordSize * n + k) (hk : k < recordSize) :
    (frames bytes).length = n ∧
    (∀ i, i < n →
      (frames bytes)[i]? = some ((bytes.drop (recordSize * i)).take recordSize)) ∧
    frames bytes = frames (bytes.take (recordSize * n)) ∧
    buildStream L e bytes = buildStream L e (bytes.take (recordSize * n)) := by
  have h1 := frames_eq_blocks bytes n k hlen hk
  have h2 : frames (bytes.take (recordSize * n)) = blocks n bytes := by
    rw [frames_eq_blocks (bytes.take (recordSize * n)) n 0
      (by rw [List.length_take, hlen]; omega) (by simp [recordSize]), blocks_take]
  refine ⟨?_, ?_, ?_, ?_⟩
  · rw [h1]; simp [blocks]
  · intro i hi
    rw [h1]
    simp [blocks, List.getElem?_range hi]
  · rw [h1, h2]
  · unfold buildStream
    rw [h1, h2]

/-- Witness of `build_ignores_partial_record`: a stream of 31 bytes, the record
`A → B` and three more bytes, gives the adjacency list of that one record. -/
theorem build_ignores_partial_record_witness :
    truncatedStream.length = recordSize * 1 + 3 ∧ 3 < recordSize ∧
    (frames truncatedStream).length = 1 ∧
    buildStream StdLibrary.reference freshEngine truncatedStream =
      buildStream StdLibrary.reference freshEngine (truncatedStream.take (recordSize * 1)) ∧
    (buildStream StdLibrary.reference freshEngine truncatedStream).map
        (fun eb => eb.adjacencyList) =
      some [{ putID := "A".toList,
              connections := [{ getID := "B".toList, weight := 0x3F800000 }] }] :=
  ⟨by decide, by decide,
    (build_ignores_partial_record StdLibrary.reference freshEngine truncatedStream 1 3
      (by decide) (by decide)).1,
    (build_ignores_partial_record StdLibrary.reference freshEngine truncatedStream 1 3
      (by decide) (by decide)).2.2.2,
    by decide⟩

/-! ## The state in which a node is processed -/

theorem processedAt_spec {L : StdLibrary} {e0 : AdjacencyList} {records : List Connection}
    {j : Nat} {node : AdjacencyListNode} {e : AdjacencyList}
    (h : ProcessedAt L e0 records j node e) :
    ∃ eb, build L (clear e0) records = some eb ∧ BuildPost records eb ∧
      eb.adjacencyList[j]? = some node ∧
      e.adjacencyList = eb.adjacencyList ∧ e.dual_side_index = eb.dual_side_index ∧
      (∀ k, subscript e.nodeIndex k 0 = subscript eb.nodeIndex k 0) ∧
      WellIndexed e ∧ node ∈ e.adjacencyList ∧
      (∃ d, lookup e.dual_side_index node.putID = some d) ∧
      lookup e.BFS_index node.putID = none ∧
      e.BFS_result.map (fun r => r.putID) =
        (eb.adjacencyList.take j).map (fun n => n.putID) ∧
      (∀ r ∈ e.BFS_result, r.putID ∉ r.connections) := by
  obtain ⟨eb, hb, hj, hv⟩ := h
  obtain ⟨eb', hb', post⟩ := build_clear_post L e0 records
  rw [hb] at hb'
  obtain rfl := Option.some.inj hb'
  have hsub : (eb.adjacencyList.take j).Sublist eb.adjacencyList := List.take_sublist _ _
  have hnd : ((eb.adjacencyList.take j).map (fun n => n.putID)).Nodup :=
    (hsub.map _).nodup post.ascending.nodup
  obtain ⟨e', new, hv', hadj, hdual, hres, hkeys, hself, hout, wf⟩ :=
    visitNodes_spec L (eb.adjacencyList.take j) post.wellIndexed hnd
      (fun n hn => hsub.subset hn)
      (fun n hn => by
        obtain ⟨d, hd, _⟩ := post.dual n (hsub.subset hn)
        exact ⟨d, hd⟩)
      (fun n _ => rfl)
  rw [hv] at hv'
  obtain rfl := Option.some.inj hv'
  obtain ⟨_, _, _, _, hpos⟩ := visitNodes_frame hv
  have hmem : node ∈ eb.adjacencyList := List.mem_iff_getElem?.mpr ⟨j, hj⟩
  have hjlt : j < eb.adjacencyList.length := (List.getElem?_eq_some.mp hj).1
  have hnot : node.putID ∉ (eb.adjacencyList.take j).map (fun n => n.putID) := by
    intro hin
    obtain ⟨i, hi⟩ := List.mem_iff_getElem?.mp hin
    rw [List.getElem?_map] at hi
    have hilt : i < j := by
      by_contra hge
      rw [List.getElem?_take, if_neg hge] at hi
      simp at hi
    rw [List.getElem?_take, if_pos hilt] at hi
    have h1 := (post.position node.putID i).mpr hi
    have h2 := (post.position node.putID j).mpr (by rw [hj]; rfl)
    rw [h1] at h2
    have := Option.some.inj h2
    omega
  refine ⟨eb, hb, post, hj, hadj, hdual, hpos, wf, ?_, ?_, ?_, ?_, ?_⟩
  · rw [hadj]; exact hmem
  · obtain ⟨d, hd, _⟩ := post.dual node hmem
    exact ⟨d, by rw [hdual]; exact hd⟩
  · rw [hout _ hnot]; rfl
  · rw [hres]; simpa using hkeys
  · intro r hr
    rw [hres] at hr
    exact hself r (by simpa using hr)

theorem processedAt_final {L : StdLibrary} {e0 : AdjacencyList} {records : List Connection}
    {j : Nat} {node : AdjacencyListNode} {e : AdjacencyList}
    (h : ProcessedAt L e0 records j node e) :
    ∃ e2 cl ef, visitNode L e node = some e2 ∧
      e2.BFS_result = e.BFS_result ++ [{ putID := node.putID, connections := cl }] ∧
      solve L e0 records = some ef ∧
      closureOf ef.BFS_result node.putID = some cl ∧
      ∀ r ∈ e.BFS_result, closureOf ef.BFS_result r.putID = some r.connections := by
  obtain ⟨eb, hb, hj, hpre⟩ := h
  obtain ⟨eb', ef, pre, hb', post, hs, hvisit, _, hres, hkeys, _, _⟩ := solve_spec L e0 records
  rw [hb] at hb'
  obtain rfl := Option.some.inj hb'
  have hjlt : j < eb.adjacencyList.length := (List.getElem?_eq_some.mp hj).1
  have hsplit : eb.adjacencyList =
      eb.adjacencyList.take j ++ node :: eb.adjacencyList.drop (j + 1) := by
    have h1 := List.drop_eq_getElem_cons hjlt
    have h2 : eb.adjacencyList[j] = node := (List.getElem?_eq_some.mp hj).2
    rw [h2] at h1
    rw [← h1, List.take_append_drop]
  have hvisit' : visitNodes L { eb with BFS_result := [], BFS_index := [] }
      (eb.adjacencyList.take j ++ node :: eb.adjacencyList.drop (j + 1)) =
      some { ef with BFS_result := pre } := by
    rw [← hsplit]; exact hvisit
  rw [visitNodes_append, hpre] at hvisit'
  simp only [Option.some_bind, visitNodes, Option.bind_eq_some] at hvisit'
  obtain ⟨e2, h2, h3⟩ := hvisit'
  obtain ⟨cl, hcl⟩ := visitNode_result h2
  obtain ⟨new, hnew⟩ := visitNodes_result h3
  have hpre' : pre = e.BFS_result ++ { putID := node.putID, connections := cl } :: new := by
    have : pre = e2.BFS_result ++ new := hnew
    rw [this, hcl, List.append_assoc, List.singleton_append]
  have hnd : (ef.BFS_result.map (fun r => r.putID)).Nodup := by
    rw [hres, ((stableSortClosures_perm pre).map _).nodup_iff, hkeys]
    exact post.ascending.nodup
  have hin : ∀ r ∈ pre, r ∈ ef.BFS_result := by
    intro r hr
    rw [hres]
    exact (stableSortClosures_perm pre).mem_iff.mpr hr
  refine ⟨e2, cl, ef, h2, hcl, hs, ?_, ?_⟩
  · exact closureOf_of_mem hnd
      (r := { putID := node.putID, connections := cl }) (hin _ (by rw [hpre']; simp))
  · intro r hr
    exact closureOf_of_mem hnd (hin r (by rw [hpre']; simp [hr]))

/-! ## Lookups succeed, and the shortcut step -/

theorem runSteps_positions {e : AdjacencyList} (wf : WellIndexed e)
    (hne : 0 < e.adjacencyList.length) {k : Nat} {t t' : Traversal}
    (hpos : ∀ key i, lookup t.nodeIndex key = some i → i < e.adjacencyList.length)
    (h : runSteps e k t = some t') :
    ∀ key i, lookup t'.nodeIndex key = some i → i < e.adjacencyList.length := by
  induction k generalizing t with
  | zero =>
    simp only [runSteps, Option.some.injEq] at h
    subst h
    exact hpos
  | succ k ih =>
    unfold runSteps at h
    rcases hq : t.q with _ | ⟨current, q⟩
    · simp [hq] at h
    · simp only [hq, Option.bind_eq_some] at h
      obtain ⟨t1, h1, h2⟩ := h
      obtain ⟨t1', h1', hpos1, _⟩ := visit_total wf hne hpos current q
      rw [h1] at h1'
      obtain rfl := Option.some.inj h1'
      exact ih hpos1 h2

/-- C18. `clear(); build(records); BFS()` returns: no lookup fails.  In the state
in which any adjacency entry is processed, the entry has a dual-side set; every
position stored in `BFS_index` is a position of the result list and the record
there belongs to the key, also when the shortcut reads it after the position of
the entry itself was stored; every iteration of the traversal expands or folds
with a position that is in range; and the iteration for the entry succeeds. -/
theorem solve_never_fails (L : StdLibrary) (e0 : AdjacencyList)
    (records : List Connection) :
    (∃ ef, solve L e0 records = some ef) ∧
    ∀ j node e, ProcessedAt L e0 records j node e →
      (∃ d, lookup e.dual_side_index node.putID = some d) ∧
      (∀ m i, lookup e.BFS_index m = some i →
        ∃ r, e.BFS_result[i]? = some r ∧ r.putID = m) ∧
      (∀ m i, lookup e.BFS_index m = some i →
        lookup (assign e.BFS_index node.putID e.BFS_result.length) m = some i) ∧
      (∀ k t current q, runSteps e k (Traversal.start e node.putID) = some t →
        t.q = current :: q →
        subscript t.nodeIndex current 0 < e.adjacencyList.length ∧
        ∃ t', visit e t current q = some t') ∧
      ∃ e2, visitNode L e node = some e2 := by
  constructor
  · obtain ⟨_, ef, _, _, _, hs, _⟩ := solve_spec L e0 records
    exact ⟨ef, hs⟩
  · intro j node e h
    obtain ⟨eb, _, _, _, _, _, _, wf, hmem, hdual, hnew, _, _⟩ := processedAt_spec h
    have hne : 0 < e.adjacencyList.length := List.length_pos_of_mem hmem
    refine ⟨hdual, wf.index_valid, ?_, ?_, ?_⟩
    · intro m i hm
      rw [lookup_assign, if_neg]
      · exact hm
      · intro heq
        rw [← heq, hnew] at hm
        exact Option.noConfusion hm
    · intro k t current q hk hq
      have hpos := runSteps_positions wf hne wf.position_valid hk
      obtain ⟨t', ht', _, _⟩ := visit_total wf hne hpos current q
      refine ⟨?_, t', ht'⟩
      unfold subscript
      cases hs : lookup t.nodeIndex current with
      | none => simpa using hne
      | some i => simpa using hpos _ _ hs
    · obtain ⟨e2, _, h2, _⟩ := visitNode_spec L wf hmem hdual hnew
      exact ⟨e2, h2⟩

theorem firstFinalized_append {idx : UMap Nat} {pre post : List NodeId} {m : NodeId}
    (hpre : ∀ x ∈ pre, lookup idx x = none) {i : Nat} (hm : lookup idx m = some i) :
    firstFinalized idx (pre ++ m :: post) = some m := by
  induction pre with
  | nil => simp [firstFinalized, hm]
  | cons c cs ih =>
    simp only [List.cons_append, firstFinalized, hpre c (List.mem_cons_self _ _)]
    exact ih (fun x hx => hpre x (List.mem_cons_of_mem _ hx))

theorem firstFinalized_eq_none {idx : UMap Nat} {l : List NodeId}
    (h : ∀ x ∈ l, lookup idx x = none) : firstFinalized idx l = none := by
  induction l with
  | nil => rfl
  | cons c cs ih =>
    simp only [firstFinalized, h c (List.mem_cons_self _ _)]
    exact ih (fun x hx => h x (List.mem_cons_of_mem _ hx))

/-- C14 (shortcut step). When `BFS` processes the entry `node`, the entry has a
dual-side set `d`.  If `m` is the first finalized member in the iteration order
of `d`, then `m` is not the node itself, no traversal is run (the new state is
the old one with one more record and its position), the closure recorded for
the node is (closure(m) ∪ {m}) \ {node}, it is the closure of the node in the result
of `BFS`, and `m` keeps its closure.  If no member is finalized, the
record is the one of the worklist traversal. -/
theorem shortcut_step (L : StdLibrary) (e0 : AdjacencyList) (records : List Connection)
    (j : Nat) (node : AdjacencyListNode) (e : AdjacencyList)
    (h : ProcessedAt L e0 records j node e) :
    ∃ d, lookup e.dual_side_index node.putID = some d ∧
      (∀ pre m post i, L.iterate d = pre ++ m :: post →
        (∀ x ∈ pre, lookup e.BFS_index x = none) → lookup e.BFS_index m = some i →
        m ≠ node.putID ∧
        ∃ rm ef, e.BFS_result[i]? = some rm ∧ rm.putID = m ∧
          visitNode L e node = some
            { e with
              BFS_index := assign e.BFS_index node.putID e.BFS_result.length
              BFS_result := e.BFS_result ++
                [{ putID := node.putID
                   connections := setErase node.putID (setInsert m rm.connections) }] } ∧
          (∀ x, x ∈ setErase node.putID (setInsert m rm.connections) ↔
            (x ∈ rm.connections ∨ x = m) ∧ x ≠ node.putID) ∧
          solve L e0 records = some ef ∧
          closureOf ef.BFS_result node.putID =
            some (setErase node.putID (setInsert m rm.connections)) ∧
          closureOf ef.BFS_result m = some rm.connections) ∧
      ((∀ x ∈ L.iterate d, lookup e.BFS_index x = none) →
        ∃ t, whileLoop e (traversalFuel e) (Traversal.start e node.putID) = some t ∧
          visitNode L e node = some
            { e with
              nodeIndex := t.nodeIndex
              BFS_index := assign e.BFS_index node.putID e.BFS_result.length
              BFS_result := e.BFS_result ++
                [{ putID := node.putID
                   connections := setOfRange (hashErase node.putID t.visited) }] }) := by
  obtain ⟨eb, _, _, _, _, _, _, wf, hmem, ⟨d, hd⟩, hnew, _, _⟩ := processedAt_spec h
  obtain ⟨e2, cl, ef, h2, hcl, hs, hfinal, hkeep⟩ := processedAt_final h
  refine ⟨d, hd, ?_, ?_⟩
  · intro pre m post i hit hpre hm
    have hne : m ≠ node.putID := by
      intro heq
      rw [heq, hnew] at hm
      exact Option.noConfusion hm
    obtain ⟨rm, hrm, hput⟩ := wf.index_valid _ _ hm
    have hff : firstFinalized e.BFS_index (L.iterate d) = some m := by
      rw [hit]; exact firstFinalized_append hpre hm
    have hv : visitNode L e node = some
        { e with
          BFS_index := assign e.BFS_index node.putID e.BFS_result.length
          BFS_result := e.BFS_result ++
            [{ putID := node.putID
               connections := setErase node.putID (setInsert m rm.connections) }] } := by
      unfold visitNode
      simp only [hd, hff, lookup_assign, if_neg (fun h' : node.putID = m => hne h'.symm), hm,
        hrm, Option.map_some']
    have hcl' : cl = setErase node.putID (setInsert m rm.connections) := by
      rw [h2] at hv
      have := congrArg AdjacencyList.BFS_result (Option.some.inj hv)
      rw [hcl] at this
      have := List.append_cancel_left this
      simpa using this
    refine ⟨hne, rm, ef, hrm, hput, hv, ?_, hs, ?_, ?_⟩
    · intro x
      rw [mem_setErase, mem_setInsert]
      tauto
    · rw [← hcl']; exact hfinal
    · have := hkeep rm (List.mem_iff_getElem?.mpr ⟨i, hrm⟩)
      rw [hput] at this
      exact this
  · intro hall
    have hff : firstFinalized e.BFS_index (L.iterate d) = none := firstFinalized_eq_none hall
    obtain ⟨t, ht, _⟩ := traversal_total wf (List.length_pos_of_mem hmem) node.putID
    refine ⟨t, ht, ?_⟩
    unfold visitNode
    simp only [hd, hff, ht, Option.map_some']

/-- Witness of `shortcut_step`: in the 2-cycle `A → B`, `B → A` the entry `B` is
processed when `A` is finalized with the closure `{B}`, and the closure recorded
for `B` is `{A}`. -/
theorem shortcut_step_witness :
    ProcessedAt StdLibrary.reference freshEngine twoCycle 1
      { putID := "B".toList, connections := [{ getID := "A".toList, weight := 0x40000000 }] }
      (stateAt twoCycle 1) ∧
    lookup (stateAt twoCycle 1).BFS_index "A".toList = some 0 ∧
    (solve StdLibrary.reference freshEngine twoCycle).map
        (fun ef => closureOf ef.BFS_result "B".toList) = some (some ["A".toList]) ∧
    ∃ d, lookup (stateAt twoCycle 1).dual_side_index "B".toList = some d :=
  ⟨⟨_, rfl, rfl, rfl⟩, by decide, by decide,
    (shortcut_step StdLibrary.reference freshEngine twoCycle 1
      { putID := "B".toList, connections := [{ getID := "A".toList, weight := 0x40000000 }] }
      (stateAt twoCycle 1) ⟨_, rfl, rfl, rfl⟩).imp (fun _ hd => hd.1)⟩

/-! ## The pops of a traversal -/

theorem runSteps_eq_runTrace (e : AdjacencyList) (k : Nat) (t : Traversal) :
    runSteps e k t = (runTrace e k t).map (fun p => p.2) := by
  induction k generalizing t with
  | zero => rfl
  | succ k ih =>
    unfold runSteps runTrace
    rcases hq : t.q with _ | ⟨current, q⟩
    · rfl
    · cases hv : visit e t current q with
      | none => simp only [hv, Option.none_bind, Option.map_none']
      | some t1 =>
        simp only [hv, Option.some_bind, ih, Option.map_map]
        rfl

theorem whileLoop_trace {e : AdjacencyList} {fuel : Nat} {t t' : Traversal}
    (h : whileLoop e fuel t = some t') :
    ∃ k popped, runTrace e k t = some (popped, t') ∧ k < fuel := by
  induction fuel generalizing t with
  | zero => simp [whileLoop] at h
  | succ fuel ih =>
    unfold whileLoop at h
    rcases hq : t.q with _ | ⟨current, q⟩
    · simp only [hq, Option.some.injEq] at h
      subst h
      exact ⟨0, [], rfl, Nat.succ_pos _⟩
    · simp only [hq, Option.bind_eq_some] at h
      obtain ⟨t1, h1, h2⟩ := h
      obtain ⟨k, popped, hk, hlt⟩ := ih h2
      refine ⟨k + 1, current :: popped, ?_, Nat.succ_lt_succ hlt⟩
      unfold runTrace
      simp only [hq, h1, Option.some_bind, hk, Option.map_some']

theorem visit_enqueues_once {e : AdjacencyList} {t t' : Traversal} {current : NodeId}
    {q p : List NodeId} {U : List NodeId} (h : visit e t current q = some t')
    (hU : ∀ x ∈ targets e.adjacencyList, x ∈ U)
    (hnd : (p ++ current :: q).Nodup)
    (hin : ∀ x ∈ p ++ current :: q, x ∈ t.visited ∧ x ∈ U) :
    ((p ++ [current]) ++ t'.q).Nodup ∧
      ∀ x ∈ (p ++ [current]) ++ t'.q, x ∈ t'.visited ∧ x ∈ U := by
  have hsub := visit_visited_subset h
  have hsame : ((p ++ [current]) ++ q).Nodup ∧
      ∀ x ∈ (p ++ [current]) ++ q, x ∈ t'.visited ∧ x ∈ U := by
    rw [List.append_assoc, List.singleton_append]
    exact ⟨hnd, fun x hx => ⟨hsub (hin x hx).1, (hin x hx).2⟩⟩
  unfold visit at h
  by_cases hv : current ∈ t.visited
  · simp only [hv, if_true] at h
    cases hl : lookup e.BFS_index current with
    | some i =>
      simp only [hl, Option.map_eq_some'] at h
      obtain ⟨r, _, rfl⟩ := h
      exact hsame
    | none =>
      simp only [hl, Option.map_eq_some'] at h
      obtain ⟨node, hnode, rfl⟩ := h
      obtain ⟨new, heq, hnew, hfresh, _⟩ := expand_eq node.connections q t.visited
      simp only [heq] at hsame ⊢
      have hmem : node ∈ e.adjacencyList := List.mem_iff_getElem?.mpr ⟨_, hnode⟩
      constructor
      · rw [← List.append_assoc]
        refine List.Nodup.append hsame.1 hnew ?_
        intro x hx hx'
        have h1 : x ∈ t.visited := by
          apply (hin x _).1
          rw [List.append_assoc, List.singleton_append] at hx
          exact hx
        exact (hfresh x hx').1 h1
      · intro x hx
        rw [← List.append_assoc] at hx
        rcases List.mem_append.mp hx with hx | hx
        · exact hsame.2 x hx
        · obtain ⟨_, c, hc, hcx⟩ := hfresh x hx
          exact ⟨List.mem_append_right _ hx, hU x (hcx ▸ mem_targets hmem hc)⟩
  · simp only [hv, if_false, Option.some.injEq] at h
    subst h
    exact hsame

theorem runTrace_enqueues_once {e : AdjacencyList} {U : List NodeId}
    (hU : ∀ x ∈ targets e.adjacencyList, x ∈ U) {k : Nat} {t t' : Traversal}
    {p popped : List NodeId} (hnd : (p ++ t.q).Nodup)
    (hin : ∀ x ∈ p ++ t.q, x ∈ t.visited ∧ x ∈ U)
    (h : runTrace e k t = some (popped, t')) :
    ((p ++ popped) ++ t'.q).Nodup ∧
      (∀ x ∈ (p ++ popped) ++ t'.q, x ∈ t'.visited ∧ x ∈ U) ∧ popped.length = k := by
  induction k generalizing t p popped with
  | zero =>
    simp only [runTrace, Option.some.injEq, Prod.mk.injEq] at h
    obtain ⟨rfl, rfl⟩ := h
    rw [List.append_nil]
    exact ⟨hnd, hin, rfl⟩
  | succ k ih =>
    unfold runTrace at h
    rcases hq : t.q with _ | ⟨current, q⟩
    · simp [hq] at h
    · simp only [hq, Option.bind_eq_some, Option.map_eq_some'] at h
      obtain ⟨t1, h1, ⟨rest, t2⟩, h2, h3⟩ := h
      simp only [Prod.mk.injEq] at h3
      obtain ⟨rfl, rfl⟩ := h3
      rw [hq] at hnd hin
      obtain ⟨hnd1, hin1⟩ := visit_enqueues_once h1 hU hnd hin
      obtain ⟨a, b, c⟩ := ih hnd1 hin1 h2
      simp only [List.append_assoc, List.singleton_append] at a b
      refine ⟨by simpa using a, by simpa using b, by simp [c]⟩

theorem length_le_dedup {l U : List NodeId} (hnd : l.Nodup) (hsub : ∀ x ∈ l, x ∈ U) :
    l.length ≤ U.dedup.length := by
  rw [← List.toFinset_card_of_nodup hnd, ← List.card_toFinset]
  apply Finset.card_le_card
  intro x hx
  rw [List.mem_toFinset] at hx ⊢
  exact hsub x hx

theorem targets_subset_nodeIds {records : List Connection} {e : AdjacencyList}
    (post : BuildPost records e) : ∀ x ∈ targets e.adjacencyList, x ∈ nodeIds records := by
  intro x hx
  unfold targets at hx
  simp only [List.mem_flatten, List.mem_map] at hx
  obtain ⟨l, ⟨node, hnode, rfl⟩, hx⟩ := hx
  obtain ⟨c, hc, rfl⟩ := List.mem_map.mp hx
  have := (post.connections_perm node hnode).mem_iff.mp hc
  unfold connectionsOf at this
  obtain ⟨r, hr, rfl⟩ := List.mem_map.mp this
  exact List.mem_append_right _ (List.mem_map.mpr ⟨r, (List.mem_filter.mp hr).1, rfl⟩)

/-- C19 (termination of the worklist traversal). In the state in which `BFS`
processes an adjacency entry, the traversal from the entry runs to an empty
queue within the fuel; after any number `k` of iterations the ids popped so far
and the ids in the queue, which together are the ids enqueued so far, are
pairwise different and visited, and `k`, the number of pops, is at most the
number of distinct node ids of the records. -/
theorem traversal_terminates (L : StdLibrary) (e0 : AdjacencyList)
    (records : List Connection) (j : Nat) (node : AdjacencyListNode) (e : AdjacencyList)
    (h : ProcessedAt L e0 records j node e) :
    (∃ k popped t, runTrace e k (Traversal.start e node.putID) = some (popped, t) ∧
      t.q = [] ∧
      whileLoop e (traversalFuel e) (Traversal.start e node.putID) = some t ∧
      k ≤ (nodeIds records).dedup.length) ∧
    ∀ k popped t, runTrace e k (Traversal.start e node.putID) = some (popped, t) →
      (popped ++ t.q).Nodup ∧ (∀ x ∈ popped ++ t.q, x ∈ t.visited) ∧
      popped.length = k ∧ k ≤ (nodeIds records).dedup.length := by
  obtain ⟨eb, _, post, hj, hadj, _, _, wf, hmem, _, _, _, _⟩ := processedAt_spec h
  have hU : ∀ x ∈ targets e.adjacencyList, x ∈ nodeIds records := by
    rw [hadj]; exact targets_subset_nodeIds post
  have hstart : node.putID ∈ nodeIds records := by
    have hin : node.putID ∈ eb.adjacencyList.map (fun n => n.putID) :=
      List.mem_map.mpr ⟨node, List.mem_iff_getElem?.mpr ⟨j, hj⟩, rfl⟩
    obtain ⟨c, hc, hp⟩ := (post.sources _).mp hin
    exact List.mem_append_left _ (List.mem_map.mpr ⟨c, hc, hp⟩)
  have key : ∀ k popped t,
      runTrace e k (Traversal.start e node.putID) = some (popped, t) →
      (popped ++ t.q).Nodup ∧ (∀ x ∈ popped ++ t.q, x ∈ t.visited) ∧
      popped.length = k ∧ k ≤ (nodeIds records).dedup.length := by
    intro k popped t hk
    have h0 : (([] : List NodeId) ++ (Traversal.start e node.putID).q).Nodup := by
      simp [Traversal.start]
    have h1 : ∀ x ∈ ([] : List NodeId) ++ (Traversal.start e node.putID).q,
        x ∈ (Traversal.start e node.putID).visited ∧ x ∈ nodeIds records := by
      intro x hx
      simp only [Traversal.start, List.nil_append, List.mem_singleton] at hx ⊢
      exact ⟨hx, hx ▸ hstart⟩
    obtain ⟨a, b, c⟩ := runTrace_enqueues_once hU h0 h1 hk
    simp only [List.nil_append] at a b
    refine ⟨a, fun x hx => (b x hx).1, c, ?_⟩
    rw [← c]
    exact length_le_dedup (List.Nodup.sublist (List.sublist_append_left _ _) a)
      (fun x hx => (b x (List.mem_append_left _ hx)).2)
  refine ⟨?_, key⟩
  obtain ⟨t, ht, hq, _⟩ := traversal_total wf (List.length_pos_of_mem hmem) node.putID
  obtain ⟨k, popped, hk, _⟩ := whileLoop_trace ht
  exact ⟨k, popped, t, hk, hq, ht, (key k popped t hk).2.2.2⟩

/-- Witness of `traversal_terminates`: the traversal for `B` in the end-to-end
example, whose records have four distinct node ids. -/
theorem traversal_terminates_witness :
    ProcessedAt StdLibrary.reference freshEngine exampleRecords 1
      { putID := "B".toList, connections := [{ getID := "C".toList, weight := 0x40000000 }] }
      (stateAt exampleRecords 1) ∧
    (nodeIds exampleRecords).dedup.length = 4 ∧
    ∃ k popped t, runTrace (stateAt exampleRecords 1) k
        (Traversal.start (stateAt exampleRecords 1) "B".toList) = some (popped, t) ∧
      t.q = [] ∧ k ≤ 4 :=
  ⟨⟨_, rfl, rfl, rfl⟩, by decide,
    (traversal_terminates StdLibrary.reference freshEngine exampleRecords 1
      { putID := "B".toList, connections := [{ getID := "C".toList, weight := 0x40000000 }] }
      (stateAt exampleRecords 1) ⟨_, rfl, rfl, rfl⟩).1.imp
      (fun _ h => h.imp (fun _ h => h.imp (fun _ h => ⟨h.1, h.2.1, h.2.2.2⟩)))⟩

/-! ## What the closures are -/

theorem edge_iff_connection {records : List Connection} {e : AdjacencyList}
    (post : BuildPost records e) {node : AdjacencyListNode} (hn : node ∈ e.adjacencyList)
    (b : NodeId) : Edge records node.putID b ↔ ∃ c ∈ node.connections, c.getID = b := by
  have hp := post.connections_perm node hn
  constructor
  · rintro ⟨r, hr, hp1, hg⟩
    have : ({ getID := r.getID, weight := r.weight } : Node) ∈
        connectionsOf records node.putID := by
      unfold connectionsOf
      exact List.mem_map.mpr ⟨r, List.mem_filter.mpr ⟨hr, by simpa using hp1⟩, rfl⟩
    exact ⟨_, hp.mem_iff.mpr this, hg⟩
  · rintro ⟨c, hc, hg⟩
    have := hp.mem_iff.mp hc
    unfold connectionsOf at this
    obtain ⟨r, hr, rfl⟩ := List.mem_map.mp this
    obtain ⟨hr1, hr2⟩ := List.mem_filter.mp hr
    exact ⟨r, hr1, by simpa using hr2, hg⟩

theorem follows_iff_slipEdge {records : List Connection} {e : AdjacencyList}
    (post : BuildPost records e) (a b : NodeId) :
    Follows e a b ↔ SlipEdge records a b := by
  by_cases hsrc : ∃ c ∈ records, c.putID = a
  · -- `a` is a source: its position is the one of its own entry
    have hin := (post.sources a).mpr hsrc
    obtain ⟨i, hi⟩ := List.mem_iff_getElem?.mp hin
    rw [List.getElem?_map] at hi
    have hpos := (post.position a i).mpr hi
    rcases hnode : e.adjacencyList[i]? with _ | node
    · rw [hnode] at hi; simp at hi
    · rw [hnode] at hi
      have hput : node.putID = a := by simpa using hi
      have hmem : node ∈ e.adjacencyList := List.mem_iff_getElem?.mpr ⟨i, hnode⟩
      have hE := edge_iff_connection post hmem b
      rw [hput] at hE
      unfold Follows SlipEdge
      simp only [subscript, hpos, Option.getD_some, hnode, Option.some.injEq]
      constructor
      · rintro ⟨node', c, rfl, hc, hg⟩
        exact Or.inl (hE.mpr ⟨c, hc, hg⟩)
      · rintro (hedge | ⟨hno, _⟩)
        · obtain ⟨c, hc, hg⟩ := hE.mp hedge
          exact ⟨node, c, rfl, hc, hg⟩
        · obtain ⟨c, hc, hp⟩ := hsrc
          exact absurd hp (hno c hc)
  · -- `a` is no source: `nodeIndex[a]` is position 0
    have hnone : lookup e.nodeIndex a = none := by
      cases hl : lookup e.nodeIndex a with
      | none => rfl
      | some i =>
        exfalso
        have := (post.position a i).mp hl
        rw [← List.getElem?_map] at this
        exact hsrc ((post.sources a).mp (List.mem_iff_getElem?.mpr ⟨i, this⟩))
    have hnoedge : ¬ Edge records a b := fun ⟨c, hc, hp, _⟩ => hsrc ⟨c, hc, hp⟩
    have hno : ∀ c ∈ records, c.putID ≠ a := fun c hc hp => hsrc ⟨c, hc, hp⟩
    unfold Follows SlipEdge
    simp only [subscript, hnone, Option.getD_none, hnoedge, false_or]
    constructor
    · rintro ⟨node, c, hnode, hc, hg⟩
      have hmem : node ∈ e.adjacencyList := List.mem_iff_getElem?.mpr ⟨0, hnode⟩
      refine ⟨hno, node.putID, ?_, ?_, (edge_iff_connection post hmem b).mpr ⟨c, hc, hg⟩⟩
      · exact (post.sources _).mp (List.mem_map.mpr ⟨node, hmem, rfl⟩)
      · intro r hr
        have hin := (post.sources r.putID).mpr ⟨r, hr, rfl⟩
        obtain ⟨l, hl⟩ : ∃ l, e.adjacencyList = node :: l := by
          rcases hadj : e.adjacencyList with _ | ⟨n0, l⟩
          · rw [hadj] at hnode; simp at hnode
          · rw [hadj] at hnode
            simp only [List.getElem?_cons_zero, Option.some.injEq] at hnode
            exact ⟨l, by rw [hnode]⟩
        have hasc := post.ascending
        rw [hl, List.map_cons] at hasc hin
        rcases List.mem_cons.mp hin with heq | hin
        · exact le_of_eq heq.symm
        · exact le_of_lt (List.rel_of_sorted_cons hasc _ hin)
    · rintro ⟨_, s, hs, hleast, hedge⟩
      have hin := (post.sources s).mpr hs
      obtain ⟨n0, hn0, hput⟩ := List.mem_map.mp hin
      obtain ⟨node, l, hl⟩ : ∃ node l, e.adjacencyList = node :: l := by
        rcases hadj : e.adjacencyList with _ | ⟨n1, l⟩
        · rw [hadj] at hn0; simp at hn0
        · exact ⟨n1, l, rfl⟩
      have hnode : e.adjacencyList[0]? = some node := by
        rw [hl, List.getElem?_cons_zero]
      have hmem : node ∈ e.adjacencyList := by rw [hl]; exact List.mem_cons_self _ _
      have hfirst : node.putID = s := by
        obtain ⟨r, hr, hrp⟩ := (post.sources node.putID).mp (List.mem_map.mpr ⟨node, hmem, rfl⟩)
        have h1 : s ≤ node.putID := hrp ▸ hleast r hr
        have hasc := post.ascending
        rw [hl, List.map_cons] at hasc hin
        rcases List.mem_cons.mp hin with heq | hin
        · exact heq.symm
        · exact absurd (List.rel_of_sorted_cons hasc _ hin) (not_lt.mpr h1)
      rw [← hfirst] at hedge
      obtain ⟨c, hc, hg⟩ := (edge_iff_connection post hmem b).mp hedge
      exact ⟨node, c, hnode, hc, hg⟩

theorem visit_inv {e : AdjacencyList} {F : NodeId → NodeId → Prop} {n : NodeId}
    {t t' : Traversal} {current : NodeId} {q : List NodeId}
    (hF : ∀ a b, Follows e a b ↔ F a b)
    (hpos : ∀ k, subscript t.nodeIndex k 0 = subscript e.nodeIndex k 0)
    (hex : ∀ k i r, lookup e.BFS_index k = some i → e.BFS_result[i]? = some r →
      r.putID = k ∧ ExactFor F r)
    (inv : TravInv F n t) (hq : t.q = current :: q)
    (h : visit e t current q = some t') : TravInv F n t' := by
  unfold visit at h
  by_cases hv : current ∈ t.visited
  · have hcur : current = n ∨ Relation.TransGen F n current := inv.sound current hv
    have reach : ∀ y, Relation.TransGen F current y → Relation.TransGen F n y := by
      intro y hy
      rcases hcur with rfl | hc
      · exact hy
      · exact hc.trans hy
    simp only [hv, if_true] at h
    cases hl : lookup e.BFS_index current with
    | some i =>
      simp only [hl, Option.map_eq_some'] at h
      obtain ⟨r, hr, rfl⟩ := h
      obtain ⟨hput, hexact⟩ := hex _ _ _ hl hr
      rw [ExactFor, hput] at hexact
      constructor
      · exact mem_foldClosure.mpr (Or.inr inv.start_mem)
      · intro x hx
        rcases mem_foldClosure.mp hx with hx | hx
        · exact Or.inr (reach x ((hexact x).mp hx).1)
        · exact inv.sound x hx
      · intro x hx
        have closed : ∀ z, (z = current ∨ Relation.TransGen F current z) →
            ∀ y, F z y → y ∈ foldClosure r.connections t.visited := by
          intro z hz y hzy
          have hy : Relation.TransGen F current y := by
            rcases hz with rfl | hz
            · exact Relation.TransGen.single hzy
            · exact hz.tail hzy
          by_cases hyc : y = current
          · exact mem_foldClosure.mpr (Or.inr (hyc ▸ hv))
          · exact mem_foldClosure.mpr (Or.inl ((hexact y).mpr ⟨hy, hyc⟩))
        rcases mem_foldClosure.mp hx with hx | hx
        · exact Or.inr (closed x (Or.inr ((hexact x).mp hx).1))
        · rcases inv.done x hx with hxq | hxd
          · rw [hq] at hxq
            rcases List.mem_cons.mp hxq with rfl | hxq
            · exact Or.inr (closed x (Or.inl rfl))
            · exact Or.inl hxq
          · exact Or.inr (fun y hy => mem_foldClosure.mpr (Or.inr (hxd y hy)))
    | none =>
      simp only [hl, Option.map_eq_some'] at h
      obtain ⟨node, hnode, rfl⟩ := h
      rw [hpos] at hnode
      have hsucc : ∀ y, F current y ↔ ∃ c ∈ node.connections, c.getID = y := by
        intro y
        rw [← hF]
        unfold Follows
        simp only [hnode, Option.some.injEq]
        constructor
        · rintro ⟨node', c, rfl, hc, hg⟩; exact ⟨c, hc, hg⟩
        · rintro ⟨c, hc, hg⟩; exact ⟨node, c, rfl, hc, hg⟩
      obtain ⟨new, heq, _, hfresh, hall⟩ := expand_eq node.connections q t.visited
      simp only [heq]
      constructor
      · exact List.mem_append_left _ inv.start_mem
      · intro x hx
        rcases List.mem_append.mp hx with hx | hx
        · exact inv.sound x hx
        · obtain ⟨_, c, hc, hg⟩ := hfresh x hx
          exact Or.inr (reach x (Relation.TransGen.single ((hsucc x).mpr ⟨c, hc, hg⟩)))
      · intro x hx
        rcases List.mem_append.mp hx with hx | hx
        · rcases inv.done x hx with hxq | hxd
          · rw [hq] at hxq
            rcases List.mem_cons.mp hxq with rfl | hxq
            · right
              intro y hy
              obtain ⟨c, hc, hg⟩ := (hsucc y).mp hy
              exact hg ▸ hall c hc
            · exact Or.inl (List.mem_append_left _ hxq)
          · exact Or.inr (fun y hy => List.mem_append_left _ (hxd y hy))
        · exact Or.inl (List.mem_append_right _ hx)
  · simp only [hv, if_false, Option.some.injEq] at h
    subst h
    refine ⟨inv.start_mem, inv.sound, ?_⟩
    intro x hx
    rcases inv.done x hx with hxq | hxd
    · rw [hq] at hxq
      rcases List.mem_cons.mp hxq with rfl | hxq
      · exact absurd hx hv
      · exact Or.inl hxq
    · exact Or.inr hxd

theorem whileLoop_inv {e : AdjacencyList} {F : NodeId → NodeId → Prop} {n : NodeId}
    (hF : ∀ a b, Follows e a b ↔ F a b)
    (hex : ∀ k i r, lookup e.BFS_index k = some i → e.BFS_result[i]? = some r →
      r.putID = k ∧ ExactFor F r)
    {fuel : Nat} {t t' : Traversal}
    (hpos : ∀ k, subscript t.nodeIndex k 0 = subscript e.nodeIndex k 0)
    (inv : TravInv F n t) (h : whileLoop e fuel t = some t') :
    TravInv F n t' ∧ t'.q = [] := by
  induction fuel generalizing t with
  | zero => simp [whileLoop] at h
  | succ fuel ih =>
    unfold whileLoop at h
    rcases hq : t.q with _ | ⟨current, q⟩
    · simp only [hq, Option.some.injEq] at h
      subst h
      exact ⟨inv, hq⟩
    · simp only [hq, Option.bind_eq_some] at h
      obtain ⟨t1, h1, h2⟩ := h
      exact ih (fun k => (visit_position h1 k).trans (hpos k))
        (visit_inv hF hpos hex inv hq h1) h2

theorem traversal_exact {e : AdjacencyList} {F : NodeId → NodeId → Prop} (n : NodeId)
    (hF : ∀ a b, Follows e a b ↔ F a b)
    (hex : ∀ k i r, lookup e.BFS_index k = some i → e.BFS_result[i]? = some r →
      r.putID = k ∧ ExactFor F r)
    {fuel : Nat} {t' : Traversal} (h : whileLoop e fuel (Traversal.start e n) = some t') :
    ExactFor F { putID := n, connections := setOfRange (hashErase n t'.visited) } := by
  have inv0 : TravInv F n (Traversal.start e n) := by
    constructor
    · simp [Traversal.start]
    · intro x hx
      simp only [Traversal.start, List.mem_singleton] at hx
      exact Or.inl hx
    · intro x hx
      simp only [Traversal.start, List.mem_singleton] at hx ⊢
      exact Or.inl hx
  obtain ⟨inv, hq⟩ := whileLoop_inv hF hex (fun _ => rfl) inv0 h
  have closed : ∀ x, Relation.TransGen F n x → x ∈ t'.visited := by
    intro x hx
    induction hx with
    | single hnx =>
      rcases inv.done n inv.start_mem with hin | hd
      · rw [hq] at hin; simp at hin
      · exact hd _ hnx
    | tail _ hbc ih =>
      rcases inv.done _ ih with hin | hd
      · rw [hq] at hin; simp at hin
      · exact hd _ hbc
  intro x
  simp only [mem_setOfRange, mem_hashErase]
  constructor
  · rintro ⟨hx, hne⟩
    exact ⟨(inv.sound x hx).resolve_left hne, hne⟩
  · rintro ⟨hx, hne⟩
    exact ⟨closed x hx, hne⟩

theorem ExactInv.at_position {F : NodeId → NodeId → Prop} {e : AdjacencyList}
    (inv : ExactInv F e) :
    ∀ k i r, lookup e.BFS_index k = some i → e.BFS_result[i]? = some r →
      r.putID = k ∧ ExactFor F r := by
  intro k i r hk hr
  obtain ⟨r', hr', hput⟩ := inv.wf.index_valid k i hk
  rw [hr] at hr'
  obtain rfl := Option.some.inj hr'
  exact ⟨hput, inv.exact r (List.mem_iff_getElem?.mpr ⟨i, hr⟩)⟩

theorem visitNode_exact (L : StdLibrary) {F : NodeId → NodeId → Prop} {e e' : AdjacencyList}
    {node : AdjacencyListNode} (inv : ExactInv F e)
    (hdual : ∀ d, lookup e.dual_side_index node.putID = some d →
      ∀ m ∈ d, F node.putID m ∧ F m node.putID)
    (hnew : lookup e.BFS_index node.putID = none)
    (h : visitNode L e node = some e') :
    ∃ cl, e'.BFS_result = e.BFS_result ++ [{ putID := node.putID, connections := cl }] ∧
      ExactFor F { putID := node.putID, connections := cl } := by
  unfold visitNode at h
  cases hd : lookup e.dual_side_index node.putID with
  | none => simp [hd] at h
  | some d =>
    simp only [hd] at h
    cases hff : firstFinalized e.BFS_index (L.iterate d) with
    | some m =>
      obtain ⟨hmem, i0, hi0⟩ := firstFinalized_some hff
      have hne : ¬ node.putID = m := by
        intro heq
        rw [← heq, hnew] at hi0
        exact Option.noConfusion hi0
      simp only [hff, lookup_assign, hne, if_false, hi0, Option.map_eq_some'] at h
      obtain ⟨r, hr, rfl⟩ := h
      refine ⟨_, rfl, ?_⟩
      obtain ⟨hput, hexact⟩ := inv.at_position _ _ _ hi0 hr
      rw [ExactFor, hput] at hexact
      obtain ⟨hnm, hmn⟩ := hdual d hd m ((L.iterate_perm d).mem_iff.mp hmem)
      intro x
      simp only [mem_setErase, mem_setInsert]
      constructor
      · rintro ⟨hx | hx, hxn⟩
        · exact ⟨hx ▸ Relation.TransGen.single hnm, hxn⟩
        · exact ⟨Relation.TransGen.head hnm ((hexact x).mp hx).1, hxn⟩
      · rintro ⟨hx, hxn⟩
        refine ⟨?_, hxn⟩
        by_cases hxm : x = m
        · exact Or.inl hxm
        · exact Or.inr ((hexact x).mpr ⟨Relation.TransGen.head hmn hx, hxm⟩)
    | none =>
      simp only [hff, Option.map_eq_some'] at h
      obtain ⟨t, ht, rfl⟩ := h
      exact ⟨_, rfl, traversal_exact node.putID inv.follows inv.at_position ht⟩

theorem follows_congr {e e' : AdjacencyList} (hadj : e'.adjacencyList = e.adjacencyList)
    (hpos : ∀ k, subscript e'.nodeIndex k 0 = subscript e.nodeIndex k 0) (a b : NodeId) :
    Follows e' a b ↔ Follows e a b := by
  unfold Follows
  rw [hadj, hpos]

theorem visitNodes_exact (L : StdLibrary) {F : NodeId → NodeId → Prop}
    (ns : List AdjacencyListNode) {e e' : AdjacencyList} (inv : ExactInv F e)
    (hnd : (ns.map (fun n => n.putID)).Nodup)
    (hin : ∀ n ∈ ns, n ∈ e.adjacencyList)
    (hdual : ∀ n ∈ ns, ∃ d, lookup e.dual_side_index n.putID = some d ∧
      ∀ m ∈ d, F n.putID m ∧ F m n.putID)
    (hnew : ∀ n ∈ ns, lookup e.BFS_index n.putID = none)
    (h : visitNodes L e ns = some e') : ExactInv F e' := by
  induction ns generalizing e with
  | nil =>
    simp only [visitNodes, Option.some.injEq] at h
    subst h
    exact inv
  | cons n ns ih =>
    rw [List.map_cons, List.nodup_cons] at hnd
    obtain ⟨hn, hnd'⟩ := hnd
    simp only [visitNodes, Option.bind_eq_some] at h
    obtain ⟨e1, h1, h2⟩ := h
    obtain ⟨d, hd, hdF⟩ := hdual n (List.mem_cons_self _ _)
    obtain ⟨e1', cl', h1', hadj1, hdual1, hres1, hidx1, _, _, wf1⟩ :=
      visitNode_spec L inv.wf (hin n (List.mem_cons_self _ _)) ⟨d, hd⟩
        (hnew n (List.mem_cons_self _ _))
    rw [h1] at h1'
    obtain rfl := Option.some.inj h1'
    obtain ⟨cl, hcl, hexact⟩ := visitNode_exact L inv
      (fun d' hd' => by
        rw [hd] at hd'
        obtain rfl := Option.some.inj hd'
        exact hdF)
      (hnew n (List.mem_cons_self _ _)) h1
    obtain ⟨_, _, _, _, hpos1⟩ := visitNode_frame h1
    have inv1 : ExactInv F e1 := by
      refine ⟨wf1, fun a b => (follows_congr hadj1 hpos1 a b).trans (inv.follows a b), ?_⟩
      intro r hr
      rw [hcl] at hr
      rcases List.mem_append.mp hr with hr | hr
      · exact inv.exact r hr
      · rw [List.mem_singleton] at hr
        exact hr ▸ hexact
    have hne : ∀ n' ∈ ns, ¬ n.putID = n'.putID := by
      intro n' hn' heq
      exact hn (List.mem_map.mpr ⟨n', hn', heq.symm⟩)
    exact ih inv1 hnd'
      (fun n' hn' => by rw [hadj1]; exact hin n' (List.mem_cons_of_mem _ hn'))
      (fun n' hn' => by rw [hdual1]; exact hdual n' (List.mem_cons_of_mem _ hn'))
      (fun n' hn' => by
        rw [hidx1, lookup_assign, if_neg (hne n' hn')]
        exact hnew n' (List.mem_cons_of_mem _ hn'))
      h2

theorem dual_edges {records : List Connection} {e : AdjacencyList}
    (post : BuildPost records e) {node : AdjacencyListNode} (hn : node ∈ e.adjacencyList) :
    ∃ d, lookup e.dual_side_index node.putID = some d ∧
      ∀ m, m ∈ d ↔ Edge records node.putID m ∧ Edge records m node.putID := by
  obtain ⟨fwd, hf, _, hfm⟩ := post.forward node hn
  obtain ⟨inv, hi, _, him⟩ := post.inverse node hn
  obtain ⟨d, hd, hdm⟩ := post.dual node hn
  refine ⟨d, hd, ?_⟩
  intro m
  rw [hdm]
  simp only [subscript, hf, hi, Option.getD_some, hfm, him]

/-- The closures of `clear(); build(records); BFS()`: the call returns the stable
sort of a list `pre` with one record per adjacency entry, in the order of the
adjacency list, and the closure of every record is the ascending list of the ids
other than the record's node that are reached from the node by one or more
edges that the traversal follows, `SlipEdge records`. -/
theorem solve_exact (L : StdLibrary) (e0 : AdjacencyList) (records : List Connection) :
    ∃ eb ef pre, build L (clear e0) records = some eb ∧ BuildPost records eb ∧
      solve L e0 records = some ef ∧
      ef.BFS_result = stableSortClosures pre ∧
      pre.map (fun r => r.putID) = eb.adjacencyList.map (fun n => n.putID) ∧
      (∀ r ∈ pre, r.connections.Sorted (· < ·)) ∧
      ∀ r ∈ pre, ExactFor (SlipEdge records) r := by
  obtain ⟨eb, ef, pre, hb, post, hs, hv, _, hres, hkeys, _, hsorted⟩ := solve_spec L e0 records
  have inv0 : ExactInv (SlipEdge records) { eb with BFS_result := [], BFS_index := [] } := by
    refine ⟨post.wellIndexed, ?_, ?_⟩
    · intro a b
      exact (follows_congr rfl (fun _ => rfl) a b).trans (follows_iff_slipEdge post a b)
    · intro r hr
      simp at hr
  have inv := visitNodes_exact L eb.adjacencyList inv0 post.ascending.nodup
    (fun n hn => hn)
    (fun n hn => by
      obtain ⟨d, hd, hdm⟩ := dual_edges post hn
      refine ⟨d, hd, ?_⟩
      intro m hm
      obtain ⟨h1, h2⟩ := (hdm m).mp hm
      exact ⟨Or.inl h1, Or.inl h2⟩)
    (fun n _ => rfl) hv
  exact ⟨eb, ef, pre, hb, post, hs, hres, hkeys, hsorted, inv.exact⟩

theorem sorted_ext {l₁ l₂ : List NodeId} (h₁ : l₁.Sorted (· < ·)) (h₂ : l₂.Sorted (· < ·))
    (h : ∀ x, x ∈ l₁ ↔ x ∈ l₂) : l₁ = l₂ :=
  List.eq_of_perm_of_sorted ((List.perm_ext_iff_of_nodup h₁.nodup h₂.nodup).mpr h) h₁ h₂

theorem solve_closures (L : StdLibrary) (e0 : AdjacencyList) (records : List Connection) :
    ∃ eb ef, build L (clear e0) records = some eb ∧ solve L e0 records = some ef ∧
      ∀ n ∈ eb.adjacencyList, ∃ cl, closureOf ef.BFS_result n.putID = some cl ∧
        cl.Sorted (· < ·) ∧
        ∀ x, x ∈ cl ↔ Relation.TransGen (SlipEdge records) n.putID x ∧ x ≠ n.putID := by
  obtain ⟨eb, ef, pre, hb, post, hs, hres, hkeys, hsorted, hexact⟩ := solve_exact L e0 records
  refine ⟨eb, ef, hb, hs, ?_⟩
  intro n hn
  have hperm := stableSortClosures_perm pre
  have hnd : (ef.BFS_result.map (fun r => r.putID)).Nodup := by
    rw [hres, (hperm.map _).nodup_iff, hkeys]
    exact post.ascending.nodup
  have hin : n.putID ∈ pre.map (fun r => r.putID) := by
    rw [hkeys]; exact List.mem_map.mpr ⟨n, hn, rfl⟩
  obtain ⟨r, hr, hput⟩ := List.mem_map.mp hin
  have hr' : r ∈ ef.BFS_result := by rw [hres]; exact hperm.mem_iff.mpr hr
  refine ⟨r.connections, ?_, hsorted r hr, ?_⟩
  · rw [← hput]; exact closureOf_of_mem hnd hr'
  · have := hexact r hr
    rw [ExactFor, hput] at this
    exact this

theorem reachable_slip {records : List Connection} {a b : NodeId}
    (h : Reachable records a b) : Relation.TransGen (SlipEdge records) a b :=
  Relation.TransGen.mono (fun _ _ h => Or.inl h) h

/-- C15 (completeness). `clear(); build(records); BFS()` returns, and for every
node `n` of the adjacency list, every `v ≠ n` that is reached from `n` by one or
more edges of the input graph is a member of the closure recorded for `n`,
however that closure was made. -/
theorem solve_complete (L : StdLibrary) (e0 : AdjacencyList) (records : List Connection) :
    ∃ eb ef, build L (clear e0) records = some eb ∧ solve L e0 records = some ef ∧
      ∀ n ∈ eb.adjacencyList, ∃ cl, closureOf ef.BFS_result n.putID = some cl ∧
        ∀ v, Reachable records n.putID v → v ≠ n.putID → v ∈ cl := by
  obtain ⟨eb, ef, hb, hs, hcl⟩ := solve_closures L e0 records
  refine ⟨eb, ef, hb, hs, ?_⟩
  intro n hn
  obtain ⟨cl, hc, _, hmem⟩ := hcl n hn
  exact ⟨cl, hc, fun v hv hne => (hmem v).mpr ⟨reachable_slip hv, hne⟩⟩

/-! ## The plain breadth-first search on the input graph -/

theorem edge_iff_connectionsOf (records : List Connection) (a b : NodeId) :
    Edge records a b ↔ ∃ c ∈ connectionsOf records a, c.getID = b := by
  unfold Edge connectionsOf
  constructor
  · rintro ⟨r, hr, hp, hg⟩
    exact ⟨_, List.mem_map.mpr ⟨r, List.mem_filter.mpr ⟨hr, by simpa using hp⟩, rfl⟩, hg⟩
  · rintro ⟨c, hc, hg⟩
    obtain ⟨r, hr, rfl⟩ := List.mem_map.mp hc
    obtain ⟨hr1, hr2⟩ := List.mem_filter.mp hr
    exact ⟨r, hr1, by simpa using hr2, hg⟩

theorem plain_expand_remaining (records : List Connection) (conns : List Node)
    (q v : List NodeId)
    (hc : ∀ c ∈ conns, c.getID ∈ records.map (fun c => c.getID)) :
    (expand conns (q, v)).1.length + remaining records (expand conns (q, v)).2 ≤
      q.length + remaining records v := by
  induction conns generalizing q v with
  | nil => simp [expand]
  | cons c cs ih =>
    have hcs : ∀ c' ∈ cs, c'.getID ∈ records.map (fun c => c.getID) :=
      fun c' h => hc c' (List.mem_cons_of_mem _ h)
    unfold expand
    by_cases h : c.getID ∈ v
    · simp only [h, if_true]; exact ih q v hcs
    · simp only [h, if_false]
      have h1 := ih (q ++ [c.getID]) (v ++ [c.getID]) hcs
      have h2 : remaining records (v ++ [c.getID]) + 1 ≤ remaining records v := by
        unfold remaining
        apply Nat.succ_le_of_lt
        apply Finset.card_lt_card
        rw [Finset.ssubset_iff_of_subset]
        · refine ⟨c.getID, ?_, by simp⟩
          simp only [Finset.mem_sdiff, List.mem_toFinset]
          exact ⟨hc c (List.mem_cons_self _ _), h⟩
        · intro y hy
          simp only [Finset.mem_sdiff, List.mem_toFinset, List.mem_append,
            List.mem_singleton, not_or] at hy ⊢
          exact ⟨hy.1, hy.2.1⟩
      simp only [List.length_append, List.length_singleton] at h1
      omega

theorem plainLoop_exact (records : List Connection) (n : NodeId) (fuel : Nat)
    (q v : List NodeId)
    (inv : TravInv (Edge records) n { q := q, visited := v, nodeIndex := [] })
    (hq : ∀ x ∈ q, x ∈ v) (hfuel : q.length + remaining records v < fuel) :
    ∃ v', plainLoop records fuel (q, v) = some v' ∧
      ∀ x, x ∈ v' ↔ x = n ∨ Reachable records n x := by
  induction fuel generalizing q v with
  | zero => omega
  | succ fuel ih =>
    cases q with
    | nil =>
      refine ⟨v, rfl, ?_⟩
      have closed : ∀ x, Reachable records n x → x ∈ v := by
        intro x hx
        induction hx with
        | single hnx =>
          rcases inv.done n inv.start_mem with hin | hd
          · simp at hin
          · exact hd _ hnx
        | tail _ hbc ih' =>
          rcases inv.done _ ih' with hin | hd
          · simp at hin
          · exact hd _ hbc
      intro x
      constructor
      · exact inv.sound x
      · rintro (rfl | hx)
        · exact inv.start_mem
        · exact closed x hx
    | cons x q =>
      have hxv : x ∈ v := hq x (List.mem_cons_self _ _)
      have hx : x = n ∨ Reachable records n x := inv.sound x hxv
      obtain ⟨new, heq, _, hfresh, hall⟩ := expand_eq (connectionsOf records x) q v
      have hconn : ∀ c ∈ connectionsOf records x,
          c.getID ∈ records.map (fun c => c.getID) := by
        intro c hc
        unfold connectionsOf at hc
        obtain ⟨r, hr, rfl⟩ := List.mem_map.mp hc
        exact List.mem_map.mpr ⟨r, (List.mem_filter.mp hr).1, rfl⟩
      have hm := plain_expand_remaining records (connectionsOf records x) q v hconn
      simp only [plainLoop]
      rw [heq] at hm ⊢
      apply ih
      · constructor
        · exact List.mem_append_left _ inv.start_mem
        · intro y hy
          rcases List.mem_append.mp hy with hy | hy
          · exact inv.sound y hy
          · obtain ⟨_, c, hc, hg⟩ := hfresh y hy
            have hxy : Edge records x y := (edge_iff_connectionsOf records x y).mpr ⟨c, hc, hg⟩
            right
            rcases hx with rfl | hx
            · exact Relation.TransGen.single hxy
            · exact hx.tail hxy
        · intro y hy
          simp only at hy ⊢
          rcases List.mem_append.mp hy with hy | hy
          · rcases inv.done y hy with hyq | hyd
            · rcases List.mem_cons.mp hyq with rfl | hyq
              · right
                intro z hz
                obtain ⟨c, hc, hg⟩ := (edge_iff_connectionsOf records y z).mp hz
                exact hg ▸ hall c hc
              · exact Or.inl (List.mem_append_left _ hyq)
            · exact Or.inr (fun z hz => List.mem_append_left _ (hyd z hz))
          · exact Or.inl (List.mem_append_right _ hy)
      · intro y hy
        rcases List.mem_append.mp hy with hy | hy
        · exact List.mem_append_left _ (hq y (List.mem_cons_of_mem _ hy))
        · exact List.mem_append_right _ hy
      · simp only [List.length_cons] at hfuel
        simp only at hm
        omega

theorem plainClosure_exact (records : List Connection) (n : NodeId) :
    ∃ cl, plainClosure records n = some cl ∧ cl.Sorted (· < ·) ∧
      ∀ x, x ∈ cl ↔ Reachable records n x ∧ x ≠ n := by
  have inv0 : TravInv (Edge records) n { q := [n], visited := [n], nodeIndex := [] } := by
    constructor
    · simp
    · intro x hx
      exact Or.inl (by simpa using hx)
    · intro x hx
      exact Or.inl (by simpa using hx)
  have hfuel : [n].length + remaining records [n] < records.length + 2 := by
    have h1 : remaining records [n] ≤ (records.map (fun c => c.getID)).toFinset.card :=
      Finset.card_le_card Finset.sdiff_subset
    have h2 := List.toFinset_card_le (records.map (fun c => c.getID))
    rw [List.length_map] at h2
    simp only [List.length_singleton]
    omega
  obtain ⟨v', hv', hmem⟩ := plainLoop_exact records n _ [n] [n] inv0 (fun x hx => hx) hfuel
  refine ⟨setOfRange (hashErase n v'), by simp [plainClosure, hv'], sorted_setOfRange _, ?_⟩
  intro x
  simp only [mem_setOfRange, mem_hashErase, hmem]
  constructor
  · rintro ⟨hx, hne⟩
    exact ⟨hx.resolve_left hne, hne⟩
  · rintro ⟨hx, hne⟩
    exact ⟨Or.inr hx, hne⟩

/-! ## Sink-free graphs, and the order of the dual-side sets -/

theorem reachable_target {records : List Connection} {a b : NodeId}
    (h : Reachable records a b) : ∃ c ∈ records, c.getID = b := by
  cases h with
  | single hab =>
    obtain ⟨c, hc, _, hg⟩ := hab
    exact ⟨c, hc, hg⟩
  | tail _ hcb =>
    obtain ⟨c, hc, _, hg⟩ := hcb
    exact ⟨c, hc, hg⟩

theorem slip_reachable {records : List Connection} (hsf : SinkFree records) {n x : NodeId}
    (hn : ∃ c ∈ records, c.putID = n)
    (h : Relation.TransGen (SlipEdge records) n x) : Reachable records n x := by
  induction h with
  | single hnx =>
    rcases hnx with hedge | ⟨hno, _⟩
    · exact Relation.TransGen.single hedge
    · obtain ⟨c, hc, hp⟩ := hn
      exact absurd hp (hno c hc)
  | tail _ hbc ih =>
    rcases hbc with hedge | ⟨hno, _⟩
    · exact ih.tail hedge
    · obtain ⟨c, hc, hg⟩ := reachable_target ih
      obtain ⟨c', hc', hp⟩ := hsf c hc
      exact absurd (hp.trans hg) (hno c' hc')

/-- C16 (sink-free graphs). When every target of the records is also a source,
`clear(); build(records); BFS()` returns, and the closure recorded for every
node `n` of the adjacency list, shortcut or not, is the result of the plain
breadth-first search from `n` on the input graph with `n` removed: exactly the
ids other than `n` that are reached from `n` by one or more edges. -/
theorem sinkfree_closures_exact (L : StdLibrary) (e0 : AdjacencyList)
    (records : List Connection) (hsf : SinkFree records) :
    ∃ eb ef, build L (clear e0) records = some eb ∧ solve L e0 records = some ef ∧
      ∀ n ∈ eb.adjacencyList, ∃ cl, closureOf ef.BFS_result n.putID = some cl ∧
        plainClosure records n.putID = some cl ∧
        ∀ x, x ∈ cl ↔ Reachable records n.putID x ∧ x ≠ n.putID := by
  obtain ⟨eb, ef, hb, hs, hcl⟩ := solve_closures L e0 records
  obtain ⟨eb', hb', post⟩ := build_clear_post L e0 records
  rw [hb] at hb'
  obtain rfl := Option.some.inj hb'
  refine ⟨eb, ef, hb, hs, ?_⟩
  intro n hn
  obtain ⟨cl, hc, hsorted, hmem⟩ := hcl n hn
  obtain ⟨cl', hc', hsorted', hmem'⟩ := plainClosure_exact records n.putID
  have hsrc : ∃ c ∈ records, c.putID = n.putID :=
    (post.sources _).mp (List.mem_map.mpr ⟨n, hn, rfl⟩)
  have hiff : ∀ x, x ∈ cl ↔ Reachable records n.putID x ∧ x ≠ n.putID := by
    intro x
    rw [hmem]
    constructor
    · rintro ⟨h1, h2⟩; exact ⟨slip_reachable hsf hsrc h1, h2⟩
    · rintro ⟨h1, h2⟩; exact ⟨reachable_slip h1, h2⟩
  have heq : cl' = cl := sorted_ext hsorted' hsorted (fun x => by rw [hmem', hiff])
  exact ⟨cl, hc, heq ▸ hc', hiff⟩

/-- Witness of `sinkfree_closures_exact`: the end-to-end example is sink-free, and
the plain search from `D` gives `{A, B, C}`, the closure recorded for `D`. -/
theorem sinkfree_closures_exact_witness :
    SinkFree exampleRecords ∧
    plainClosure exampleRecords "D".toList = some ["A".toList, "B".toList, "C".toList] ∧
    ∃ eb ef, build StdLibrary.reference (clear freshEngine) exampleRecords = some eb ∧
      solve StdLibrary.reference freshEngine exampleRecords = some ef ∧
      ∀ n ∈ eb.adjacencyList, ∃ cl, closureOf ef.BFS_result n.putID = some cl ∧
        plainClosure exampleRecords n.putID = some cl ∧
        ∀ x, x ∈ cl ↔ Reachable exampleRecords n.putID x ∧ x ≠ n.putID :=
  ⟨by unfold SinkFree; decide, by decide,
    sinkfree_closures_exact StdLibrary.reference freshEngine exampleRecords
      (by unfold SinkFree; decide)⟩

theorem processedAt_exact {L : StdLibrary} {e0 : AdjacencyList} {records : List Connection}
    {j : Nat} {node : AdjacencyListNode} {e : AdjacencyList}
    (h : ProcessedAt L e0 records j node e) : ExactInv (SlipEdge records) e := by
  obtain ⟨eb, hb, hj, hv⟩ := h
  obtain ⟨eb', hb', post⟩ := build_clear_post L e0 records
  rw [hb] at hb'
  obtain rfl := Option.some.inj hb'
  have hsub : (eb.adjacencyList.take j).Sublist eb.adjacencyList := List.take_sublist _ _
  have inv0 : ExactInv (SlipEdge records) { eb with BFS_result := [], BFS_index := [] } := by
    refine ⟨post.wellIndexed, ?_, ?_⟩
    · intro a b
      exact (follows_congr rfl (fun _ => rfl) a b).trans (follows_iff_slipEdge post a b)
    · intro r hr
      simp at hr
  exact visitNodes_exact L (eb.adjacencyList.take j) inv0
    ((hsub.map _).nodup post.ascending.nodup)
    (fun n hn => hsub.subset hn)
    (fun n hn => by
      obtain ⟨d, hd, hdm⟩ := dual_edges post (hsub.subset hn)
      refine ⟨d, hd, ?_⟩
      intro m hm
      obtain ⟨h1, h2⟩ := (hdm m).mp hm
      exact ⟨Or.inl h1, Or.inl h2⟩)
    (fun n _ => rfl) hv

theorem shortcut_exact {F : NodeId → NodeId → Prop} {n m : NodeId} {r : BFSNode}
    (hput : r.putID = m) (hexact : ExactFor F r) (hnm : F n m) (hmn : F m n) (x : NodeId) :
    (x ∈ r.connections ∨ x = m) ∧ x ≠ n ↔ Relation.TransGen F n x ∧ x ≠ n := by
  rw [ExactFor, hput] at hexact
  constructor
  · rintro ⟨hx | hx, hxn⟩
    · exact ⟨Relation.TransGen.head hnm ((hexact x).mp hx).1, hxn⟩
    · exact ⟨hx ▸ Relation.TransGen.single hnm, hxn⟩
  · rintro ⟨hx, hxn⟩
    refine ⟨?_, hxn⟩
    by_cases hxm : x = m
    · exact Or.inr hxm
    · exact Or.inl ((hexact x).mpr ⟨Relation.TransGen.head hmn hx, hxm⟩)

theorem records_ext (pre pre' : List BFSNode)
    (hkeys : pre.map (fun r => r.putID) = pre'.map (fun r => r.putID))
    (hconn : ∀ r ∈ pre, ∀ r' ∈ pre', r.putID = r'.putID → r.connections = r'.connections) :
    pre = pre' := by
  induction pre generalizing pre' with
  | nil =>
    cases pre' with
    | nil => rfl
    | cons r' t' => simp at hkeys
  | cons r t ih =>
    cases pre' with
    | nil => simp at hkeys
    | cons r' t' =>
      simp only [List.map_cons, List.cons.injEq] at hkeys
      have hc := hconn r (List.mem_cons_self _ _) r' (List.mem_cons_self _ _) hkeys.1
      have hr : r = r' := by
        cases r; cases r'
        simp only at hkeys hc
        simp [hkeys.1, hc]
      rw [hr, ih t' hkeys.2 (fun a ha a' ha' =>
        hconn a (List.mem_cons_of_mem _ ha) a' (List.mem_cons_of_mem _ ha'))]

theorem solve_result_unique (L L' : StdLibrary) (e0 e0' : AdjacencyList)
    (records : List Connection) :
    (solve L' e0' records).map (fun ef => ef.BFS_result) =
      (solve L e0 records).map (fun ef => ef.BFS_result) := by
  obtain ⟨eb, ef, pre, _, post, hs, hres, hkeys, hsorted, hexact⟩ := solve_exact L e0 records
  obtain ⟨eb', ef', pre', _, post', hs', hres', hkeys', hsorted', hexact'⟩ :=
    solve_exact L' e0' records
  have hadj : eb'.adjacencyList.map (fun n => n.putID) =
      eb.adjacencyList.map (fun n => n.putID) :=
    sorted_ext post'.ascending post.ascending
      (fun x => by rw [post'.sources, post.sources])
  have hpre : pre' = pre := by
    apply records_ext
    · rw [hkeys', hkeys, hadj]
    · intro r' hr' r hr hput
      apply sorted_ext (hsorted' r' hr') (hsorted r hr)
      intro x
      rw [hexact' r' hr' x, hexact r hr x, hput]
  rw [hs, hs', Option.map_some', Option.map_some', hres, hres', hpre]

/-- C17 (independence from the dual-side iteration order). The result list of
`clear(); build(records); BFS()` is the same for every iteration order of the
dual-side sets (and every choice of the sorts).  When a node is processed and
`m1`, `m2` are two members of its dual-side set that are finalized, with the
records `r1`, `r2`, the copy shortcut gives the same closure from either:
(closure(m1) ∪ {m1}) \ {node} = (closure(m2) ∪ {m2}) \ {node}. -/
theorem dual_order_irrelevant (L : StdLibrary) (e0 : AdjacencyList)
    (records : List Connection) :
    (∀ (L' : StdLibrary) (e0' : AdjacencyList),
      (solve L' e0' records).map (fun ef => ef.BFS_result) =
        (solve L e0 records).map (fun ef => ef.BFS_result)) ∧
    ∀ j node e d m1 m2 i1 i2 r1 r2, ProcessedAt L e0 records j node e →
      lookup e.dual_side_index node.putID = some d → m1 ∈ d → m2 ∈ d →
      lookup e.BFS_index m1 = some i1 → e.BFS_result[i1]? = some r1 →
      lookup e.BFS_index m2 = some i2 → e.BFS_result[i2]? = some r2 →
      setErase node.putID (setInsert m1 r1.connections) =
        setErase node.putID (setInsert m2 r2.connections) ∧
      ∀ x, (x ∈ r1.connections ∨ x = m1) ∧ x ≠ node.putID ↔
        (x ∈ r2.connections ∨ x = m2) ∧ x ≠ node.putID := by
  refine ⟨fun L' e0' => solve_result_unique L L' e0 e0' records, ?_⟩
  intro j node e d m1 m2 i1 i2 r1 r2 h hd hm1 hm2 h1 hr1 h2 hr2
  have inv := processedAt_exact h
  obtain ⟨eb, _, post, hj, hadj, hdual, _, wf, hmem, _, _, _, _⟩ := processedAt_spec h
  obtain ⟨d', hd', hdm⟩ := dual_edges post (List.mem_iff_getElem?.mpr ⟨j, hj⟩)
  rw [← hdual, hd] at hd'
  obtain rfl := Option.some.inj hd'
  obtain ⟨hp1, hx1⟩ := inv.at_position _ _ _ h1 hr1
  obtain ⟨hp2, hx2⟩ := inv.at_position _ _ _ h2 hr2
  obtain ⟨e1a, e1b⟩ := (hdm m1).mp hm1
  obtain ⟨e2a, e2b⟩ := (hdm m2).mp hm2
  have key : ∀ x, (x ∈ r1.connections ∨ x = m1) ∧ x ≠ node.putID ↔
      (x ∈ r2.connections ∨ x = m2) ∧ x ≠ node.putID := by
    intro x
    rw [shortcut_exact hp1 hx1 (Or.inl e1a) (Or.inl e1b) x,
      shortcut_exact hp2 hx2 (Or.inl e2a) (Or.inl e2b) x]
  refine ⟨?_, key⟩
  apply sorted_ext
  · exact sorted_setErase _ (sorted_setInsert _
      (wf.closures_sorted r1 (List.mem_iff_getElem?.mpr ⟨_, hr1⟩)))
  · exact sorted_setErase _ (sorted_setInsert _
      (wf.closures_sorted r2 (List.mem_iff_getElem?.mpr ⟨_, hr2⟩)))
  · intro x
    simp only [mem_setErase, mem_setInsert]
    have := key x
    tauto

/-- An instance of `dual_order_irrelevant`: on `A → C`, `C → A`, `B → C`, `C → B` the
node `C` is processed when both members `A` and `B` of its dual-side set are
finalized, with the closures `{B, C}` and `{A, C}`; the shortcut gives `{A, B}`
from either. -/
theorem dual_order_irrelevant_witness :
    ProcessedAt StdLibrary.reference freshEngine twoNeighbours 2
      { putID := "C".toList,
        connections := [{ getID := "A".toList, weight := 0x40000000 },
                        { getID := "B".toList, weight := 0x40800000 }] }
      (stateAt twoNeighbours 2) ∧
    lookup (stateAt twoNeighbours 2).dual_side_index "C".toList =
      some ["A".toList, "B".toList] ∧
    setErase "C".toList (setInsert "A".toList ["B".toList, "C".toList]) =
      setErase "C".toList (setInsert "B".toList ["A".toList, "C".toList]) :=
  ⟨⟨_, rfl, rfl, rfl⟩, by decide,
    ((dual_order_irrelevant StdLibrary.reference freshEngine twoNeighbours).2 2
      { putID := "C".toList,
        connections := [{ getID := "A".toList, weight := 0x40000000 },
                        { getID := "B".toList, weight := 0x40800000 }] }
      (stateAt twoNeighbours 2) ["A".toList, "B".toList] "A".toList "B".toList 0 1
      { putID := "A".toList, connections := ["B".toList, "C".toList] }
      { putID := "B".toList, connections := ["A".toList, "C".toList] }
      ⟨_, rfl, rfl, rfl⟩ (by decide) (by decide) (by decide) (by decide) (by decide)
      (by decide) (by decide)).1⟩

end FastBFS
